import Mathlib

set_option linter.unusedVariables false

namespace Profilesync

/-!
Shallow embedding of the profilesync mirror engine (src/profilesync/sync.py),
its selected-apply and hard-reset path (src/profilesync/tui.py,
PushScreen._execute_push), and the push command flow
(src/profilesync/commands.py together with src/profilesync/git.py).

Modelling conventions:
* A filesystem path is its list of segments (`Path := List String`).
* A filesystem is an association list from paths to files, listed in
  directory-walk order; `Path.rglob` enumerates matching files in list order.
* A file carries its content (abstracted to a `Nat`) and its modification
  time.  `sha256_file` reads only the content; the SHA-256 digest is
  modelled as an injective function of the content, so digest comparison is
  content comparison.
* Directories are implicit: `Path.exists()` holds iff a file lies at or
  under the path.  `mkdir(parents=True, exist_ok=True)` is therefore a no-op
  in the model: the mirror code never observes an empty directory
  differently from a missing one (`rglob` of either is empty and the
  expected-set bookkeeping is unchanged), and the `if dst_root.exists()`
  guard before the deletion pass is vacuous because `dst_root` was just
  created (in the model, a file-less `dst_root` simply yields an empty
  enumeration, which the guard-false branch would also produce).
-/

abbrev Path := List String

structure File where
  content : Nat
  mtime : Nat
deriving DecidableEq, Repr, Inhabited

abbrev FS := List (Path × File)

/-- A change entry as built by sync.py: `(src, dst)` tuples where a `None`
source marks a deletion of `dst`. -/
abbrev ChangeEntry := Option Path × Path

/-- sha256_file (src/profilesync/git.py, lines 405-411) hashes the bytes of
the file; it never reads timestamps.  The digest is modelled as the content
itself (an injective digest, ignoring SHA-256 collisions). -/
def sha256_file (f : File) : Nat := f.content

/-- `isUnder d p`: `d` is `p` or an ancestor of `p` (segment-wise prefix). -/
def isUnder : Path → Path → Bool
  | [], _ => true
  | _ :: _, [] => false
  | a :: d, b :: p => decide (a = b) && isUnder d p

/-- `p` lies strictly inside directory `d`. -/
def underDir (d p : Path) : Bool := isUnder d p && !decide (d = p)

/-- Neither path is equal to or an ancestor of the other. -/
def disjointPaths (a b : Path) : Bool := !isUnder a b && !isUnder b a

def jsonSuffix : String := ".json"

/-- fnmatch against the `*.json` pattern used by every `rglob` call: the
name ends with ".json" (stated on the character lists so that it
evaluates by kernel reduction). -/
def isJsonName (s : String) : Bool := jsonSuffix.data.isSuffixOf s.data

def isJsonPath (p : Path) : Bool :=
  match p.getLast? with
  | some s => isJsonName s
  | none => false

def lookupFile : FS → Path → Option File
  | [], _ => none
  | e :: t, p => if e.1 = p then some e.2 else lookupFile t p

/-- `shutil.copy2`-style write: overwrite in place if the path is present
(keeping its position in walk order), otherwise the new file appears at the
end of the walk. Copies content and metadata (mtime) alike. -/
def writeFile : FS → Path → File → FS
  | [], p, f => [(p, f)]
  | e :: t, p, f => if e.1 = p then (p, f) :: t else e :: writeFile t p f

/-- `Path.unlink`. -/
def removeFile (l : FS) (p : Path) : FS := l.filter (fun e => !decide (e.1 = p))

/-- `Path.exists()`: the path is a file, or some file lies under it (a
non-empty directory). -/
def pathOnDisk (fs : FS) (p : Path) : Bool := fs.any (fun e => isUnder p e.1)

/-- `d.rglob("*.json")`: every file strictly under `d` whose name matches
`*.json`, in walk order. -/
def rglobJson (fs : FS) (d : Path) : List Path :=
  (fs.map Prod.fst).filter (fun p => underDir d p && isJsonPath p)

/-- REPO_PROFILES_DIR (src/profilesync/git.py line 19). -/
def REPO_PROFILES_DIR : String := "profiles"

/-- The relevant fields of Config (src/profilesync/config.py):
`repo_dir`, `enabled_slicers`, `slicer_profile_dirs`. -/
structure Config where
  repoDir : Path
  enabledSlicers : List String
  slicerProfileDirs : List (String × List Path)

/-- `cfg.slicer_profile_dirs.get(key, [])` (keys of a Python dict are
unique, so first match). -/
def getDirs : List (String × List Path) → String → List Path
  | [], _ => []
  | e :: t, k => if e.1 = k then e.2 else getDirs t k

def Config.dirsOf (cfg : Config) (k : String) : List Path :=
  getDirs cfg.slicerProfileDirs k

/-- `repo_dir / REPO_PROFILES_DIR / slicer_key`. -/
def Config.dstRootOf (cfg : Config) (k : String) : Path :=
  cfg.repoDir ++ [REPO_PROFILES_DIR, k]

/-- `repo_dir / REPO_PROFILES_DIR`. -/
def Config.profilesRoot (cfg : Config) : Path :=
  cfg.repoDir ++ [REPO_PROFILES_DIR]

/-- `dst = dst_root / src.relative_to(d)`. -/
def dstOf (dstRoot d src : Path) : Path := dstRoot ++ src.drop d.length

structure ScanSt where
  fs : FS
  expected : List Path
  entries : List ChangeEntry

/-- One iteration of the inner loop of export_from_slicers_to_repo
(src/profilesync/sync.py lines 55-65): record the expected repo file, then
copy unless the destination already has the same content hash.  The
source is taken from the enumeration, so the vanished-source branch (where
`shutil.copy2` would raise) is unreachable and modelled as a skip. -/
def scanFile (dstRoot d : Path) (st : ScanSt) (src : Path) : ScanSt :=
  let dst := dstOf dstRoot d src
  let expected := dst :: st.expected
  match lookupFile st.fs src with
  | none => { st with expected := expected }
  | some f =>
    match lookupFile st.fs dst with
    | some g =>
      if sha256_file f = sha256_file g then { st with expected := expected }
      else { fs := writeFile st.fs dst f, expected := expected,
             entries := st.entries ++ [(some src, dst)] }
    | none => { fs := writeFile st.fs dst f, expected := expected,
                entries := st.entries ++ [(some src, dst)] }

/-- `if not d.exists(): continue` and the walk over `d.rglob("*.json")`
(sync.py lines 52-65).  The enumeration is the walk of the directory at
loop entry; the loop itself only mutates the repository tree. -/
def scanDir (dstRoot : Path) (st : ScanSt) (d : Path) : ScanSt :=
  if pathOnDisk st.fs d then (rglobJson st.fs d).foldl (scanFile dstRoot d) st
  else st

/-- One iteration of the deletion pass (sync.py lines 69-73): unlink any
repo file that is not expected and record a null-source entry. -/
def deleteStale (expected : List Path) (st : FS × List ChangeEntry) (p : Path) :
    FS × List ChangeEntry :=
  if p ∈ expected then st else (removeFile st.1 p, st.2 ++ [(none, p)])

/-- The body of the outer per-slicer loop of export_from_slicers_to_repo
(sync.py lines 44-73): scan every configured dir, then delete stale repo
files under this slicer's subtree. -/
def scanSlicer (cfg : Config) (st : FS × List ChangeEntry) (k : String) :
    FS × List ChangeEntry :=
  let dstRoot := cfg.dstRootOf k
  let s1 := (cfg.dirsOf k).foldl (scanDir dstRoot)
    { fs := st.1, expected := [], entries := st.2 }
  (rglobJson s1.fs dstRoot).foldl (deleteStale s1.expected) (s1.fs, s1.entries)

/-- export_from_slicers_to_repo (src/profilesync/sync.py lines 35-75).
Returns the final filesystem and the `copied` list of change entries. -/
def export_from_slicers_to_repo (cfg : Config) (fs : FS) :
    FS × List ChangeEntry :=
  cfg.enabledSlicers.foldl (scanSlicer cfg) (fs, [])

/-- One iteration of export_selected_to_repo (sync.py lines 337-349):
a null source deletes the destination if present; otherwise copy unless the
content hashes already match.  A missing copy source (where `shutil.copy2`
would raise) is modelled as a skip; it is unreachable when the selection
comes from a scan over unchanged sources. -/
def applySel (st : FS × List ChangeEntry) (e : ChangeEntry) :
    FS × List ChangeEntry :=
  match e with
  | (none, dst) =>
    if (lookupFile st.1 dst).isSome then
      (removeFile st.1 dst, st.2 ++ [(none, dst)])
    else st
  | (some src, dst) =>
    match lookupFile st.1 src with
    | none => st
    | some f =>
      match lookupFile st.1 dst with
      | some g =>
        if sha256_file f = sha256_file g then st
        else (writeFile st.1 dst f, st.2 ++ [(some src, dst)])
      | none => (writeFile st.1 dst f, st.2 ++ [(some src, dst)])

/-- export_selected_to_repo (src/profilesync/sync.py lines 328-351). -/
def export_selected_to_repo (cfg : Config) (fs : FS)
    (selected : List ChangeEntry) : FS × List ChangeEntry :=
  selected.foldl applySel (fs, [])

/-- One iteration of the copy loop of import_from_repo_to_slicers
(sync.py lines 164-171). -/
def importFile (srcRoot dstBase : Path) (st : FS × List ChangeEntry)
    (src : Path) : FS × List ChangeEntry :=
  let dst := dstBase ++ src.drop srcRoot.length
  match lookupFile st.1 src with
  | none => st
  | some f =>
    match lookupFile st.1 dst with
    | some g =>
      if sha256_file f = sha256_file g then st
      else (writeFile st.1 dst f, st.2 ++ [(some src, dst)])
    | none => (writeFile st.1 dst f, st.2 ++ [(some src, dst)])

/-- The per-slicer body of import_from_repo_to_slicers (sync.py lines
152-171): skip when the repo subtree does not exist or no directory is
configured; otherwise copy into the first configured directory. -/
def importSlicer (cfg : Config) (st : FS × List ChangeEntry) (k : String) :
    FS × List ChangeEntry :=
  let srcRoot := cfg.dstRootOf k
  if pathOnDisk st.1 srcRoot then
    match cfg.dirsOf k with
    | [] => st
    | dstBase :: _ => (rglobJson st.1 srcRoot).foldl (importFile srcRoot dstBase) st
  else st

/-- import_from_repo_to_slicers (src/profilesync/sync.py lines 144-172). -/
def import_from_repo_to_slicers (cfg : Config) (fs : FS) :
    FS × List ChangeEntry :=
  cfg.enabledSlicers.foldl (importSlicer cfg) (fs, [])

/-- `git checkout HEAD -- . && git clean -fd` run in `root` (tui.py lines
676-679): the whole worktree under `root` becomes the given snapshot. -/
def replaceSubtree (root : Path) (snapshot : FS) (fs : FS) : FS :=
  fs.filter (fun e => !isUnder root e.1) ++ snapshot

def subtreeOf (root : Path) (fs : FS) : FS :=
  fs.filter (fun e => isUnder root e.1)

/-- The subset branch of PushScreen._execute_push (src/profilesync/tui.py
lines 674-680): hard-reset the worktree to the HEAD snapshot, then re-apply
only the selected entries.  `head` is the committed tree (absolute paths
under `cfg.repoDir`). -/
def subset_push_apply (cfg : Config) (head : FS) (fs : FS)
    (selected : List ChangeEntry) : FS :=
  let fs1 := (export_from_slicers_to_repo cfg fs).1
  let fs2 := replaceSubtree cfg.repoDir head fs1
  (export_selected_to_repo cfg fs2 selected).1

/-- The repo worktree (paths relative to the repo root) at the moment a
rebase stops on conflicts; supplied by the git engine, which only ever
rewrites files inside the clone. -/
structure ConflictOracle where
  conflictedTree : FS

/-- The push attempt up to a conflicted rebase that the user declines to
resolve (cmd_sync step 2 exports, do_push commits and rebases  —
src/profilesync/commands.py lines 506-531 and 720-728 — and
interactive_resolve_conflicts lines 353-382 runs `git rebase --abort`,
which restores the pre-rebase worktree).  Committing does not change the
worktree; the rebase and its abort rewrite files only inside the clone. -/
def push_attempt_declined (cfg : Config) (o : ConflictOracle) (fs : FS) : FS :=
  let fs1 := (export_from_slicers_to_repo cfg fs).1
  let preRebase := subtreeOf cfg.repoDir fs1
  let fs2 := replaceSubtree cfg.repoDir
    (o.conflictedTree.map (fun e => (cfg.repoDir ++ e.1, e.2))) fs1
  replaceSubtree cfg.repoDir preRebase fs2

/-! ### The push command flow (do_push, src/profilesync/commands.py 668-760) -/

inductive RebaseOutcome
  | ok
  | failedWithConflicts
  | failedClean
deriving DecidableEq

/-- The git-visible state do_push consults: whether HEAD resolves, its
hash, the hash origin/main resolves to (if it exists), whether
`git status --porcelain` is non-empty after `git add -A`, whether
origin/main is an ancestor of HEAD, and whether upstream tracking is set. -/
structure GitState where
  hasCommits : Bool
  localHead : Nat
  originMain : Option Nat
  statusDirty : Bool
  remoteIsAncestor : Bool
  upstreamSet : Bool
  freshCommitId : Nat
deriving DecidableEq

/-- Outcomes of the interactive prompts and of the git subprocesses that
do_push runs. -/
structure PushOracle where
  confirmDivergencePush : Bool
  rebase : RebaseOutcome
  conflictsResolved : Bool
  upstreamPushMainOk : Bool
  upstreamPushBranchOk : Bool
  trackedPushOk : Bool
deriving DecidableEq

structure PushResult where
  exitCode : Nat
  pushCommands : Nat
  alreadySynced : Bool
deriving DecidableEq, Repr

/-- git_commit_if_needed (src/profilesync/git.py lines 271-278): stage all,
commit iff the tree is dirty; returns whether a commit was made. -/
def gitCommitIfNeeded (g : GitState) : GitState × Bool :=
  if g.statusDirty then
    let g2 : GitState :=
      { g with statusDirty := false, localHead := g.freshCommitId, hasCommits := true }
    (g2, true)
  else (g, false)

/-- The push block of do_push (commands.py lines 735-756): plain `git push`
when upstream tracking exists; otherwise `push -u origin main`, falling back
to the current branch name.  Returns (exit code, number of push commands
issued). -/
def pushPhase (g : GitState) (o : PushOracle) : Nat × Nat :=
  if g.upstreamSet then
    if o.trackedPushOk then (0, 1) else (1, 1)
  else
    if o.upstreamPushMainOk then (0, 1)
    else if o.upstreamPushBranchOk then (0, 2) else (1, 2)

/-- do_push (src/profilesync/commands.py lines 668-760). -/
def do_push (g0 : GitState) (o : PushOracle) : PushResult :=
  let gc := gitCommitIfNeeded g0
  let g := gc.1
  let committed := gc.2
  let needsPush :=
    if g.hasCommits then
      match g.originMain with
      | none => true
      | some r => decide (g.localHead ≠ r)
    else false
  if !committed && !needsPush then
    { exitCode := 0, pushCommands := 0, alreadySynced := true }
  else
    let declined :=
      if g.hasCommits then
        match g.originMain with
        | some _ => !g.remoteIsAncestor && !o.confirmDivergencePush
        | none => false
      else false
    if declined then { exitCode := 0, pushCommands := 0, alreadySynced := false }
    else
      match o.rebase with
      | .failedClean => { exitCode := 1, pushCommands := 0, alreadySynced := false }
      | .failedWithConflicts =>
        if o.conflictsResolved then
          let r := pushPhase g o
          { exitCode := r.1, pushCommands := r.2, alreadySynced := false }
        else { exitCode := 1, pushCommands := 0, alreadySynced := false }
      | .ok =>
        let r := pushPhase g o
        { exitCode := r.1, pushCommands := r.2, alreadySynced := false }

/-! ### rebuild_exported_from_git (src/profilesync/sync.py lines 78-141) -/

/-- Every name bound at top level of src/profilesync/git.py (its importable
attributes): module-level imports and constants followed by its `def`s. -/
def gitModuleBindings : List String :=
  ["annotations", "hashlib", "os", "subprocess", "textwrap", "datetime",
   "Path", "Optional", "urlparse", "Config", "DEFAULT_DATA_DIR", "dim",
   "get_check_symbol", "info", "success", "REPO_PROFILES_DIR", "run",
   "ensure_git_available", "validate_git_remote", "clone_or_open_repo",
   "git_pull_rebase", "git_has_commits", "git_has_conflicts",
   "git_get_conflicted_files", "git_remote_has_profiles",
   "initialize_empty_repo", "git_status_porcelain", "git_head_info",
   "git_commit_if_needed", "git_push", "git_list_commits",
   "git_checkout_commit", "git_checkout_branch", "now_iso",
   "get_computer_id", "suggest_repo_dir_from_remote", "is_inside",
   "find_git_root", "guard_not_dev_repo", "sha256_file"]

/-- rebuild_exported_from_git (sync.py lines 78-141).  Its first statement,
`from .git import git_status_porcelain, _git_unescape` (line 87), executes
at call time and resolves names against the git module's bindings; when the
name is absent the call raises ImportError before reading anything.  The
success branch is unreachable, because git.py binds no `_git_unescape`. -/
def rebuild_exported_from_git (cfg : Config) (statusLines : List String) :
    Except String (List ChangeEntry) :=
  if gitModuleBindings.contains ("_git_unescape") then
    Except.ok []
  else
    Except.error ("ImportError: cannot import name _git_unescape from profilesync.git")

/-! ### Pure characterisation of the scan (specification side) -/

def listFlat {α β : Type} (f : α → List β) : List α → List β
  | [] => []
  | a :: t => f a ++ listFlat f t

def contentOf : Option File → Option Nat := Option.map File.content

/-- `touch p`: change only the modification time of `p`. -/
def touchFile (fs : FS) (p : Path) (t : Nat) : FS :=
  fs.map (fun e => if e.1 = p then (e.1, { e.2 with mtime := t }) else e)

/-- All (source, destination) pairs one directory contributes. -/
def dirPairs (dstRoot : Path) (fs : FS) (d : Path) : List (Path × Path) :=
  if pathOnDisk fs d then
    (rglobJson fs d).map (fun s => (s, dstOf dstRoot d s))
  else []

/-- All (source, destination) pairs a directory list contributes. -/
def enumPairsD (dstRoot : Path) (fs : FS) (dirs : List Path) :
    List (Path × Path) :=
  listFlat (dirPairs dstRoot fs) dirs

/-- All (source, destination) pairs slicer `k` enumerates over `fs`. -/
def enumPairs (cfg : Config) (fs : FS) (k : String) : List (Path × Path) :=
  enumPairsD (cfg.dstRootOf k) fs (cfg.dirsOf k)

/-- The expected repository files of slicer `k` (as a list; the code keeps a
set, of which only membership is consulted). -/
def expectedList (cfg : Config) (fs : FS) (k : String) : List Path :=
  (enumPairs cfg fs k).map Prod.snd

/-- The copy/skip decision as a function of the two content digests. -/
def copyDecide (s d : Path) : Option Nat → Option Nat → Option ChangeEntry
  | some c, some c2 => if c = c2 then none else some (some s, d)
  | some _, none => some (some s, d)
  | none, _ => none

def copyEntryOf (fs : FS) (sd : Path × Path) : Option ChangeEntry :=
  copyDecide sd.1 sd.2 (contentOf (lookupFile fs sd.1))
    (contentOf (lookupFile fs sd.2))

def pureCopies (cfg : Config) (fs : FS) (k : String) : List ChangeEntry :=
  (enumPairs cfg fs k).filterMap (copyEntryOf fs)

/-- The stale repository files of slicer `k`: present under its subtree but
not expected from any source. -/
def delDsts (cfg : Config) (fs : FS) (k : String) : List Path :=
  (rglobJson fs (cfg.dstRootOf k)).filter
    (fun p => decide (p ∉ expectedList cfg fs k))

def pureDels (cfg : Config) (fs : FS) (k : String) : List ChangeEntry :=
  (delDsts cfg fs k).map (fun p => ((none : Option Path), p))

/-- The change-set of one scan, computed in one parallel pass over the
initial filesystem. -/
def pureScan (cfg : Config) (fs : FS) : List ChangeEntry :=
  listFlat (fun k => pureCopies cfg fs k ++ pureDels cfg fs k)
    cfg.enabledSlicers

def allDsts (cfg : Config) (fs : FS) : List Path :=
  listFlat (fun k => expectedList cfg fs k) cfg.enabledSlicers

/-- The well-formedness assumptions under which the scan behaves as a
parallel pass: file paths are unique, no slicer key is enabled twice, the
configured source directories are disjoint from the repository clone, and
no two enumerated source files map to the same repository destination. -/
structure ScanHyp (cfg : Config) (fs : FS) : Prop where
  keysNodup : (fs.map Prod.fst).Nodup
  enabledNodup : cfg.enabledSlicers.Nodup
  srcDisjoint : ∀ k ∈ cfg.enabledSlicers, ∀ d ∈ cfg.dirsOf k,
    disjointPaths d cfg.repoDir = true
  dstsNodup : (allDsts cfg fs).Nodup

/-! ### Basic lemmas about the filesystem primitives -/

theorem lookupFile_nil {p : Path} : lookupFile ([] : FS) p = none := rfl

theorem lookupFile_cons {e : Path × File} {t : FS} {p : Path} :
    lookupFile (e :: t) p = if e.1 = p then some e.2 else lookupFile t p := rfl

theorem lookupFile_none_iff {l : FS} {p : Path} :
    lookupFile l p = none ↔ p ∉ l.map Prod.fst := by
  induction l with
  | nil => simp [lookupFile_nil]
  | cons e t ih =>
    rw [lookupFile_cons]
    by_cases h : e.1 = p
    · subst h
      simp
    · rw [if_neg h]
      simp only [List.map_cons, List.mem_cons, ih]
      constructor
      · intro hn hc
        rcases hc with hc | hc
        · exact h hc.symm
        · exact hn hc
      · intro hn
        exact fun hc => hn (Or.inr hc)

theorem lookupFile_isSome_iff {l : FS} {p : Path} :
    (lookupFile l p).isSome = true ↔ p ∈ l.map Prod.fst := by
  rw [Option.isSome_iff_ne_none, ne_eq, lookupFile_none_iff, not_not]

theorem writeFile_nil {p : Path} {f : File} :
    writeFile ([] : FS) p f = [(p, f)] := rfl

theorem writeFile_cons {e : Path × File} {t : FS} {p : Path} {f : File} :
    writeFile (e :: t) p f =
      if e.1 = p then (p, f) :: t else e :: writeFile t p f := rfl

theorem lookupFile_writeFile_self {l : FS} {p : Path} {f : File} :
    lookupFile (writeFile l p f) p = some f := by
  induction l with
  | nil => simp [writeFile_nil, lookupFile_cons, lookupFile_nil]
  | cons e t ih =>
    rw [writeFile_cons]
    by_cases h : e.1 = p
    · rw [if_pos h, lookupFile_cons, if_pos rfl]
    · rw [if_neg h, lookupFile_cons, if_neg h, ih]

theorem lookupFile_writeFile_ne {l : FS} {p q : Path} {f : File}
    (h : q ≠ p) : lookupFile (writeFile l p f) q = lookupFile l q := by
  induction l with
  | nil =>
    rw [writeFile_nil, lookupFile_cons, lookupFile_nil,
      if_neg (fun hh => h hh.symm)]
  | cons e t ih =>
    rw [writeFile_cons]
    by_cases he : e.1 = p
    · rw [if_pos he, lookupFile_cons, lookupFile_cons,
        if_neg (fun hh : p = q => h hh.symm)]
      rw [if_neg (fun hh : e.1 = q => h (he ▸ hh : p = q).symm)]
    · rw [if_neg he, lookupFile_cons, lookupFile_cons, ih]

theorem removeFile_nil {p : Path} : removeFile ([] : FS) p = [] := rfl

theorem removeFile_cons {e : Path × File} {t : FS} {p : Path} :
    removeFile (e :: t) p =
      if e.1 = p then removeFile t p else e :: removeFile t p := by
  unfold removeFile
  by_cases h : e.1 = p <;> simp [List.filter, h]

theorem lookupFile_removeFile_self {l : FS} {p : Path} :
    lookupFile (removeFile l p) p = none := by
  induction l with
  | nil => rw [removeFile_nil, lookupFile_nil]
  | cons e t ih =>
    rw [removeFile_cons]
    by_cases h : e.1 = p
    · rw [if_pos h, ih]
    · rw [if_neg h, lookupFile_cons, if_neg h, ih]

theorem lookupFile_removeFile_ne {l : FS} {p q : Path}
    (h : q ≠ p) : lookupFile (removeFile l p) q = lookupFile l q := by
  induction l with
  | nil => rw [removeFile_nil]
  | cons e t ih =>
    rw [removeFile_cons]
    by_cases he : e.1 = p
    · rw [if_pos he, lookupFile_cons, ih,
        if_neg (fun hh : e.1 = q => h (he ▸ hh : p = q).symm)]
    · rw [if_neg he, lookupFile_cons, lookupFile_cons, ih]

theorem removeFile_of_absent {l : FS} {p : Path}
    (h : lookupFile l p = none) : removeFile l p = l := by
  rw [lookupFile_none_iff] at h
  apply List.filter_eq_self.mpr
  intro e he
  simp only [Bool.not_eq_true', decide_eq_false_iff_not]
  intro hep
  exact h (hep ▸ List.mem_map_of_mem Prod.fst he)

theorem lookupFile_append_left {l m : FS} {p : Path} {f : File}
    (h : lookupFile l p = some f) : lookupFile (l ++ m) p = some f := by
  induction l with
  | nil => rw [lookupFile_nil] at h; exact absurd h (by simp)
  | cons e t ih =>
    rw [lookupFile_cons] at h
    rw [List.cons_append, lookupFile_cons]
    by_cases he : e.1 = p
    · rw [if_pos he] at h ⊢; exact h
    · rw [if_neg he] at h ⊢; exact ih h

theorem lookupFile_append_right {l m : FS} {p : Path}
    (h : lookupFile l p = none) : lookupFile (l ++ m) p = lookupFile m p := by
  induction l with
  | nil => rw [List.nil_append]
  | cons e t ih =>
    rw [lookupFile_cons] at h
    rw [List.cons_append, lookupFile_cons]
    by_cases he : e.1 = p
    · rw [if_pos he] at h; exact absurd h (by simp)
    · rw [if_neg he] at h ⊢; exact ih h

theorem lookupFile_filter {l : FS} {q : Path → Bool} {p : Path}
    (h : q p = true) :
    lookupFile (l.filter (fun e => q e.1)) p = lookupFile l p := by
  induction l with
  | nil => rfl
  | cons e t ih =>
    by_cases he : e.1 = p
    · subst he
      rw [List.filter_cons, if_pos (by simpa using h), lookupFile_cons,
        if_pos rfl, lookupFile_cons, if_pos rfl]
    · rw [List.filter_cons, lookupFile_cons, if_neg he]
      by_cases hq : q e.1
      · rw [if_pos (by simpa using hq), lookupFile_cons, if_neg he, ih]
      · rw [if_neg (by simpa using hq), ih]

/-! ### Generic filter/any absorption lemmas -/

theorem filter_absorb {α : Type} {f g : α → Bool}
    (h : ∀ a, f a = true → g a = true) (l : List α) :
    (l.filter g).filter f = l.filter f := by
  induction l with
  | nil => rfl
  | cons a t ih =>
    by_cases hf : f a
    · have hg := h a hf
      rw [List.filter_cons, if_pos (by simpa using hg), List.filter_cons,
        if_pos (by simpa using hf), List.filter_cons, if_pos (by simpa using hf), ih]
    · by_cases hg : g a
      · rw [List.filter_cons, if_pos (by simpa using hg), List.filter_cons,
          if_neg (by simpa using hf), List.filter_cons,
          if_neg (by simpa using hf), ih]
      · rw [List.filter_cons, if_neg (by simpa using hg), List.filter_cons,
          if_neg (by simpa using hf), ih]

theorem any_absorb {α : Type} {f g : α → Bool}
    (h : ∀ a, f a = true → g a = true) (l : List α) :
    (l.filter g).any f = l.any f := by
  induction l with
  | nil => rfl
  | cons a t ih =>
    by_cases hf : f a
    · have hg := h a hf
      rw [List.filter_cons, if_pos (by simpa using hg)]
      simp [hf]
    · by_cases hg : g a
      · rw [List.filter_cons, if_pos (by simpa using hg)]
        simp only [List.any_cons, ih]
      · rw [List.filter_cons, if_neg (by simpa using hg)]
        simp only [List.any_cons, ih, hf]
        simp

/-! ### Path-order lemmas -/

theorem isUnder_iff {d p : Path} : isUnder d p = true ↔ ∃ r, p = d ++ r := by
  induction d generalizing p with
  | nil => simp [isUnder]
  | cons a d ih =>
    cases p with
    | nil =>
      simp only [isUnder, List.cons_append, Bool.false_eq_true, false_iff]
      rintro ⟨r, hr⟩
      exact List.cons_ne_nil a (d ++ r) hr.symm
    | cons b p =>
      simp only [isUnder, Bool.and_eq_true, decide_eq_true_eq, ih,
        List.cons_append, List.cons.injEq]
      constructor
      · rintro ⟨rfl, r, rfl⟩
        exact ⟨r, rfl, rfl⟩
      · rintro ⟨r, rfl, rfl⟩
        exact ⟨rfl, r, rfl⟩

theorem isUnder_append {d r : Path} : isUnder d (d ++ r) = true :=
  isUnder_iff.mpr ⟨r, rfl⟩

theorem isUnder_refl {d : Path} : isUnder d d = true := by
  simpa using isUnder_append (d := d) (r := [])

theorem underDir_iff {d p : Path} :
    underDir d p = true ↔ ∃ r, r ≠ [] ∧ p = d ++ r := by
  simp only [underDir, Bool.and_eq_true, Bool.not_eq_true',
    decide_eq_false_iff_not, isUnder_iff]
  constructor
  · rintro ⟨⟨r, rfl⟩, hne⟩
    refine ⟨r, ?_, rfl⟩
    rintro rfl
    exact hne (by simp)
  · rintro ⟨r, hr, rfl⟩
    refine ⟨⟨r, rfl⟩, ?_⟩
    intro hcontra
    apply hr
    have : d ++ r = d ++ [] := by simpa using hcontra.symm
    simpa using List.append_cancel_left this

theorem underDir_isUnder {d p : Path} (h : underDir d p = true) :
    isUnder d p = true := by
  rcases underDir_iff.mp h with ⟨r, _, rfl⟩
  exact isUnder_append

theorem isUnder_trans {a b c : Path} (h1 : isUnder a b = true)
    (h2 : isUnder b c = true) : isUnder a c = true := by
  rcases isUnder_iff.mp h1 with ⟨r, rfl⟩
  rcases isUnder_iff.mp h2 with ⟨s, rfl⟩
  rw [List.append_assoc]
  exact isUnder_append

theorem isUnder_comparable {a b p : Path} (ha : isUnder a p = true)
    (hb : isUnder b p = true) : isUnder a b = true ∨ isUnder b a = true := by
  induction a generalizing b p with
  | nil => exact Or.inl rfl
  | cons x a ih =>
    cases b with
    | nil => exact Or.inr rfl
    | cons y b =>
      cases p with
      | nil => exact absurd ha (by simp [isUnder])
      | cons z p =>
        simp only [isUnder, Bool.and_eq_true, decide_eq_true_eq] at ha hb
        rcases ha with ⟨rfl, ha⟩
        rcases hb with ⟨rfl, hb⟩
        rcases ih ha hb with h | h
        · exact Or.inl (by simp [isUnder, h])
        · exact Or.inr (by simp [isUnder, h])

theorem disjointPaths_not_left {a b p : Path}
    (h : disjointPaths a b = true) (hp : isUnder a p = true) :
    isUnder b p = false := by
  simp only [disjointPaths, Bool.and_eq_true, Bool.not_eq_true'] at h
  by_contra hb
  rw [Bool.not_eq_false] at hb
  rcases isUnder_comparable hp hb with hab | hba
  · rw [h.1] at hab
    exact Bool.false_ne_true hab
  · rw [h.2] at hba
    exact Bool.false_ne_true hba

theorem disjointPaths_symm {a b : Path} (h : disjointPaths a b = true) :
    disjointPaths b a = true := by
  simp only [disjointPaths, Bool.and_eq_true, Bool.not_eq_true'] at h ⊢
  exact ⟨h.2, h.1⟩

theorem drop_append_self {d r : Path} : (d ++ r).drop d.length = r :=
  List.drop_left d r

theorem isJsonPath_append {d r : Path} (h : r ≠ []) :
    isJsonPath (d ++ r) = isJsonPath r := by
  unfold isJsonPath
  rw [List.getLast?_append_of_ne_nil _ h]

theorem mem_rglobJson {fs : FS} {d p : Path} :
    p ∈ rglobJson fs d ↔
      p ∈ fs.map Prod.fst ∧ underDir d p = true ∧ isJsonPath p = true := by
  simp [rglobJson, List.mem_filter, and_assoc]

/-! ### The scan applies its own change-set as it runs (replay lemma) -/

/-- The filesystem effect of applying a single change entry through
export_selected_to_repo. -/
def applyFS (fs : FS) (e : ChangeEntry) : FS := (applySel (fs, []) e).1

theorem applySel_fst (st : FS × List ChangeEntry) (e : ChangeEntry) :
    (applySel st e).1 = applyFS st.1 e := by
  rcases e with ⟨s, d⟩
  cases s with
  | none =>
    by_cases h : (lookupFile st.1 d).isSome <;>
      simp [applyFS, applySel, h]
  | some s =>
    cases hs : lookupFile st.1 s with
    | none => simp [applyFS, applySel, hs]
    | some f =>
      cases hd : lookupFile st.1 d with
      | none => simp [applyFS, applySel, hs, hd]
      | some g =>
        by_cases hc : sha256_file f = sha256_file g <;>
          simp [applyFS, applySel, hs, hd, hc]

theorem export_selected_fst (cfg : Config) (fs : FS)
    (sel : List ChangeEntry) :
    (export_selected_to_repo cfg fs sel).1 = sel.foldl applyFS fs := by
  unfold export_selected_to_repo
  suffices h : ∀ (l : List ChangeEntry) (st : FS × List ChangeEntry),
      (l.foldl applySel st).1 = l.foldl applyFS st.1 by
    exact h sel (fs, [])
  intro l
  induction l with
  | nil => intro st; rfl
  | cons e t ih =>
    intro st
    rw [List.foldl_cons, List.foldl_cons, ih, applySel_fst]

theorem foldl_applyFS_append (es : List ChangeEntry) (e : ChangeEntry)
    (fs : FS) : (es ++ [e]).foldl applyFS fs = applyFS (es.foldl applyFS fs) e := by
  rw [List.foldl_append, List.foldl_cons, List.foldl_nil]

/-- The replay invariant: the current tree equals the initial tree with the
entries recorded so far applied through the selected-apply path. -/
def ReplayInv (fs0 : FS) (fsCur : FS) (entries : List ChangeEntry) : Prop :=
  fsCur = entries.foldl applyFS fs0

theorem scanFile_replay {fs0 : FS} {dstRoot d : Path} {st : ScanSt}
    (h : ReplayInv fs0 st.fs st.entries) (src : Path) :
    ReplayInv fs0 (scanFile dstRoot d st src).fs
      (scanFile dstRoot d st src).entries := by
  unfold ReplayInv at h ⊢
  cases hs : lookupFile st.fs src with
  | none =>
    simp only [scanFile, hs]
    exact h
  | some f =>
    cases hd : lookupFile st.fs (dstOf dstRoot d src) with
    | none =>
      simp only [scanFile, hs, hd]
      rw [foldl_applyFS_append, ← h]
      simp [applyFS, applySel, hs, hd]
    | some g =>
      by_cases hc : sha256_file f = sha256_file g
      · simp only [scanFile, hs, hd]
        rw [if_pos hc]
        exact h
      · simp only [scanFile, hs, hd]
        rw [if_neg hc]
        dsimp only
        rw [foldl_applyFS_append, ← h]
        simp [applyFS, applySel, hs, hd, hc]

theorem foldl_preserves {α β : Type} {P : α → Prop} {f : α → β → α}
    (hf : ∀ st a, P st → P (f st a)) :
    ∀ (l : List β) (st : α), P st → P (l.foldl f st) := by
  intro l
  induction l with
  | nil => intro st h; exact h
  | cons a t ih => intro st h; exact ih _ (hf st a h)

theorem scanDir_replay {fs0 : FS} {dstRoot : Path} {st : ScanSt}
    (h : ReplayInv fs0 st.fs st.entries) (d : Path) :
    ReplayInv fs0 (scanDir dstRoot st d).fs (scanDir dstRoot st d).entries := by
  unfold scanDir
  by_cases hp : pathOnDisk st.fs d
  · rw [if_pos hp]
    exact foldl_preserves
      (P := fun s : ScanSt => ReplayInv fs0 s.fs s.entries)
      (fun s a hs => scanFile_replay hs a) _ st h
  · rw [if_neg hp]
    exact h

theorem deleteStale_replay {fs0 : FS} {expected : List Path}
    {st : FS × List ChangeEntry} (h : ReplayInv fs0 st.1 st.2) (p : Path) :
    ReplayInv fs0 (deleteStale expected st p).1 (deleteStale expected st p).2 := by
  unfold ReplayInv at h ⊢
  unfold deleteStale
  by_cases hm : p ∈ expected
  · rw [if_pos hm]; exact h
  · rw [if_neg hm]
    simp only [foldl_applyFS_append, ← h]
    cases hp : lookupFile st.1 p with
    | none =>
      simp [applyFS, applySel, hp, removeFile_of_absent hp]
    | some f =>
      simp [applyFS, applySel, hp]

theorem scanSlicer_replay {fs0 : FS} {cfg : Config}
    {st : FS × List ChangeEntry} (h : ReplayInv fs0 st.1 st.2) (k : String) :
    ReplayInv fs0 (scanSlicer cfg st k).1 (scanSlicer cfg st k).2 := by
  unfold scanSlicer
  have h1 : ReplayInv fs0
      ((cfg.dirsOf k).foldl (scanDir (cfg.dstRootOf k))
        { fs := st.1, expected := [], entries := st.2 }).fs
      ((cfg.dirsOf k).foldl (scanDir (cfg.dstRootOf k))
        { fs := st.1, expected := [], entries := st.2 }).entries :=
    foldl_preserves (P := fun s : ScanSt => ReplayInv fs0 s.fs s.entries)
      (fun s a hs => scanDir_replay hs a) _ _ h
  exact foldl_preserves
    (P := fun s : FS × List ChangeEntry => ReplayInv fs0 s.1 s.2)
    (fun s a hs => deleteStale_replay hs a) _ _ h1

theorem export_replay (cfg : Config) (fs : FS) :
    ReplayInv fs (export_from_slicers_to_repo cfg fs).1
      (export_from_slicers_to_repo cfg fs).2 := by
  unfold export_from_slicers_to_repo
  exact foldl_preserves
    (P := fun s : FS × List ChangeEntry => ReplayInv fs s.1 s.2)
    (fun s a hs => scanSlicer_replay hs a) _ _ rfl

/-! ### Frame lemmas: the scan writes only under the profiles tree -/

theorem filterOut_writeFile {rgn : Path → Bool} {l : FS} {p : Path} {f : File}
    (h : rgn p = true) :
    (writeFile l p f).filter (fun e => !rgn e.1) =
      l.filter (fun e => !rgn e.1) := by
  induction l with
  | nil =>
    rw [writeFile_nil]
    simp [List.filter, h]
  | cons e t ih =>
    rw [writeFile_cons]
    by_cases he : e.1 = p
    · rw [if_pos he, List.filter_cons, List.filter_cons]
      have h1 : (!rgn (p, f).1) = false := by simp [h]
      have h2 : (!rgn e.1) = false := by simp [he, h]
      rw [h1, h2]
      simp
    · rw [if_neg he, List.filter_cons, List.filter_cons]
      by_cases hr : rgn e.1 <;> simp [hr, ih]

theorem filterOut_removeFile {rgn : Path → Bool} {l : FS} {p : Path}
    (h : rgn p = true) :
    (removeFile l p).filter (fun e => !rgn e.1) =
      l.filter (fun e => !rgn e.1) := by
  induction l with
  | nil => rfl
  | cons e t ih =>
    rw [removeFile_cons]
    by_cases he : e.1 = p
    · rw [if_pos he, List.filter_cons]
      have h2 : (!rgn e.1) = false := by simp [he, h]
      rw [h2]
      simpa using ih
    · rw [if_neg he, List.filter_cons, List.filter_cons]
      by_cases hr : rgn e.1 <;> simp [hr, ih]

theorem lookupFile_filter_none {l : FS} {q : Path → Bool} {p : Path}
    (h : q p = false) :
    lookupFile (l.filter (fun e => q e.1)) p = none := by
  rw [lookupFile_none_iff]
  intro hm
  rcases List.mem_map.mp hm with ⟨e, he, rfl⟩
  rw [List.mem_filter] at he
  exact Bool.false_ne_true (h.symm.trans he.2)

theorem lookupFile_partition (q : Path → Bool) (l : FS) (p : Path) :
    lookupFile (l.filter (fun e => !q e.1) ++ l.filter (fun e => q e.1)) p =
      lookupFile l p := by
  by_cases hq : q p
  · have h1 : lookupFile (l.filter (fun e => !q e.1)) p = none :=
      lookupFile_filter_none (q := fun x => !q x)
        (by show (!q p) = false; rw [hq]; rfl)
    rw [lookupFile_append_right h1, lookupFile_filter hq]
  · have hq0 : q p = false := by simpa using hq
    have hq2 : (fun x => !q x) p = true := by
      show (!q p) = true
      rw [hq0]
      rfl
    have h1 : lookupFile (l.filter (fun e => !q e.1)) p = lookupFile l p :=
      lookupFile_filter (q := fun x => !q x) hq2
    cases hl : lookupFile l p with
    | some f => exact lookupFile_append_left (h1.trans hl)
    | none =>
      rw [lookupFile_append_right (h1.trans hl)]
      exact lookupFile_filter_none hq0

theorem foldl_preserves_mem {α β : Type} {P : α → Prop} {f : α → β → α} :
    ∀ (l : List β), (∀ st a, a ∈ l → P st → P (f st a)) →
      ∀ (st : α), P st → P (l.foldl f st) := by
  intro l
  induction l with
  | nil => intro _ st h; exact h
  | cons a t ih =>
    intro hf st h
    exact ih (fun st b hb => hf st b (List.mem_cons_of_mem a hb)) _
      (hf st a (List.mem_cons_self a t) h)

theorem scanFile_frame {R dstRoot d : Path} {st : ScanSt}
    (hR : isUnder R dstRoot = true) (src : Path) :
    (scanFile dstRoot d st src).fs.filter (fun e => !isUnder R e.1) =
      st.fs.filter (fun e => !isUnder R e.1) := by
  have hdst : isUnder R (dstOf dstRoot d src) = true :=
    isUnder_trans hR isUnder_append
  cases hs : lookupFile st.fs src with
  | none => simp only [scanFile, hs]
  | some f =>
    cases hd : lookupFile st.fs (dstOf dstRoot d src) with
    | none =>
      simp only [scanFile, hs, hd]
      exact filterOut_writeFile hdst
    | some g =>
      by_cases hc : sha256_file f = sha256_file g
      · simp only [scanFile, hs, hd]
        rw [if_pos hc]
      · simp only [scanFile, hs, hd]
        rw [if_neg hc]
        exact filterOut_writeFile hdst

theorem scanDir_frame {R dstRoot : Path} {st : ScanSt}
    (hR : isUnder R dstRoot = true) (d : Path) :
    (scanDir dstRoot st d).fs.filter (fun e => !isUnder R e.1) =
      st.fs.filter (fun e => !isUnder R e.1) := by
  unfold scanDir
  by_cases hp : pathOnDisk st.fs d
  · rw [if_pos hp]
    exact foldl_preserves_mem (rglobJson st.fs d)
      (P := fun s : ScanSt =>
        s.fs.filter (fun e => !isUnder R e.1) =
          st.fs.filter (fun e => !isUnder R e.1))
      (fun s a _ hs => (scanFile_frame hR a).trans hs) st rfl
  · rw [if_neg hp]

theorem deleteStale_frame {R : Path} {expected : List Path}
    {st : FS × List ChangeEntry} {p : Path} (hp : isUnder R p = true) :
    (deleteStale expected st p).1.filter (fun e => !isUnder R e.1) =
      st.1.filter (fun e => !isUnder R e.1) := by
  unfold deleteStale
  by_cases hm : p ∈ expected
  · rw [if_pos hm]
  · rw [if_neg hm]
    exact filterOut_removeFile hp

theorem scanSlicer_frame {R : Path} {cfg : Config}
    {st : FS × List ChangeEntry} {k : String}
    (hR : isUnder R (cfg.dstRootOf k) = true) :
    (scanSlicer cfg st k).1.filter (fun e => !isUnder R e.1) =
      st.1.filter (fun e => !isUnder R e.1) := by
  simp only [scanSlicer]
  have h1 := foldl_preserves_mem (cfg.dirsOf k)
    (P := fun s : ScanSt =>
      s.fs.filter (fun e => !isUnder R e.1) =
        st.1.filter (fun e => !isUnder R e.1))
    (fun s a _ hs => (scanDir_frame hR a).trans hs)
    { fs := st.1, expected := [], entries := st.2 } rfl
  exact foldl_preserves_mem _
    (P := fun s : FS × List ChangeEntry =>
      s.1.filter (fun e => !isUnder R e.1) =
        st.1.filter (fun e => !isUnder R e.1))
    (fun s p hp hs => by
      have hu : underDir (cfg.dstRootOf k) p = true :=
        (mem_rglobJson.mp hp).2.1
      exact (deleteStale_frame (isUnder_trans hR (underDir_isUnder hu))).trans hs)
    _ h1

theorem export_frame {R : Path} {cfg : Config} (fs : FS)
    (hR : ∀ k ∈ cfg.enabledSlicers, isUnder R (cfg.dstRootOf k) = true) :
    ((export_from_slicers_to_repo cfg fs).1).filter (fun e => !isUnder R e.1) =
      fs.filter (fun e => !isUnder R e.1) := by
  unfold export_from_slicers_to_repo
  exact foldl_preserves_mem cfg.enabledSlicers
    (P := fun s : FS × List ChangeEntry =>
      s.1.filter (fun e => !isUnder R e.1) =
        fs.filter (fun e => !isUnder R e.1))
    (fun s k hk hs => (scanSlicer_frame (hR k hk)).trans hs) (fs, []) rfl

theorem isUnder_profilesRoot_dstRoot {cfg : Config} {k : String} :
    isUnder cfg.profilesRoot (cfg.dstRootOf k) = true := by
  unfold Config.profilesRoot Config.dstRootOf
  have : cfg.repoDir ++ [REPO_PROFILES_DIR, k] =
      (cfg.repoDir ++ [REPO_PROFILES_DIR]) ++ [k] := by simp
  rw [this]
  exact isUnder_append

theorem isUnder_repoDir_dstRoot {cfg : Config} {k : String} :
    isUnder cfg.repoDir (cfg.dstRootOf k) = true := by
  unfold Config.dstRootOf
  exact isUnder_append

/-- Reads outside the repository clone are untouched by the scan. -/
theorem export_read_outside {cfg : Config} {fs : FS} {p : Path}
    (hp : isUnder cfg.repoDir p = false) :
    lookupFile (export_from_slicers_to_repo cfg fs).1 p = lookupFile fs p := by
  have hfr := @export_frame cfg.repoDir cfg fs
    (fun k _ => isUnder_repoDir_dstRoot)
  have hq : (fun x => !isUnder cfg.repoDir x) p = true := by
    show (!isUnder cfg.repoDir p) = true
    rw [hp]
    rfl
  calc lookupFile (export_from_slicers_to_repo cfg fs).1 p
      = lookupFile ((export_from_slicers_to_repo cfg fs).1.filter
          (fun e => !isUnder cfg.repoDir e.1)) p :=
        (lookupFile_filter (q := fun x => !isUnder cfg.repoDir x) hq).symm
    _ = lookupFile (fs.filter (fun e => !isUnder cfg.repoDir e.1)) p := by
          rw [hfr]
    _ = lookupFile fs p :=
        lookupFile_filter (q := fun x => !isUnder cfg.repoDir x) hq

/-! ### Concrete configurations used by witnesses and counterexamples -/

def exCfg : Config :=
  { repoDir := ["repo"], enabledSlicers := ["orcaslicer"],
    slicerProfileDirs := [("orcaslicer", [["slicer"]])] }

def exFS : FS := [(["slicer", "filament", "PLA.json"], { content := 1, mtime := 0 })]

def exDst : Path := ["repo", "profiles", "orcaslicer", "filament", "PLA.json"]

/-- C2 counterexample: producing the change-set is not pure detection.  On a
configuration with a single fresh source file, the scan itself writes the
file into the repository tree (before any selection step has run): the
repository path is absent beforehand and present afterwards. -/
theorem C2_scan_mutates_tree_counterexample :
    lookupFile exFS exDst = none ∧
    lookupFile (export_from_slicers_to_repo exCfg exFS).1 exDst =
      some { content := 1, mtime := 0 } := by
  constructor
  · rfl
  · rfl

/-- C2 (amended): the scan is detection plus apply.  For every configuration
the repository tree after export_from_slicers_to_repo equals the input tree
with the full returned change-set applied through the selected-apply path
(export_selected_to_repo); unselected changes therefore reach the repository
tree during the scan and are only reverted later by the hard reset of the
subset path. -/
theorem C2_scan_applies_full_changeset (cfg : Config) (fs : FS) :
    (export_from_slicers_to_repo cfg fs).1 =
      (export_selected_to_repo cfg fs (export_from_slicers_to_repo cfg fs).2).1 := by
  rw [export_selected_fst]
  exact export_replay cfg fs

/-- C6: when the conflict-resolution sub-state is entered and the user
declines, the rebase is aborted; afterwards every path outside the
repository clone — in particular every slicer application file — reads
exactly as before the sync attempt, and the repository worktree is restored
to its pre-rebase state. -/
theorem C6_conflict_decline_restores_local_files (cfg : Config)
    (o : ConflictOracle) (fs : FS) :
    (∀ p, isUnder cfg.repoDir p = false →
        lookupFile (push_attempt_declined cfg o fs) p = lookupFile fs p) ∧
    (∀ p, lookupFile (push_attempt_declined cfg o fs) p =
        lookupFile (export_from_slicers_to_repo cfg fs).1 p) := by
  have habs : ∀ p, lookupFile (push_attempt_declined cfg o fs) p =
      lookupFile (export_from_slicers_to_repo cfg fs).1 p := by
    intro p
    unfold push_attempt_declined replaceSubtree subtreeOf
    dsimp only
    have hmapped : ((o.conflictedTree.map
        (fun e => (cfg.repoDir ++ e.1, e.2))).filter
          (fun e => !isUnder cfg.repoDir e.1)) = [] := by
      rw [List.filter_eq_nil_iff]
      intro a ha
      rcases List.mem_map.mp ha with ⟨e, _, rfl⟩
      simp [isUnder_append]
    have houter :
        (((export_from_slicers_to_repo cfg fs).1.filter
            (fun e => !isUnder cfg.repoDir e.1) ++
          o.conflictedTree.map (fun e => (cfg.repoDir ++ e.1, e.2))).filter
            (fun e => !isUnder cfg.repoDir e.1)) =
          (export_from_slicers_to_repo cfg fs).1.filter
            (fun e => !isUnder cfg.repoDir e.1) := by
      rw [List.filter_append, hmapped, List.append_nil]
      exact filter_absorb (fun a h => h) _
    rw [houter]
    exact lookupFile_partition (fun x => isUnder cfg.repoDir x) _ p
  refine ⟨?_, habs⟩
  intro p hp
  rw [habs p]
  exact export_read_outside hp

/-- C6 witness: a concrete declined conflict: the slicer file is untouched
and the repo worktree equals the post-export tree. -/
theorem C6_conflict_decline_restores_local_files_witness :
    lookupFile (push_attempt_declined exCfg
        { conflictedTree := [(["profiles", "orcaslicer", "filament",
          "PLA.json"], { content := 9, mtime := 9 })] } exFS)
      (["slicer", "filament", "PLA.json"]) =
      some { content := 1, mtime := 0 } := by
  have h := (C6_conflict_decline_restores_local_files exCfg
    { conflictedTree := [(["profiles", "orcaslicer", "filament",
      "PLA.json"], { content := 9, mtime := 9 })] } exFS).1
    (["slicer", "filament", "PLA.json"]) (by rfl)
  rw [h]
  rfl

/-- C5: the already-synced short-circuit of do_push: with a clean tree
(no commit happens), existing commits, and local head equal to origin/main,
the flow prints the already-synced success message, issues zero push
commands, and exits 0.  (PushScreen._execute_push performs the same
needs-push comparison before notifying.) -/
theorem C5_already_synced_short_circuit (g : GitState) (o : PushOracle)
    (r : Nat) (hclean : g.statusDirty = false) (hc : g.hasCommits = true)
    (hremote : g.originMain = some r) (hhead : g.localHead = r) :
    do_push g o = { exitCode := 0, pushCommands := 0, alreadySynced := true } := by
  unfold do_push gitCommitIfNeeded
  rw [hclean]
  simp [hc, hremote, hhead]

/-- C5 witness at a concrete git state. -/
theorem C5_already_synced_short_circuit_witness :
    do_push
      { hasCommits := true, localHead := 7, originMain := some 7,
        statusDirty := false, remoteIsAncestor := true, upstreamSet := true,
        freshCommitId := 8 }
      { confirmDivergencePush := true, rebase := RebaseOutcome.ok,
        conflictsResolved := true, upstreamPushMainOk := true,
        upstreamPushBranchOk := true, trackedPushOk := true } =
      { exitCode := 0, pushCommands := 0, alreadySynced := true } :=
  C5_already_synced_short_circuit _ _ 7 rfl rfl rfl rfl

/-- C7: rebuild_exported_from_git can never return: its call-time import
`from .git import git_status_porcelain, _git_unescape` (sync.py line 87)
fails because git.py binds no `_git_unescape`, so every invocation raises
ImportError instead of reconstructing the change-set. -/
theorem C7_rebuild_raises_import_error :
    gitModuleBindings.contains ("_git_unescape") = false ∧
    rebuild_exported_from_git exCfg
        [" M profiles/orcaslicer/filament/PLA.json"] =
      Except.error
        ("ImportError: cannot import name _git_unescape from profilesync.git") := by
  constructor
  · rfl
  · rfl

/-! ### listFlat and findSrc toolkit -/

theorem listFlat_nil {α β : Type} (f : α → List β) : listFlat f [] = [] := rfl

theorem listFlat_cons {α β : Type} (f : α → List β) (a : α) (t : List α) :
    listFlat f (a :: t) = f a ++ listFlat f t := rfl

theorem listFlat_append {α β : Type} (f : α → List β) (l m : List α) :
    listFlat f (l ++ m) = listFlat f l ++ listFlat f m := by
  induction l with
  | nil => rfl
  | cons a t ih => simp [listFlat_cons, ih]

theorem mem_listFlat {α β : Type} {f : α → List β} {l : List α} {x : β} :
    x ∈ listFlat f l ↔ ∃ a ∈ l, x ∈ f a := by
  induction l with
  | nil => simp [listFlat_nil]
  | cons a t ih => simp [listFlat_cons, ih]

theorem listFlat_congr {α β : Type} {f g : α → List β} {l : List α}
    (h : ∀ a ∈ l, f a = g a) : listFlat f l = listFlat g l := by
  induction l with
  | nil => rfl
  | cons a t ih =>
    rw [listFlat_cons, listFlat_cons, h a (List.mem_cons_self a t),
      ih (fun b hb => h b (List.mem_cons_of_mem a hb))]

theorem filter_listFlat {α β : Type} (q : β → Bool) (f : α → List β)
    (l : List α) :
    (listFlat f l).filter q = listFlat (fun a => (f a).filter q) l := by
  induction l with
  | nil => rfl
  | cons a t ih => simp [listFlat_cons, List.filter_append, ih]

/-- First source mapped to a destination in a (source, destination) list. -/
def findSrc : List (Path × Path) → Path → Option Path
  | [], _ => none
  | sd :: t, p => if sd.2 = p then some sd.1 else findSrc t p

theorem findSrc_nil {p : Path} : findSrc [] p = none := rfl

theorem findSrc_cons {sd : Path × Path} {t : List (Path × Path)} {p : Path} :
    findSrc (sd :: t) p = if sd.2 = p then some sd.1 else findSrc t p := rfl

theorem findSrc_none_iff {l : List (Path × Path)} {p : Path} :
    findSrc l p = none ↔ p ∉ l.map Prod.snd := by
  induction l with
  | nil => simp [findSrc_nil]
  | cons sd t ih =>
    rw [findSrc_cons]
    by_cases h : sd.2 = p
    · subst h
      simp
    · rw [if_neg h]
      simp only [List.map_cons, List.mem_cons, ih]
      constructor
      · intro hn hc
        rcases hc with hc | hc
        · exact h hc.symm
        · exact hn hc
      · intro hn hc
        exact hn (Or.inr hc)

theorem findSrc_append_left {l m : List (Path × Path)} {p : Path} {s : Path}
    (h : findSrc l p = some s) : findSrc (l ++ m) p = some s := by
  induction l with
  | nil => rw [findSrc_nil] at h; exact absurd h (by simp)
  | cons sd t ih =>
    rw [findSrc_cons] at h
    rw [List.cons_append, findSrc_cons]
    by_cases he : sd.2 = p
    · rw [if_pos he] at h ⊢; exact h
    · rw [if_neg he] at h ⊢; exact ih h

theorem findSrc_append_right {l m : List (Path × Path)} {p : Path}
    (h : findSrc l p = none) : findSrc (l ++ m) p = findSrc m p := by
  induction l with
  | nil => rw [List.nil_append]
  | cons sd t ih =>
    rw [findSrc_cons] at h
    rw [List.cons_append, findSrc_cons]
    by_cases he : sd.2 = p
    · rw [if_pos he] at h; exact absurd h (by simp)
    · rw [if_neg he] at h ⊢; exact ih h

theorem findSrc_some_mem {l : List (Path × Path)} {p s : Path}
    (h : findSrc l p = some s) : (s, p) ∈ l := by
  induction l with
  | nil => rw [findSrc_nil] at h; exact absurd h (by simp)
  | cons sd t ih =>
    rw [findSrc_cons] at h
    by_cases he : sd.2 = p
    · rw [if_pos he] at h
      rcases sd with ⟨a, b⟩
      simp only [Option.some.injEq] at h
      subst h
      subst he
      exact List.mem_cons_self _ _
    · rw [if_neg he] at h
      exact List.mem_cons_of_mem sd (ih h)

theorem findSrc_of_nodup_mem {l : List (Path × Path)} {sd : Path × Path}
    (hn : (l.map Prod.snd).Nodup) (hm : sd ∈ l) :
    findSrc l sd.2 = some sd.1 := by
  induction l with
  | nil => exact absurd hm (List.not_mem_nil sd)
  | cons e t ih =>
    rw [List.map_cons, List.nodup_cons] at hn
    rw [findSrc_cons]
    rcases List.mem_cons.mp hm with rfl | hm2
    · rw [if_pos rfl]
    · have hne : e.2 ≠ sd.2 := by
        intro hcontra
        exact hn.1 (hcontra ▸ List.mem_map_of_mem Prod.snd hm2)
      rw [if_neg hne]
      exact ih hn.2 hm2

theorem map_fst_filter_key (q : Path → Bool) (l : FS) :
    (l.filter (fun e => q e.1)).map Prod.fst = (l.map Prod.fst).filter q := by
  induction l with
  | nil => rfl
  | cons e t ih =>
    by_cases h : q e.1
    · rw [List.filter_cons, if_pos (by simpa using h), List.map_cons,
        List.map_cons, List.filter_cons, if_pos (by simpa using h), ih]
    · rw [List.filter_cons, if_neg (by simpa using h), List.map_cons,
        List.filter_cons, if_neg (by simpa using h), ih]

theorem rglobJson_nodup {fs : FS} {d : Path}
    (h : (fs.map Prod.fst).Nodup) : (rglobJson fs d).Nodup :=
  List.Nodup.filter _ h

theorem mem_rglobJson_isSome {fs : FS} {d p : Path} (h : p ∈ rglobJson fs d) :
    (lookupFile fs p).isSome = true :=
  lookupFile_isSome_iff.mpr (mem_rglobJson.mp h).1

/-! ### Region-restriction stability lemmas -/

theorem rglobJson_restrict {R d : Path}
    (h : ∀ p, underDir d p = true → isUnder R p = false) {l1 l2 : FS}
    (hf : l1.filter (fun e => !isUnder R e.1) =
      l2.filter (fun e => !isUnder R e.1)) :
    rglobJson l1 d = rglobJson l2 d := by
  have key : ∀ l : FS, rglobJson l d =
      ((l.filter (fun e => !isUnder R e.1)).map Prod.fst).filter
        (fun p => underDir d p && isJsonPath p) := by
    intro l
    have hcond : ∀ p : Path, (underDir d p && isJsonPath p) = true →
        (!isUnder R p) = true := by
      intro p hp
      rw [Bool.and_eq_true] at hp
      rw [h p hp.1]
      rfl
    rw [map_fst_filter_key (fun x => !isUnder R x) l,
      filter_absorb hcond (l.map Prod.fst)]
    rfl
  rw [key l1, key l2, hf]

theorem pathOnDisk_restrict {R d : Path}
    (h : ∀ p, isUnder d p = true → isUnder R p = false) {l1 l2 : FS}
    (hf : l1.filter (fun e => !isUnder R e.1) =
      l2.filter (fun e => !isUnder R e.1)) :
    pathOnDisk l1 d = pathOnDisk l2 d := by
  have key : ∀ l : FS, pathOnDisk l d =
      (l.filter (fun e => !isUnder R e.1)).any (fun e => isUnder d e.1) := by
    intro l
    have hcond : ∀ e : Path × File, (isUnder d e.1) = true →
        (!isUnder R e.1) = true := by
      intro e he
      rw [h e.1 he]
      rfl
    rw [any_absorb hcond l]
    rfl
  rw [key l1, key l2, hf]

theorem lookupFile_restrict {R : Path} {p : Path}
    (hp : isUnder R p = false) {l1 l2 : FS}
    (hf : l1.filter (fun e => !isUnder R e.1) =
      l2.filter (fun e => !isUnder R e.1)) :
    lookupFile l1 p = lookupFile l2 p := by
  have hq : (fun x => !isUnder R x) p = true := by
    show (!isUnder R p) = true
    rw [hp]
    rfl
  calc lookupFile l1 p
      = lookupFile (l1.filter (fun e => !isUnder R e.1)) p :=
        (lookupFile_filter (q := fun x => !isUnder R x) hq).symm
    _ = lookupFile (l2.filter (fun e => !isUnder R e.1)) p := by rw [hf]
    _ = lookupFile l2 p := lookupFile_filter (q := fun x => !isUnder R x) hq

theorem dirPairs_restrict {R dstRoot d : Path}
    (hd : disjointPaths d R = true) {l1 l2 : FS}
    (hf : l1.filter (fun e => !isUnder R e.1) =
      l2.filter (fun e => !isUnder R e.1)) :
    dirPairs dstRoot l1 d = dirPairs dstRoot l2 d := by
  have hund : ∀ p, underDir d p = true → isUnder R p = false := fun p hp =>
    disjointPaths_not_left hd (underDir_isUnder hp)
  have hexi : ∀ p, isUnder d p = true → isUnder R p = false := fun p hp =>
    disjointPaths_not_left hd hp
  unfold dirPairs
  rw [pathOnDisk_restrict hexi hf, rglobJson_restrict hund hf]

theorem enumPairsD_restrict {R dstRoot : Path} {dirs : List Path}
    (hd : ∀ d ∈ dirs, disjointPaths d R = true) {l1 l2 : FS}
    (hf : l1.filter (fun e => !isUnder R e.1) =
      l2.filter (fun e => !isUnder R e.1)) :
    enumPairsD dstRoot l1 dirs = enumPairsD dstRoot l2 dirs := by
  unfold enumPairsD
  exact listFlat_congr (fun d hdm => dirPairs_restrict (hd d hdm) hf)

/-! ### Geometry of destinations -/

theorem isUnder_length_eq {a b : Path} (h1 : isUnder a b = true)
    (h2 : a.length = b.length) : a = b := by
  rcases isUnder_iff.mp h1 with ⟨r, rfl⟩
  rw [List.length_append] at h2
  have : r.length = 0 := by omega
  rw [List.length_eq_zero.mp this, List.append_nil]

theorem dstRoot_region_disjoint {cfg : Config} {k k2 : String} {p : Path}
    (hne : k ≠ k2) (h1 : isUnder (cfg.dstRootOf k) p = true) :
    isUnder (cfg.dstRootOf k2) p = false := by
  by_contra hc
  rw [Bool.not_eq_false] at hc
  have hlen : (cfg.dstRootOf k).length = (cfg.dstRootOf k2).length := by
    simp [Config.dstRootOf]
  have heq : cfg.dstRootOf k = cfg.dstRootOf k2 := by
    rcases isUnder_comparable h1 hc with h | h
    · exact isUnder_length_eq h hlen
    · exact (isUnder_length_eq h hlen.symm).symm
  apply hne
  have := List.append_cancel_left
    (heq : cfg.repoDir ++ [REPO_PROFILES_DIR, k] =
      cfg.repoDir ++ [REPO_PROFILES_DIR, k2])
  simpa using this

theorem mem_dirPairs {dstRoot fs d : _} {sd : Path × Path}
    (h : sd ∈ dirPairs dstRoot fs d) :
    sd.1 ∈ rglobJson fs d ∧ sd.2 = dstOf dstRoot d sd.1 := by
  unfold dirPairs at h
  by_cases hp : pathOnDisk fs d
  · rw [if_pos hp] at h
    rcases List.mem_map.mp h with ⟨s, hs, rfl⟩
    exact ⟨hs, rfl⟩
  · rw [if_neg hp] at h
    exact absurd h (List.not_mem_nil sd)

theorem dstOf_underDir {dstRoot d src : Path} (h : underDir d src = true) :
    underDir dstRoot (dstOf dstRoot d src) = true := by
  rcases underDir_iff.mp h with ⟨r, hr, rfl⟩
  unfold dstOf
  rw [drop_append_self]
  exact underDir_iff.mpr ⟨r, hr, rfl⟩

theorem mem_enumPairsD_dst {dstRoot : Path} {fs : FS} {dirs : List Path}
    {sd : Path × Path} (h : sd ∈ enumPairsD dstRoot fs dirs) :
    underDir dstRoot sd.2 = true ∧ isJsonPath sd.2 = true := by
  rcases mem_listFlat.mp h with ⟨d, _, hd⟩
  rcases mem_dirPairs hd with ⟨hs, hdst⟩
  rcases mem_rglobJson.mp hs with ⟨_, hu, hj⟩
  rcases underDir_iff.mp hu with ⟨r, hr, hsrc⟩
  constructor
  · rw [hdst]
    exact dstOf_underDir hu
  · rw [hdst]
    unfold dstOf
    rw [hsrc, drop_append_self, isJsonPath_append hr]
    rw [hsrc, isJsonPath_append hr] at hj
    exact hj

theorem mem_enumPairsD_src {dstRoot : Path} {fs : FS} {dirs : List Path}
    {sd : Path × Path} (h : sd ∈ enumPairsD dstRoot fs dirs) :
    ∃ d ∈ dirs, sd.1 ∈ rglobJson fs d ∧ sd.2 = dstOf dstRoot d sd.1 := by
  rcases mem_listFlat.mp h with ⟨d, hdm, hd⟩
  rcases mem_dirPairs hd with ⟨hs, hdst⟩
  exact ⟨d, hdm, hs, hdst⟩

/-! ### Keys of the filesystem under writes and removals -/

theorem keys_writeFile_mem {l : FS} {p : Path} {f : File}
    (h : p ∈ l.map Prod.fst) :
    (writeFile l p f).map Prod.fst = l.map Prod.fst := by
  induction l with
  | nil => exact absurd h (List.not_mem_nil p)
  | cons e t ih =>
    rw [writeFile_cons]
    by_cases he : e.1 = p
    · rw [if_pos he, List.map_cons, List.map_cons, he]
    · rw [List.map_cons] at h
      rcases List.mem_cons.mp h with rfl | h2
      · exact absurd rfl he
      · rw [if_neg he, List.map_cons, List.map_cons, ih h2]

theorem keys_writeFile_not_mem {l : FS} {p : Path} {f : File}
    (h : p ∉ l.map Prod.fst) :
    (writeFile l p f).map Prod.fst = l.map Prod.fst ++ [p] := by
  induction l with
  | nil => rfl
  | cons e t ih =>
    rw [List.map_cons] at h
    have h1 : e.1 ≠ p := fun hc => h (List.mem_cons.mpr (Or.inl hc.symm))
    have h2 : p ∉ t.map Prod.fst := fun hc => h (List.mem_cons.mpr (Or.inr hc))
    rw [writeFile_cons, if_neg h1, List.map_cons, List.map_cons, ih h2,
      List.cons_append]

theorem keysNodup_writeFile {l : FS} {p : Path} {f : File}
    (h : (l.map Prod.fst).Nodup) : ((writeFile l p f).map Prod.fst).Nodup := by
  by_cases hm : p ∈ l.map Prod.fst
  · rw [keys_writeFile_mem hm]; exact h
  · rw [keys_writeFile_not_mem hm]
    exact List.Nodup.append h (List.nodup_singleton p)
      (fun a ha hb => hm ((List.mem_singleton.mp hb) ▸ ha))

theorem keys_removeFile (l : FS) (p : Path) :
    (removeFile l p).map Prod.fst =
      (l.map Prod.fst).filter (fun q => !decide (q = p)) :=
  map_fst_filter_key (fun q => !decide (q = p)) l

theorem keysNodup_removeFile {l : FS} {p : Path}
    (h : (l.map Prod.fst).Nodup) : ((removeFile l p).map Prod.fst).Nodup := by
  rw [keys_removeFile]
  exact List.Nodup.filter _ h

/-! ### Pointwise characterisation of one scanFile step -/

theorem scanFile_eq {dstRoot d : Path} {st : ScanSt} {src : Path} {f : File}
    (hs : lookupFile st.fs src = some f) :
    scanFile dstRoot d st src =
      { fs := match copyEntryOf st.fs (src, dstOf dstRoot d src) with
              | some _ => writeFile st.fs (dstOf dstRoot d src) f
              | none => st.fs,
        expected := dstOf dstRoot d src :: st.expected,
        entries := st.entries ++
          (copyEntryOf st.fs (src, dstOf dstRoot d src)).toList } := by
  cases hd : lookupFile st.fs (dstOf dstRoot d src) with
  | none =>
    simp [scanFile, copyEntryOf, copyDecide, contentOf, hs, hd]
  | some g =>
    by_cases hc : f.content = g.content
    · simp [scanFile, copyEntryOf, copyDecide, contentOf, sha256_file, hs, hd, hc]
    · simp [scanFile, copyEntryOf, copyDecide, contentOf, sha256_file, hs, hd, hc]

theorem copyEntryOf_self_content {fs : FS} {src dst : Path} {f : File}
    (hs : lookupFile fs src = some f) :
    contentOf (lookupFile
      (match copyEntryOf fs (src, dst) with
        | some _ => writeFile fs dst f
        | none => fs) dst) = contentOf (lookupFile fs src) ∧
    (lookupFile
      (match copyEntryOf fs (src, dst) with
        | some _ => writeFile fs dst f
        | none => fs) dst).isSome = true := by
  cases hd : lookupFile fs dst with
  | none =>
    have hce : copyEntryOf fs (src, dst) = some (some src, dst) := by
      simp [copyEntryOf, copyDecide, contentOf, hs, hd]
    rw [hce]
    simp [lookupFile_writeFile_self, contentOf, hs]
  | some g =>
    by_cases hc : f.content = g.content
    · have hce : copyEntryOf fs (src, dst) = none := by
        simp [copyEntryOf, copyDecide, contentOf, hs, hd, hc]
      rw [hce]
      simp [contentOf, hs, hd, hc]
    · have hce : copyEntryOf fs (src, dst) = some (some src, dst) := by
        simp [copyEntryOf, copyDecide, contentOf, hs, hd, hc]
      rw [hce]
      simp [lookupFile_writeFile_self, contentOf, hs]

theorem copyBranch_lookup_ne {fs : FS} {src dst q : Path} {f : File}
    (hq : q ≠ dst) :
    lookupFile
      (match copyEntryOf fs (src, dst) with
        | some _ => writeFile fs dst f
        | none => fs) q = lookupFile fs q := by
  cases copyEntryOf fs (src, dst) with
  | none => rfl
  | some e => exact lookupFile_writeFile_ne hq

theorem copyBranch_keys {fs : FS} {src dst : Path} {f : File} :
    ∃ nk, (match copyEntryOf fs (src, dst) with
        | some _ => writeFile fs dst f
        | none => fs).map Prod.fst = fs.map Prod.fst ++ nk ∧
      ∀ x ∈ nk, x = dst := by
  cases copyEntryOf fs (src, dst) with
  | none => exact ⟨[], by simp, by simp⟩
  | some e =>
    by_cases hm : dst ∈ fs.map Prod.fst
    · exact ⟨[], by simp [keys_writeFile_mem hm], by simp⟩
    · refine ⟨[dst], keys_writeFile_not_mem hm, ?_⟩
      intro x hx
      exact List.mem_singleton.mp hx

theorem copyBranch_keysNodup {fs : FS} {src dst : Path} {f : File}
    (h : (fs.map Prod.fst).Nodup) :
    ((match copyEntryOf fs (src, dst) with
        | some _ => writeFile fs dst f
        | none => fs).map Prod.fst).Nodup := by
  cases copyEntryOf fs (src, dst) with
  | none => exact h
  | some e => exact keysNodup_writeFile h

theorem filterMap_congr_mem {α β : Type} {f g : α → Option β} {l : List α}
    (h : ∀ a ∈ l, f a = g a) : l.filterMap f = l.filterMap g := by
  induction l with
  | nil => rfl
  | cons a t ih =>
    rw [List.filterMap_cons, List.filterMap_cons,
      h a (List.mem_cons_self a t),
      ih (fun b hb => h b (List.mem_cons_of_mem a hb))]

/-- What one directory walk does, relative to the state at walk entry. -/
structure SrcsFoldSpec (dstRoot d : Path) (srcs : List Path) (st r : ScanSt) :
    Prop where
  entriesEq : r.entries = st.entries ++
    (srcs.map (fun s => (s, dstOf dstRoot d s))).filterMap (copyEntryOf st.fs)
  expectedIff : ∀ x, x ∈ r.expected ↔
    x ∈ srcs.map (dstOf dstRoot d) ∨ x ∈ st.expected
  reads : ∀ p,
    match findSrc (srcs.map (fun s => (s, dstOf dstRoot d s))) p with
    | some s => contentOf (lookupFile r.fs p) =
        contentOf (lookupFile st.fs s) ∧ (lookupFile r.fs p).isSome = true
    | none => lookupFile r.fs p = lookupFile st.fs p
  newKeys : ∃ nk, r.fs.map Prod.fst = st.fs.map Prod.fst ++ nk ∧
    ∀ x ∈ nk, x ∈ srcs.map (dstOf dstRoot d)

theorem foldSrcs_spec {dstRoot d R : Path} (hdisj : disjointPaths d R = true)
    (hR : isUnder R dstRoot = true) :
    ∀ (srcs : List Path) (st : ScanSt),
      (∀ s ∈ srcs, underDir d s = true) →
      (srcs.map (dstOf dstRoot d)).Nodup →
      (∀ s ∈ srcs, (lookupFile st.fs s).isSome = true) →
      SrcsFoldSpec dstRoot d srcs st (srcs.foldl (scanFile dstRoot d) st) := by
  intro srcs
  induction srcs with
  | nil =>
    intro st _ _ _
    refine ⟨by simp, by simp, ?_, ⟨[], by simp, by simp⟩⟩
    intro p
    simp only [List.map_nil, findSrc_nil]
    rfl
  | cons src rest ih =>
    intro st h_under h_nodup h_present
    rw [List.foldl_cons]
    have hsome := h_present src (List.mem_cons_self src rest)
    rcases Option.isSome_iff_exists.mp hsome with ⟨f, hs⟩
    have hstep := @scanFile_eq dstRoot d st src f hs
    have hfs1 : (scanFile dstRoot d st src).fs =
        match copyEntryOf st.fs (src, dstOf dstRoot d src) with
        | some _ => writeFile st.fs (dstOf dstRoot d src) f
        | none => st.fs := by rw [hstep]
    have hexp1 : (scanFile dstRoot d st src).expected =
        dstOf dstRoot d src :: st.expected := by rw [hstep]
    have hent1 : (scanFile dstRoot d st src).entries = st.entries ++
        (copyEntryOf st.fs (src, dstOf dstRoot d src)).toList := by rw [hstep]
    have hRdst : isUnder R (dstOf dstRoot d src) = true :=
      isUnder_trans hR isUnder_append
    have hne_src_dst : ∀ s, underDir d s = true → s ≠ dstOf dstRoot d src := by
      intro s hu heq
      have h1 : isUnder R s = false :=
        disjointPaths_not_left hdisj (underDir_isUnder hu)
      rw [heq, hRdst] at h1
      exact absurd h1 (by simp)
    have hlook1_ne : ∀ q, q ≠ dstOf dstRoot d src →
        lookupFile (scanFile dstRoot d st src).fs q = lookupFile st.fs q := by
      intro q hq
      rw [hfs1]
      exact copyBranch_lookup_ne hq
    have hlookdst : contentOf (lookupFile (scanFile dstRoot d st src).fs
        (dstOf dstRoot d src)) = contentOf (lookupFile st.fs src) ∧
        (lookupFile (scanFile dstRoot d st src).fs
          (dstOf dstRoot d src)).isSome = true := by
      rw [hfs1]
      exact copyEntryOf_self_content hs
    have hdst_notin : dstOf dstRoot d src ∉ rest.map (dstOf dstRoot d) := by
      have := h_nodup
      rw [List.map_cons, List.nodup_cons] at this
      exact this.1
    have h_under2 : ∀ s ∈ rest, underDir d s = true :=
      fun s hsm => h_under s (List.mem_cons_of_mem src hsm)
    have h_present2 : ∀ s ∈ rest,
        (lookupFile (scanFile dstRoot d st src).fs s).isSome = true := by
      intro s hsm
      rw [hlook1_ne s (hne_src_dst s (h_under2 s hsm))]
      exact h_present s (List.mem_cons_of_mem src hsm)
    have h_nodup2 : (rest.map (dstOf dstRoot d)).Nodup := by
      have := h_nodup
      rw [List.map_cons, List.nodup_cons] at this
      exact this.2
    have IH := ih (scanFile dstRoot d st src) h_under2 h_nodup2 h_present2
    have hcopy_congr : ∀ sd ∈ rest.map (fun s => (s, dstOf dstRoot d s)),
        copyEntryOf (scanFile dstRoot d st src).fs sd =
          copyEntryOf st.fs sd := by
      intro sd hsd
      rcases List.mem_map.mp hsd with ⟨s2, hs2, rfl⟩
      unfold copyEntryOf
      rw [hlook1_ne s2 (hne_src_dst s2 (h_under2 s2 hs2))]
      rw [hlook1_ne (dstOf dstRoot d s2) (by
        intro hcontra
        exact hdst_notin (hcontra ▸ List.mem_map_of_mem (dstOf dstRoot d) hs2))]
    refine ⟨?_, ?_, ?_, ?_⟩
    · rw [IH.entriesEq, hent1,
        filterMap_congr_mem hcopy_congr, List.map_cons, List.filterMap_cons,
        List.append_assoc]
      cases copyEntryOf st.fs (src, dstOf dstRoot d src) with
      | none => simp
      | some e => simp
    · intro x
      rw [IH.expectedIff x, hexp1]
      simp only [List.map_cons, List.mem_cons]
      tauto
    · intro p
      simp only [List.map_cons, findSrc_cons]
      by_cases hp : dstOf dstRoot d src = p
      · rw [if_pos (by simpa using hp)]
        have hfnone : findSrc (rest.map (fun s => (s, dstOf dstRoot d s))) p =
            none := by
          rw [findSrc_none_iff]
          intro hmem
          apply hdst_notin
          rw [hp]
          simpa [List.map_map, Function.comp] using hmem
        have hIHp := IH.reads p
        rw [hfnone] at hIHp
        simp only at hIHp
        rw [hIHp, ← hp]
        exact hlookdst
      · rw [if_neg (by simpa using hp)]
        have hIHp := IH.reads p
        cases hfind : findSrc (rest.map (fun s => (s, dstOf dstRoot d s))) p with
        | some s2 =>
          rw [hfind] at hIHp
          simp only at hIHp ⊢
          have hmem : (s2, p) ∈ rest.map (fun s => (s, dstOf dstRoot d s)) :=
            findSrc_some_mem hfind
          rcases List.mem_map.mp hmem with ⟨s3, hs3, heq⟩
          have hs23 : s3 = s2 := congrArg Prod.fst heq
          subst hs23
          rw [hlook1_ne s3 (hne_src_dst s3 (h_under2 s3 hs3))] at hIHp
          exact hIHp
        | none =>
          rw [hfind] at hIHp
          simp only at hIHp ⊢
          rw [hIHp]
          exact hlook1_ne p (fun hc => hp hc.symm)
    · rcases (show ∃ nk, (scanFile dstRoot d st src).fs.map Prod.fst =
          st.fs.map Prod.fst ++ nk ∧ ∀ x ∈ nk, x = dstOf dstRoot d src from by
            rw [hfs1]
            exact copyBranch_keys) with ⟨nk1, hk1, hnk1⟩
      rcases IH.newKeys with ⟨nk2, hk2, hnk2⟩
      refine ⟨nk1 ++ nk2, ?_, ?_⟩
      · rw [hk2, hk1, List.append_assoc]
      · intro x hx
        rcases List.mem_append.mp hx with hx | hx
        · rw [List.map_cons]
          exact List.mem_cons.mpr (Or.inl (hnk1 x hx))
        · rw [List.map_cons]
          exact List.mem_cons.mpr (Or.inr (hnk2 x hx))

/-- Spec of a scan phase in terms of its (source, destination) pairs,
relative to the state at phase entry. -/
structure PairsSpec (pairs : List (Path × Path)) (st r : ScanSt) : Prop where
  entriesEq : r.entries = st.entries ++ pairs.filterMap (copyEntryOf st.fs)
  expectedIff : ∀ x, x ∈ r.expected ↔ x ∈ pairs.map Prod.snd ∨ x ∈ st.expected
  reads : ∀ p,
    match findSrc pairs p with
    | some s => contentOf (lookupFile r.fs p) =
        contentOf (lookupFile st.fs s) ∧ (lookupFile r.fs p).isSome = true
    | none => lookupFile r.fs p = lookupFile st.fs p
  newKeys : ∃ nk, r.fs.map Prod.fst = st.fs.map Prod.fst ++ nk ∧
    ∀ x ∈ nk, x ∈ pairs.map Prod.snd

theorem copyEntryOf_congr {fs1 fs2 : FS} {sd : Path × Path}
    (h1 : lookupFile fs1 sd.1 = lookupFile fs2 sd.1)
    (h2 : lookupFile fs1 sd.2 = lookupFile fs2 sd.2) :
    copyEntryOf fs1 sd = copyEntryOf fs2 sd := by
  unfold copyEntryOf
  rw [h1, h2]

theorem keysNodup_scanFile {dstRoot d : Path} {st : ScanSt} {src : Path}
    (h : (st.fs.map Prod.fst).Nodup) :
    ((scanFile dstRoot d st src).fs.map Prod.fst).Nodup := by
  cases hs : lookupFile st.fs src with
  | none => simp only [scanFile, hs]; exact h
  | some f =>
    cases hd : lookupFile st.fs (dstOf dstRoot d src) with
    | none =>
      simp only [scanFile, hs, hd]
      exact keysNodup_writeFile h
    | some g =>
      by_cases hc : sha256_file f = sha256_file g
      · simp only [scanFile, hs, hd]
        rw [if_pos hc]
        exact h
      · simp only [scanFile, hs, hd]
        rw [if_neg hc]
        exact keysNodup_writeFile h

theorem keysNodup_scanDir {dstRoot : Path} {st : ScanSt} {d : Path}
    (h : (st.fs.map Prod.fst).Nodup) :
    ((scanDir dstRoot st d).fs.map Prod.fst).Nodup := by
  unfold scanDir
  by_cases hp : pathOnDisk st.fs d
  · rw [if_pos hp]
    exact foldl_preserves
      (P := fun s : ScanSt => (s.fs.map Prod.fst).Nodup)
      (fun s a hs => keysNodup_scanFile hs) _ st h
  · rw [if_neg hp]
    exact h

theorem dstOf_inj_on {dstRoot d s1 s2 : Path} (h1 : underDir d s1 = true)
    (h2 : underDir d s2 = true)
    (he : dstOf dstRoot d s1 = dstOf dstRoot d s2) : s1 = s2 := by
  rcases underDir_iff.mp h1 with ⟨r1, _, rfl⟩
  rcases underDir_iff.mp h2 with ⟨r2, _, rfl⟩
  unfold dstOf at he
  rw [drop_append_self, drop_append_self] at he
  rw [List.append_cancel_left he]

/-- One directory iteration of the per-slicer loop, in pairs form. -/
theorem scanDir_spec {dstRoot d R : Path} {st : ScanSt}
    (hdisj : disjointPaths d R = true) (hR : isUnder R dstRoot = true)
    (hkeys : (st.fs.map Prod.fst).Nodup) :
    PairsSpec (dirPairs dstRoot st.fs d) st (scanDir dstRoot st d) := by
  unfold scanDir dirPairs
  by_cases hp : pathOnDisk st.fs d
  · rw [if_pos hp, if_pos hp]
    have h_under : ∀ s ∈ rglobJson st.fs d, underDir d s = true :=
      fun s hsm => (mem_rglobJson.mp hsm).2.1
    have h_nodup : ((rglobJson st.fs d).map (dstOf dstRoot d)).Nodup :=
      List.Nodup.map_on
        (fun x hx y hy hxy =>
          dstOf_inj_on (h_under x hx) (h_under y hy) hxy)
        (rglobJson_nodup hkeys)
    have h_present : ∀ s ∈ rglobJson st.fs d,
        (lookupFile st.fs s).isSome = true :=
      fun s hsm => mem_rglobJson_isSome hsm
    have hspec := foldSrcs_spec hdisj hR (rglobJson st.fs d) st h_under
      h_nodup h_present
    refine ⟨hspec.entriesEq, ?_, hspec.reads, ?_⟩
    · intro x
      rw [hspec.expectedIff x]
      rw [List.map_map]
      rfl
    · rcases hspec.newKeys with ⟨nk, hk, hnk⟩
      refine ⟨nk, hk, ?_⟩
      intro x hx
      rw [List.map_map]
      exact hnk x hx
  · rw [if_neg hp, if_neg hp]
    refine ⟨by simp, by simp, ?_, ⟨[], by simp, by simp⟩⟩
    intro p
    simp only [findSrc_nil]

/-- Sequential composition of two scan phases whose destination regions are
inside `R`, whose sources lie outside `R`, and whose destinations do not
collide. -/
theorem pairsSpec_comp {R : Path} {pairs1 pairs2 : List (Path × Path)}
    {st st1 r : ScanSt}
    (spec1 : PairsSpec pairs1 st st1) (spec2 : PairsSpec pairs2 st1 r)
    (hsrc2 : ∀ sd ∈ pairs2, isUnder R sd.1 = false)
    (hdst1 : ∀ x ∈ pairs1.map Prod.snd, isUnder R x = true)
    (hdisj12 : ∀ x, x ∈ pairs2.map Prod.snd → x ∈ pairs1.map Prod.snd → False) :
    PairsSpec (pairs1 ++ pairs2) st r := by
  have hstable : ∀ sd ∈ pairs2,
      lookupFile st1.fs sd.1 = lookupFile st.fs sd.1 ∧
      lookupFile st1.fs sd.2 = lookupFile st.fs sd.2 := by
    intro sd hsd
    constructor
    · have hf : findSrc pairs1 sd.1 = none := by
        rw [findSrc_none_iff]
        intro hm
        have h1 := hsrc2 sd hsd
        rw [hdst1 sd.1 hm] at h1
        exact absurd h1 (by simp)
      have := spec1.reads sd.1
      rw [hf] at this
      exact this
    · have hf : findSrc pairs1 sd.2 = none := by
        rw [findSrc_none_iff]
        intro hm
        exact hdisj12 sd.2 (List.mem_map_of_mem Prod.snd hsd) hm
      have := spec1.reads sd.2
      rw [hf] at this
      exact this
  have hcongr : ∀ sd ∈ pairs2,
      copyEntryOf st1.fs sd = copyEntryOf st.fs sd := by
    intro sd hsd
    exact copyEntryOf_congr (hstable sd hsd).1 (hstable sd hsd).2
  refine ⟨?_, ?_, ?_, ?_⟩
  · rw [spec2.entriesEq, filterMap_congr_mem hcongr, spec1.entriesEq,
      List.filterMap_append, List.append_assoc]
  · intro x
    rw [spec2.expectedIff x, spec1.expectedIff x, List.map_append,
      List.mem_append]
    tauto
  · intro p
    cases hf1 : findSrc pairs1 p with
    | some s =>
      rw [findSrc_append_left hf1]
      have hp1 : p ∈ pairs1.map Prod.snd :=
        List.mem_map_of_mem Prod.snd (findSrc_some_mem hf1)
      have hf2 : findSrc pairs2 p = none := by
        rw [findSrc_none_iff]
        intro hm
        exact hdisj12 p hm hp1
      have h2 := spec2.reads p
      rw [hf2] at h2
      have h1 := spec1.reads p
      rw [hf1] at h1
      simp only at h1 h2 ⊢
      rw [h2]
      exact h1
    | none =>
      rw [findSrc_append_right hf1]
      have h1 := spec1.reads p
      rw [hf1] at h1
      simp only at h1
      cases hf2 : findSrc pairs2 p with
      | some s2 =>
        have h2 := spec2.reads p
        rw [hf2] at h2
        simp only at h2 ⊢
        have hmem2 : (s2, p) ∈ pairs2 := findSrc_some_mem hf2
        rw [(hstable (s2, p) hmem2).1] at h2
        exact h2
      | none =>
        have h2 := spec2.reads p
        rw [hf2] at h2
        simp only at h2 ⊢
        rw [h2, h1]
  · rcases spec1.newKeys with ⟨nk1, hk1, hnk1⟩
    rcases spec2.newKeys with ⟨nk2, hk2, hnk2⟩
    refine ⟨nk1 ++ nk2, ?_, ?_⟩
    · rw [hk2, hk1, List.append_assoc]
    · intro x hx
      rw [List.map_append, List.mem_append]
      rcases List.mem_append.mp hx with hx | hx
      · exact Or.inl (hnk1 x hx)
      · exact Or.inr (hnk2 x hx)

theorem mem_dirPairs_dst {dstRoot : Path} {fs : FS} {d : Path} {x : Path}
    (h : x ∈ (dirPairs dstRoot fs d).map Prod.snd) :
    underDir dstRoot x = true := by
  rcases List.mem_map.mp h with ⟨sd, hsd, rfl⟩
  rcases mem_dirPairs hsd with ⟨hs, hdst⟩
  rw [hdst]
  exact dstOf_underDir (mem_rglobJson.mp hs).2.1

theorem mem_enumPairsD_dst_under {dstRoot : Path} {fs : FS}
    {dirs : List Path} {x : Path}
    (h : x ∈ (enumPairsD dstRoot fs dirs).map Prod.snd) :
    underDir dstRoot x = true := by
  rcases List.mem_map.mp h with ⟨sd, hsd, rfl⟩
  exact (mem_enumPairsD_dst hsd).1

theorem enumPairsD_src_notR {dstRoot R : Path} {fs : FS} {dirs : List Path}
    (hd : ∀ d ∈ dirs, disjointPaths d R = true) {sd : Path × Path}
    (h : sd ∈ enumPairsD dstRoot fs dirs) : isUnder R sd.1 = false := by
  rcases mem_enumPairsD_src h with ⟨d, hdm, hs, _⟩
  exact disjointPaths_not_left (hd d hdm)
    (underDir_isUnder (mem_rglobJson.mp hs).2.1)

theorem dirsFold_spec {dstRoot R : Path} (hR : isUnder R dstRoot = true) :
    ∀ (dirs : List Path) (st : ScanSt),
      (∀ d ∈ dirs, disjointPaths d R = true) →
      (st.fs.map Prod.fst).Nodup →
      ((enumPairsD dstRoot st.fs dirs).map Prod.snd).Nodup →
      PairsSpec (enumPairsD dstRoot st.fs dirs) st
        (dirs.foldl (scanDir dstRoot) st) := by
  intro dirs
  induction dirs with
  | nil =>
    intro st _ _ _
    refine ⟨by simp [enumPairsD, listFlat_nil],
      by simp [enumPairsD, listFlat_nil], ?_,
      ⟨[], by simp, by simp [enumPairsD, listFlat_nil]⟩⟩
    intro p
    simp only [enumPairsD, listFlat_nil, findSrc_nil]
    rfl
  | cons d rest ihd =>
    intro st hdisj hkeys hnodup
    rw [List.foldl_cons]
    have hdisj_d : disjointPaths d R = true := hdisj d (List.mem_cons_self d rest)
    have hdisj_rest : ∀ d2 ∈ rest, disjointPaths d2 R = true :=
      fun d2 hm => hdisj d2 (List.mem_cons_of_mem d hm)
    have spec1 := @scanDir_spec dstRoot d R st hdisj_d hR hkeys
    have hframe : (scanDir dstRoot st d).fs.filter
        (fun e => !isUnder R e.1) = st.fs.filter (fun e => !isUnder R e.1) :=
      scanDir_frame hR d
    have hpairs_rest : enumPairsD dstRoot (scanDir dstRoot st d).fs rest =
        enumPairsD dstRoot st.fs rest :=
      enumPairsD_restrict hdisj_rest hframe
    have hsplit : enumPairsD dstRoot st.fs (d :: rest) =
        dirPairs dstRoot st.fs d ++ enumPairsD dstRoot st.fs rest := by
      unfold enumPairsD
      rw [listFlat_cons]
    have hnodup2 := hnodup
    rw [hsplit, List.map_append, List.nodup_append] at hnodup2
    have ihspec := ihd (scanDir dstRoot st d) hdisj_rest
      (keysNodup_scanDir hkeys) (by rw [hpairs_rest]; exact hnodup2.2.1)
    rw [hpairs_rest] at ihspec
    rw [hsplit]
    exact pairsSpec_comp (R := R) spec1 ihspec
      (fun sd hsd => enumPairsD_src_notR hdisj_rest hsd)
      (fun x hx => isUnder_trans hR (underDir_isUnder (mem_dirPairs_dst hx)))
      (fun x hx2 hx1 => hnodup2.2.2 hx1 hx2)

theorem filter_congr_mem {α : Type} {f g : α → Bool} {l : List α}
    (h : ∀ a ∈ l, f a = g a) : l.filter f = l.filter g := by
  induction l with
  | nil => rfl
  | cons a t ih =>
    rw [List.filter_cons, List.filter_cons, h a (List.mem_cons_self a t),
      ih (fun b hb => h b (List.mem_cons_of_mem a hb))]

theorem delFold_entries (E : List Path) :
    ∀ (todel : List Path) (st : FS × List ChangeEntry),
      (todel.foldl (deleteStale E) st).2 =
        st.2 ++ (todel.filter (fun p => decide (p ∉ E))).map
          (fun p => ((none : Option Path), p)) := by
  intro todel
  induction todel with
  | nil => intro st; simp
  | cons q rest ih =>
    intro st
    rw [List.foldl_cons, ih, List.filter_cons]
    unfold deleteStale
    by_cases hq : q ∈ E
    · rw [if_pos hq, if_neg (by simpa using hq)]
    · rw [if_neg hq, if_pos (by simpa using hq)]
      simp

theorem delFold_reads (E : List Path) :
    ∀ (todel : List Path) (st : FS × List ChangeEntry) (p : Path),
      lookupFile (todel.foldl (deleteStale E) st).1 p =
        if p ∈ todel ∧ p ∉ E then none else lookupFile st.1 p := by
  intro todel
  induction todel with
  | nil =>
    intro st p
    rw [if_neg (by simp)]
    rfl
  | cons q rest ih =>
    intro st p
    rw [List.foldl_cons, ih]
    by_cases hrest : p ∈ rest ∧ p ∉ E
    · rw [if_pos hrest,
        if_pos ⟨List.mem_cons_of_mem q hrest.1, hrest.2⟩]
    · rw [if_neg hrest]
      unfold deleteStale
      by_cases hq : q ∈ E
      · rw [if_pos hq]
        by_cases hcons : p ∈ q :: rest ∧ p ∉ E
        · rcases List.mem_cons.mp hcons.1 with rfl | hm
          · exact absurd hq hcons.2
          · exact absurd ⟨hm, hcons.2⟩ hrest
        · rw [if_neg hcons]
      · rw [if_neg hq]
        by_cases hpq : p = q
        · subst hpq
          rw [if_pos ⟨List.mem_cons_self p rest, hq⟩]
          exact lookupFile_removeFile_self
        · have : (p ∈ q :: rest ∧ p ∉ E) ↔ (p ∈ rest ∧ p ∉ E) := by
            rw [List.mem_cons]
            constructor
            · rintro ⟨h1 | h1, h2⟩
              · exact absurd h1 hpq
              · exact ⟨h1, h2⟩
            · rintro ⟨h1, h2⟩
              exact ⟨Or.inr h1, h2⟩
          rw [if_neg (fun hc => hrest (this.mp hc))]
          exact lookupFile_removeFile_ne hpq

theorem delFold_keysNodup {E : List Path} {todel : List Path}
    {st : FS × List ChangeEntry} (h : (st.1.map Prod.fst).Nodup) :
    (((todel.foldl (deleteStale E) st).1).map Prod.fst).Nodup := by
  refine foldl_preserves
    (P := fun s : FS × List ChangeEntry => (s.1.map Prod.fst).Nodup)
    ?_ todel st h
  intro s q hs
  unfold deleteStale
  by_cases hq : q ∈ E
  · rw [if_pos hq]; exact hs
  · rw [if_neg hq]; exact keysNodup_removeFile hs

/-- What one slicer iteration does, relative to the filesystem at its
entry. -/
structure SlicerSpec (cfg : Config) (fsIn : FS) (k : String)
    (es : List ChangeEntry) (out : FS × List ChangeEntry) : Prop where
  entriesEq : out.2 = es ++ (pureCopies cfg fsIn k ++ pureDels cfg fsIn k)
  reads : ∀ p,
    match findSrc (enumPairs cfg fsIn k) p with
    | some s => contentOf (lookupFile out.1 p) =
        contentOf (lookupFile fsIn s) ∧ (lookupFile out.1 p).isSome = true
    | none =>
        if p ∈ delDsts cfg fsIn k then lookupFile out.1 p = none
        else lookupFile out.1 p = lookupFile fsIn p
  keysNd : (out.1.map Prod.fst).Nodup

theorem scanSlicer_assemble {cfg : Config} {k : String} {fsIn : FS}
    {es : List ChangeEntry} {s1 : ScanSt}
    (dspec : PairsSpec (enumPairs cfg fsIn k)
      { fs := fsIn, expected := [], entries := es } s1)
    (hs1keys : (s1.fs.map Prod.fst).Nodup) :
    SlicerSpec cfg fsIn k es
      ((rglobJson s1.fs (cfg.dstRootOf k)).foldl (deleteStale s1.expected)
        (s1.fs, s1.entries)) := by
  have hypEntries : s1.entries =
      es ++ (enumPairs cfg fsIn k).filterMap (copyEntryOf fsIn) :=
    dspec.entriesEq
  have hypExpRaw : ∀ x, x ∈ s1.expected ↔
      x ∈ (enumPairs cfg fsIn k).map Prod.snd ∨ x ∈ ([] : List Path) :=
    dspec.expectedIff
  have hEiff : ∀ x, x ∈ s1.expected ↔ x ∈ expectedList cfg fsIn k := by
    intro x
    rw [hypExpRaw x]
    constructor
    · rintro (h | h)
      · exact h
      · exact absurd h (List.not_mem_nil x)
    · intro h
      exact Or.inl h
  have hypReads : ∀ p,
      match findSrc (enumPairs cfg fsIn k) p with
      | some s => contentOf (lookupFile s1.fs p) =
          contentOf (lookupFile fsIn s) ∧ (lookupFile s1.fs p).isSome = true
      | none => lookupFile s1.fs p = lookupFile fsIn p :=
    dspec.reads
  have hypNew : ∃ nk, s1.fs.map Prod.fst = fsIn.map Prod.fst ++ nk ∧
      ∀ x ∈ nk, x ∈ (enumPairs cfg fsIn k).map Prod.snd :=
    dspec.newKeys
  rcases hypNew with ⟨nk, hk, hnk⟩
  have htodel : rglobJson s1.fs (cfg.dstRootOf k) =
      rglobJson fsIn (cfg.dstRootOf k) ++
        nk.filter (fun p => underDir (cfg.dstRootOf k) p && isJsonPath p) := by
    unfold rglobJson
    rw [hk, List.filter_append]
  have hnkJ : ∀ x ∈ nk.filter
      (fun p => underDir (cfg.dstRootOf k) p && isJsonPath p),
      x ∈ expectedList cfg fsIn k := by
    intro x hx
    exact hnk x (List.mem_filter.mp hx).1
  refine ⟨?_, ?_, ?_⟩
  · have hE2 : ((rglobJson s1.fs (cfg.dstRootOf k)).foldl
        (deleteStale s1.expected) (s1.fs, s1.entries)).2 =
        s1.entries ++ ((rglobJson s1.fs (cfg.dstRootOf k)).filter
          (fun p => decide (p ∉ s1.expected))).map
          (fun p => ((none : Option Path), p)) :=
      delFold_entries s1.expected _ _
    rw [hE2, hypEntries]
    have hfilter : (rglobJson s1.fs (cfg.dstRootOf k)).filter
        (fun p => decide (p ∉ s1.expected)) = delDsts cfg fsIn k := by
      rw [htodel, List.filter_append]
      have h2 : (nk.filter
          (fun p => underDir (cfg.dstRootOf k) p && isJsonPath p)).filter
          (fun p => decide (p ∉ s1.expected)) = [] := by
        rw [List.filter_eq_nil_iff]
        intro x hx
        simp only [decide_eq_true_eq, not_not]
        exact (hEiff x).mpr (hnkJ x hx)
      rw [h2, List.append_nil]
      apply filter_congr_mem
      intro p _
      rw [decide_eq_decide, not_iff_not]
      exact hEiff p
    rw [hfilter]
    unfold pureDels pureCopies
    rw [List.append_assoc]
  · intro p
    have hrd : lookupFile ((rglobJson s1.fs (cfg.dstRootOf k)).foldl
        (deleteStale s1.expected) (s1.fs, s1.entries)).1 p =
        if p ∈ rglobJson s1.fs (cfg.dstRootOf k) ∧ p ∉ s1.expected then none
        else lookupFile s1.fs p :=
      delFold_reads s1.expected _ _ p
    have hds := hypReads p
    cases hf : findSrc (enumPairs cfg fsIn k) p with
    | some s =>
      rw [hf] at hds
      simp only at hds ⊢
      have hpdst : p ∈ expectedList cfg fsIn k :=
        List.mem_map_of_mem Prod.snd (findSrc_some_mem hf)
      rw [hrd, if_neg (fun hc => hc.2 ((hEiff p).mpr hpdst))]
      exact hds
    | none =>
      rw [hf] at hds
      simp only at hds ⊢
      rw [hrd]
      by_cases hdel : p ∈ delDsts cfg fsIn k
      · rw [if_pos hdel]
        have h1 : p ∈ rglobJson fsIn (cfg.dstRootOf k) :=
          (List.mem_filter.mp hdel).1
        have h2 : p ∉ expectedList cfg fsIn k := by
          have := (List.mem_filter.mp hdel).2
          simpa using this
        rw [if_pos ⟨by rw [htodel]; exact List.mem_append_left _ h1,
          fun hc => h2 ((hEiff p).mp hc)⟩]
      · rw [if_neg hdel]
        have hcond : ¬ (p ∈ rglobJson s1.fs (cfg.dstRootOf k) ∧
            p ∉ s1.expected) := by
          rintro ⟨hmem, hnotE⟩
          rw [htodel] at hmem
          rcases List.mem_append.mp hmem with hm | hm
          · have hnotEL : p ∉ expectedList cfg fsIn k :=
              fun hc => hnotE ((hEiff p).mpr hc)
            exact hdel (List.mem_filter.mpr ⟨hm, by simpa using hnotEL⟩)
          · exact hnotE ((hEiff p).mpr (hnkJ p hm))
        rw [if_neg hcond]
        exact hds
  · exact delFold_keysNodup hs1keys

theorem scanSlicer_spec {cfg : Config} {k : String} {fsIn : FS}
    {es : List ChangeEntry}
    (hkeys : (fsIn.map Prod.fst).Nodup)
    (hdisj : ∀ d ∈ cfg.dirsOf k, disjointPaths d cfg.repoDir = true)
    (hnodup : (expectedList cfg fsIn k).Nodup) :
    SlicerSpec cfg fsIn k es (scanSlicer cfg (fsIn, es) k) := by
  have hR : isUnder cfg.repoDir (cfg.dstRootOf k) = true :=
    isUnder_repoDir_dstRoot
  have dspec : PairsSpec (enumPairs cfg fsIn k)
      { fs := fsIn, expected := [], entries := es }
      ((cfg.dirsOf k).foldl (scanDir (cfg.dstRootOf k))
        { fs := fsIn, expected := [], entries := es }) :=
    dirsFold_spec hR (cfg.dirsOf k)
      { fs := fsIn, expected := [], entries := es } hdisj hkeys hnodup
  have hs1keys : ((((cfg.dirsOf k).foldl (scanDir (cfg.dstRootOf k))
      { fs := fsIn, expected := [], entries := es }).fs).map Prod.fst).Nodup :=
    foldl_preserves (P := fun s : ScanSt => (s.fs.map Prod.fst).Nodup)
      (fun s a hs => keysNodup_scanDir hs) _ _ hkeys
  exact scanSlicer_assemble dspec hs1keys

theorem map_listFlat {α β γ : Type} (g : β → γ) (f : α → List β)
    (l : List α) : (listFlat f l).map g = listFlat (fun a => (f a).map g) l := by
  induction l with
  | nil => rfl
  | cons a t ih => simp [listFlat_cons, ih]

def globPairs (cfg : Config) (fs : FS) (K : List String) :
    List (Path × Path) :=
  listFlat (fun k => enumPairs cfg fs k) K

theorem mem_delDsts_under {cfg : Config} {fs : FS} {k : String} {p : Path}
    (h : p ∈ delDsts cfg fs k) : underDir (cfg.dstRootOf k) p = true :=
  (mem_rglobJson.mp (List.mem_filter.mp h).1).2.1

theorem mem_expected_under {cfg : Config} {fs : FS} {k : String} {p : Path}
    (h : p ∈ expectedList cfg fs k) : underDir (cfg.dstRootOf k) p = true :=
  mem_enumPairsD_dst_under h

theorem globPairs_cons {cfg : Config} {fs : FS} {k : String}
    {K : List String} : globPairs cfg fs (k :: K) =
    enumPairs cfg fs k ++ globPairs cfg fs K := by
  simp [globPairs, listFlat_cons]

theorem mem_globPairs_dst {cfg : Config} {fs : FS} {K : List String} {p : Path}
    (h : p ∈ (globPairs cfg fs K).map Prod.snd) :
    ∃ k ∈ K, underDir (cfg.dstRootOf k) p = true := by
  rw [globPairs, map_listFlat] at h
  rcases mem_listFlat.mp h with ⟨k, hk, hp⟩
  exact ⟨k, hk, mem_expected_under hp⟩

/-- What the whole per-slicer fold does over a key list, relative to the
filesystem at fold entry. -/
structure GlobSpec (cfg : Config) (fsIn : FS) (K : List String)
    (es : List ChangeEntry) (out : FS × List ChangeEntry) : Prop where
  entriesEq : out.2 = es ++
    listFlat (fun k => pureCopies cfg fsIn k ++ pureDels cfg fsIn k) K
  reads : ∀ p,
    match findSrc (globPairs cfg fsIn K) p with
    | some s => contentOf (lookupFile out.1 p) =
        contentOf (lookupFile fsIn s) ∧ (lookupFile out.1 p).isSome = true
    | none =>
        ((∃ k ∈ K, p ∈ delDsts cfg fsIn k) → lookupFile out.1 p = none) ∧
        ((∀ k ∈ K, p ∉ delDsts cfg fsIn k) →
          lookupFile out.1 p = lookupFile fsIn p)
  keysNd : (out.1.map Prod.fst).Nodup
  frameOut : out.1.filter (fun e => !isUnder cfg.repoDir e.1) =
    fsIn.filter (fun e => !isUnder cfg.repoDir e.1)

theorem slicersFold_spec (cfg : Config) :
    ∀ (K : List String) (fsIn : FS) (es : List ChangeEntry),
      (fsIn.map Prod.fst).Nodup →
      K.Nodup →
      (∀ k ∈ K, ∀ d ∈ cfg.dirsOf k, disjointPaths d cfg.repoDir = true) →
      (listFlat (fun k => expectedList cfg fsIn k) K).Nodup →
      GlobSpec cfg fsIn K es (K.foldl (scanSlicer cfg) (fsIn, es)) := by
  intro K
  induction K with
  | nil =>
    intro fsIn es hkeys _ _ _
    refine ⟨by simp [listFlat_nil], ?_, hkeys, rfl⟩
    intro p
    simp only [globPairs, listFlat_nil, findSrc_nil]
    exact ⟨by rintro ⟨k, hk, _⟩; exact absurd hk (List.not_mem_nil k),
      fun _ => rfl⟩
  | cons k rest ihK =>
    intro fsIn es hkeys hKnd hdisj hflatnd
    rw [List.foldl_cons]
    have hKnd2 := List.nodup_cons.mp hKnd
    have hdisj_k := hdisj k (List.mem_cons_self k rest)
    have hdisj_rest : ∀ k2 ∈ rest, ∀ d ∈ cfg.dirsOf k2,
        disjointPaths d cfg.repoDir = true :=
      fun k2 hm => hdisj k2 (List.mem_cons_of_mem k hm)
    have hflat2 := hflatnd
    rw [listFlat_cons, List.nodup_append] at hflat2
    have sspec := @scanSlicer_spec cfg k fsIn es hkeys hdisj_k hflat2.1
    have hframeRepo : (scanSlicer cfg (fsIn, es) k).1.filter
        (fun e => !isUnder cfg.repoDir e.1) =
        fsIn.filter (fun e => !isUnder cfg.repoDir e.1) :=
      scanSlicer_frame isUnder_repoDir_dstRoot
    have hframeK : (scanSlicer cfg (fsIn, es) k).1.filter
        (fun e => !isUnder (cfg.dstRootOf k) e.1) =
        fsIn.filter (fun e => !isUnder (cfg.dstRootOf k) e.1) :=
      scanSlicer_frame isUnder_refl
    -- stability of every other slicer's enumeration
    have hpairs_stable : ∀ k2 ∈ rest, enumPairs cfg
        (scanSlicer cfg (fsIn, es) k).1 k2 = enumPairs cfg fsIn k2 :=
      fun k2 hm => enumPairsD_restrict (hdisj_rest k2 hm) hframeRepo
    have hexp_stable : ∀ k2 ∈ rest, expectedList cfg
        (scanSlicer cfg (fsIn, es) k).1 k2 = expectedList cfg fsIn k2 := by
      intro k2 hm
      unfold expectedList
      rw [hpairs_stable k2 hm]
    -- reads inside another slicer region are untouched by slicer k
    have hregion_stable : ∀ k2, k2 ≠ k → ∀ p,
        underDir (cfg.dstRootOf k2) p = true →
        lookupFile (scanSlicer cfg (fsIn, es) k).1 p = lookupFile fsIn p := by
      intro k2 hne p hp
      have hds := sspec.reads p
      have hf : findSrc (enumPairs cfg fsIn k) p = none := by
        rw [findSrc_none_iff]
        intro hm
        have h1 := mem_expected_under hm
        have h2 := dstRoot_region_disjoint (Ne.symm hne) (underDir_isUnder h1)
        rw [underDir_isUnder hp] at h2
        exact absurd h2 (by simp)
      rw [hf] at hds
      simp only at hds
      have hnd : p ∉ delDsts cfg fsIn k := by
        intro hc
        have h1 := mem_delDsts_under hc
        have h2 := dstRoot_region_disjoint (Ne.symm hne) (underDir_isUnder h1)
        rw [underDir_isUnder hp] at h2
        exact absurd h2 (by simp)
      rw [if_neg hnd] at hds
      exact hds
    -- reads of any source path are untouched by slicer k
    have hsrc_stable : ∀ p, isUnder cfg.repoDir p = false →
        lookupFile (scanSlicer cfg (fsIn, es) k).1 p = lookupFile fsIn p :=
      fun p hp => lookupFile_restrict hp hframeRepo
    have hdel_stable : ∀ k2 ∈ rest, delDsts cfg
        (scanSlicer cfg (fsIn, es) k).1 k2 = delDsts cfg fsIn k2 := by
      intro k2 hm
      unfold delDsts
      rw [hexp_stable k2 hm]
      have hglob : rglobJson (scanSlicer cfg (fsIn, es) k).1
          (cfg.dstRootOf k2) = rglobJson fsIn (cfg.dstRootOf k2) := by
        refine rglobJson_restrict (R := cfg.dstRootOf k) ?_ hframeK
        intro p hp
        have hne : k2 ≠ k := fun hc => hKnd2.1 (hc ▸ hm)
        exact dstRoot_region_disjoint hne (underDir_isUnder hp)
      rw [hglob]
    have hcopies_stable : ∀ k2 ∈ rest, pureCopies cfg
        (scanSlicer cfg (fsIn, es) k).1 k2 = pureCopies cfg fsIn k2 := by
      intro k2 hm
      unfold pureCopies
      rw [hpairs_stable k2 hm]
      apply filterMap_congr_mem
      intro sd hsd
      have hne : k2 ≠ k := fun hc => hKnd2.1 (hc ▸ hm)
      apply copyEntryOf_congr
      · exact hsrc_stable sd.1
          (enumPairsD_src_notR (hdisj_rest k2 hm) hsd)
      · exact hregion_stable k2 hne sd.2 (mem_enumPairsD_dst hsd).1
    have hdels_stable : ∀ k2 ∈ rest, pureDels cfg
        (scanSlicer cfg (fsIn, es) k).1 k2 = pureDels cfg fsIn k2 := by
      intro k2 hm
      unfold pureDels
      rw [hdel_stable k2 hm]
    have hflat_rest : (listFlat (fun k2 => expectedList cfg
        (scanSlicer cfg (fsIn, es) k).1 k2) rest).Nodup := by
      rw [listFlat_congr hexp_stable]
      exact hflat2.2.1
    have IH := ihK (scanSlicer cfg (fsIn, es) k).1
      (scanSlicer cfg (fsIn, es) k).2 sspec.keysNd hKnd2.2 hdisj_rest
      hflat_rest
    have hfold_eq : rest.foldl (scanSlicer cfg)
        ((scanSlicer cfg (fsIn, es) k).1, (scanSlicer cfg (fsIn, es) k).2) =
        rest.foldl (scanSlicer cfg) (scanSlicer cfg (fsIn, es) k) := by
      rfl
    rw [hfold_eq] at IH
    have hglobPairs_stable : globPairs cfg (scanSlicer cfg (fsIn, es) k).1
        rest = globPairs cfg fsIn rest := by
      unfold globPairs
      exact listFlat_congr hpairs_stable
    refine ⟨?_, ?_, IH.keysNd, ?_⟩
    · rw [IH.entriesEq, sspec.entriesEq,
        listFlat_congr (fun k2 hm => by
          rw [hcopies_stable k2 hm, hdels_stable k2 hm]),
        listFlat_cons, List.append_assoc]
    · intro p
      have hIHr := IH.reads p
      rw [hglobPairs_stable] at hIHr
      have hsr := sspec.reads p
      rw [globPairs_cons]
      cases hf1 : findSrc (enumPairs cfg fsIn k) p with
      | some s =>
        rw [findSrc_append_left hf1]
        rw [hf1] at hsr
        simp only at hsr ⊢
        have hpreg : underDir (cfg.dstRootOf k) p = true :=
          mem_expected_under
            (List.mem_map_of_mem Prod.snd (findSrc_some_mem hf1))
        have hf2 : findSrc (globPairs cfg fsIn rest) p = none := by
          rw [findSrc_none_iff]
          intro hm
          rcases mem_globPairs_dst hm with ⟨k2, hk2, hp2⟩
          have hne : k2 ≠ k := fun hc => hKnd2.1 (hc ▸ hk2)
          have := dstRoot_region_disjoint hne (underDir_isUnder hp2)
          rw [underDir_isUnder hpreg] at this
          exact absurd this (by simp)
        rw [hf2] at hIHr
        have hout_eq : lookupFile (rest.foldl (scanSlicer cfg)
            (scanSlicer cfg (fsIn, es) k)).1 p =
            lookupFile (scanSlicer cfg (fsIn, es) k).1 p := by
          apply hIHr.2
          intro k2 hk2 hc
          rw [hdel_stable k2 hk2] at hc
          have hne : k2 ≠ k := fun hceq => hKnd2.1 (hceq ▸ hk2)
          have h1 := mem_delDsts_under hc
          have h2 := dstRoot_region_disjoint hne (underDir_isUnder h1)
          rw [underDir_isUnder hpreg] at h2
          exact absurd h2 (by simp)
        rw [hout_eq]
        exact hsr
      | none =>
        rw [findSrc_append_right hf1]
        rw [hf1] at hsr
        simp only at hsr
        cases hf2 : findSrc (globPairs cfg fsIn rest) p with
        | some s2 =>
          rw [hf2] at hIHr
          simp only at hIHr ⊢
          have hmem : (s2, p) ∈ globPairs cfg fsIn rest :=
            findSrc_some_mem hf2
          rcases mem_listFlat.mp hmem with ⟨k2, hk2, hp2⟩
          rw [hsrc_stable s2
            (enumPairsD_src_notR (hdisj_rest k2 hk2) hp2)] at hIHr
          exact hIHr
        | none =>
          rw [hf2] at hIHr
          simp only at hIHr ⊢
          constructor
          · rintro ⟨k2, hk2, hdel⟩
            rcases List.mem_cons.mp hk2 with rfl | hk2m
            · rw [if_pos hdel] at hsr
              rw [hIHr.2 (fun k3 hk3 hc => by
                rw [hdel_stable k3 hk3] at hc
                have hne : k3 ≠ k2 := fun hceq => hKnd2.1 (hceq ▸ hk3)
                have h1 := mem_delDsts_under hc
                have h2 := dstRoot_region_disjoint hne (underDir_isUnder h1)
                rw [underDir_isUnder (mem_delDsts_under hdel)] at h2
                exact absurd h2 (by simp))]
              exact hsr
            · exact hIHr.1 ⟨k2, hk2m, by rw [hdel_stable k2 hk2m]; exact hdel⟩
          · intro hnone
            have h1 : lookupFile (rest.foldl (scanSlicer cfg)
                (scanSlicer cfg (fsIn, es) k)).1 p =
                lookupFile (scanSlicer cfg (fsIn, es) k).1 p := by
              apply hIHr.2
              intro k2 hk2 hc
              rw [hdel_stable k2 hk2] at hc
              exact hnone k2 (List.mem_cons_of_mem k hk2) hc
            rw [h1]
            rw [if_neg (hnone k (List.mem_cons_self k rest))] at hsr
            exact hsr
    · rw [IH.frameOut, hframeRepo]

/-- The full scan characterised as a parallel pass under the
well-formedness bundle. -/
theorem export_spec {cfg : Config} {fs : FS} (h : ScanHyp cfg fs) :
    GlobSpec cfg fs cfg.enabledSlicers []
      (export_from_slicers_to_repo cfg fs) := by
  have hflat : (listFlat (fun k => expectedList cfg fs k)
      cfg.enabledSlicers).Nodup := h.dstsNodup
  exact slicersFold_spec cfg cfg.enabledSlicers fs [] h.keysNodup
    h.enabledNodup h.srcDisjoint hflat

/-- The change-set of one scan equals the pure parallel scan. -/
theorem export_entries_eq_pureScan {cfg : Config} {fs : FS}
    (h : ScanHyp cfg fs) :
    (export_from_slicers_to_repo cfg fs).2 = pureScan cfg fs := by
  have := (export_spec h).entriesEq
  rw [this]
  rfl

/-! ### The state after a scan is in sync -/

theorem listFlat_const_nil {α β : Type} (l : List α) :
    listFlat (fun _ => ([] : List β)) l = [] := by
  induction l with
  | nil => rfl
  | cons a t ih => rw [listFlat_cons, List.nil_append, ih]

theorem globPairs_map_snd {cfg : Config} {fs : FS} :
    (globPairs cfg fs cfg.enabledSlicers).map Prod.snd = allDsts cfg fs := by
  rw [globPairs, map_listFlat]
  rfl

theorem export_pairs_stable {cfg : Config} {fs : FS} (h : ScanHyp cfg fs)
    {k : String} (hk : k ∈ cfg.enabledSlicers) :
    enumPairs cfg (export_from_slicers_to_repo cfg fs).1 k =
      enumPairs cfg fs k :=
  enumPairsD_restrict (h.srcDisjoint k hk) (export_spec h).frameOut

theorem export_expected_stable {cfg : Config} {fs : FS} (h : ScanHyp cfg fs)
    {k : String} (hk : k ∈ cfg.enabledSlicers) :
    expectedList cfg (export_from_slicers_to_repo cfg fs).1 k =
      expectedList cfg fs k := by
  unfold expectedList
  rw [export_pairs_stable h hk]

/-- The well-formedness bundle survives a scan: the scan only rewrites the
repository subtree, so keys stay unique and the enumeration is unchanged. -/
theorem scanHyp_preserved {cfg : Config} {fs : FS} (h : ScanHyp cfg fs) :
    ScanHyp cfg (export_from_slicers_to_repo cfg fs).1 := by
  refine ⟨(export_spec h).keysNd, h.enabledNodup, h.srcDisjoint, ?_⟩
  unfold allDsts
  rw [listFlat_congr (fun k hk => export_expected_stable h hk)]
  exact h.dstsNodup

theorem findSrc_glob_of_mem {cfg : Config} {fs : FS} (h : ScanHyp cfg fs)
    {k : String} (hk : k ∈ cfg.enabledSlicers) {sd : Path × Path}
    (hsd : sd ∈ enumPairs cfg fs k) :
    findSrc (globPairs cfg fs cfg.enabledSlicers) sd.2 = some sd.1 := by
  apply findSrc_of_nodup_mem
  · rw [globPairs_map_snd]
    exact h.dstsNodup
  · exact mem_listFlat.mpr ⟨k, hk, hsd⟩

/-- After one scan every enumerated destination already carries the content
of its source, so no copy entry is produced. -/
theorem pureCopies_after {cfg : Config} {fs : FS} (h : ScanHyp cfg fs)
    {k : String} (hk : k ∈ cfg.enabledSlicers) :
    pureCopies cfg (export_from_slicers_to_repo cfg fs).1 k = [] := by
  unfold pureCopies
  rw [export_pairs_stable h hk, List.filterMap_eq_nil_iff]
  intro sd hsd
  have hreads := (export_spec h).reads sd.2
  rw [findSrc_glob_of_mem h hk hsd] at hreads
  simp only at hreads
  have hsrcout : lookupFile (export_from_slicers_to_repo cfg fs).1 sd.1 =
      lookupFile fs sd.1 :=
    lookupFile_restrict (enumPairsD_src_notR (h.srcDisjoint k hk) hsd)
      (export_spec h).frameOut
  unfold copyEntryOf
  rw [hsrcout]
  rcases Option.isSome_iff_exists.mp hreads.2 with ⟨g, hg⟩
  rw [hg] at hreads ⊢
  have hc1 : contentOf (lookupFile fs sd.1) = some g.content := by
    rw [← hreads.1]
    rfl
  rw [hc1]
  simp [contentOf, copyDecide]

/-- After one scan every JSON file under a slicer subtree is expected, so no
stale deletion is produced. -/
theorem delDsts_after {cfg : Config} {fs : FS} (h : ScanHyp cfg fs)
    {k : String} (hk : k ∈ cfg.enabledSlicers) :
    delDsts cfg (export_from_slicers_to_repo cfg fs).1 k = [] := by
  unfold delDsts
  rw [List.filter_eq_nil_iff]
  intro p hp
  simp only [decide_eq_true_eq, not_not]
  rw [export_expected_stable h hk]
  by_contra hnot
  rcases mem_rglobJson.mp hp with ⟨hkeys2, hund, hjson⟩
  have hsome : (lookupFile (export_from_slicers_to_repo cfg fs).1 p).isSome =
      true := mem_rglobJson_isSome hp
  have hreads := (export_spec h).reads p
  cases hfind : findSrc (globPairs cfg fs cfg.enabledSlicers) p with
  | some s =>
    have hmem := findSrc_some_mem hfind
    rcases mem_listFlat.mp hmem with ⟨k2, hk2, hp2⟩
    by_cases heq : k2 = k
    · subst heq
      exact hnot (List.mem_map_of_mem Prod.snd hp2)
    · have h1 := mem_expected_under (List.mem_map_of_mem Prod.snd hp2)
      have h2 := dstRoot_region_disjoint heq (underDir_isUnder h1)
      rw [underDir_isUnder hund] at h2
      exact absurd h2 (by simp)
  | none =>
    rw [hfind] at hreads
    simp only at hreads
    by_cases hdel : ∃ k2 ∈ cfg.enabledSlicers, p ∈ delDsts cfg fs k2
    · have hnone := hreads.1 hdel
      rw [hnone] at hsome
      exact absurd hsome (by simp)
    · push_neg at hdel
      have heqlook := hreads.2 hdel
      rw [heqlook] at hsome
      have hpfs : p ∈ rglobJson fs (cfg.dstRootOf k) :=
        mem_rglobJson.mpr ⟨lookupFile_isSome_iff.mp hsome, hund, hjson⟩
      have hpd : p ∈ delDsts cfg fs k :=
        List.mem_filter.mpr ⟨hpfs, by simpa using hnot⟩
      exact hdel k hk hpd

theorem pureDels_after {cfg : Config} {fs : FS} (h : ScanHyp cfg fs)
    {k : String} (hk : k ∈ cfg.enabledSlicers) :
    pureDels cfg (export_from_slicers_to_repo cfg fs).1 k = [] := by
  unfold pureDels
  rw [delDsts_after h hk]
  rfl

/-- C4: mirror idempotence.  Under the well-formedness bundle (unique walk
keys, no slicer enabled twice, source dirs disjoint from the clone, and no
two sources mapping to one destination) a second scan with no intervening
filesystem change returns an empty change-set.  The claim quantifies over
every configuration; the unrestricted form is refuted by the destination
collision counterexample. -/
theorem C4_second_scan_empty {cfg : Config} {fs : FS} (h : ScanHyp cfg fs) :
    (export_from_slicers_to_repo cfg
      (export_from_slicers_to_repo cfg fs).1).2 = [] := by
  rw [export_entries_eq_pureScan (scanHyp_preserved h)]
  unfold pureScan
  have hseg : ∀ k ∈ cfg.enabledSlicers,
      pureCopies cfg (export_from_slicers_to_repo cfg fs).1 k ++
        pureDels cfg (export_from_slicers_to_repo cfg fs).1 k =
        ([] : List ChangeEntry) := by
    intro k hk
    rw [pureCopies_after h hk, pureDels_after h hk]
    rfl
  rw [listFlat_congr hseg, listFlat_const_nil]

/-- A configuration in which two configured source directories of one
slicer hold a file with the same relative path (and different contents):
both map to the same repository destination. -/
def cfgC : Config :=
  { repoDir := ["repo"], enabledSlicers := ["orcaslicer"],
    slicerProfileDirs := [("orcaslicer", [["d1"], ["d2"]])] }

def fsC : FS :=
  [(["d1", "a.json"], { content := 1, mtime := 0 }),
   (["d2", "a.json"], { content := 2, mtime := 0 })]

/-- C4 counterexample: with two configured directories holding the same
relative file name with different bytes, the scan is not idempotent — the
second run still reports a change (the first source differs again from the
destination the second source just overwrote). -/
theorem C4_collision_counterexample :
    (export_from_slicers_to_repo cfgC
      (export_from_slicers_to_repo cfgC fsC).1).2 ≠ [] := by
  decide

theorem C4_second_scan_empty_witness :
    ScanHyp exCfg exFS ∧
    (export_from_slicers_to_repo exCfg
      (export_from_slicers_to_repo exCfg exFS).1).2 = [] :=
  ⟨⟨by decide, by decide, by decide, by decide⟩,
   C4_second_scan_empty ⟨by decide, by decide, by decide, by decide⟩⟩

/-! ### Destination uniqueness of the change-set -/

theorem copyEntryOf_snd {fs : FS} {sd : Path × Path} {e : ChangeEntry}
    (h : copyEntryOf fs sd = some e) : e.2 = sd.2 := by
  unfold copyEntryOf copyDecide at h
  rcases h1 : contentOf (lookupFile fs sd.1) with _ | c
  · rw [h1] at h
    exact absurd h (by simp)
  · rcases h2 : contentOf (lookupFile fs sd.2) with _ | c2
    · rw [h1, h2] at h
      simp only at h
      rw [← Option.some.inj h]
    · rw [h1, h2] at h
      simp only at h
      by_cases hc : c = c2
      · rw [if_pos hc] at h
        exact absurd h (by simp)
      · rw [if_neg hc] at h
        rw [← Option.some.inj h]

theorem dsts_filterMap_sublist (fs : FS) (l : List (Path × Path)) :
    ((l.filterMap (copyEntryOf fs)).map Prod.snd).Sublist
      (l.map Prod.snd) := by
  induction l with
  | nil => exact List.Sublist.refl _
  | cons a t ih =>
    rw [List.map_cons]
    cases hc : copyEntryOf fs a with
    | none =>
      rw [List.filterMap_cons_none hc]
      exact ih.cons _
    | some e =>
      rw [List.filterMap_cons_some hc, List.map_cons, copyEntryOf_snd hc]
      exact ih.cons₂ _

theorem pureCopies_dsts_sublist {cfg : Config} {fs : FS} {k : String} :
    ((pureCopies cfg fs k).map Prod.snd).Sublist (expectedList cfg fs k) :=
  dsts_filterMap_sublist fs (enumPairs cfg fs k)

theorem pureDels_map_snd {cfg : Config} {fs : FS} {k : String} :
    (pureDels cfg fs k).map Prod.snd = delDsts cfg fs k := by
  unfold pureDels
  rw [List.map_map]
  exact List.map_id _

theorem mem_delDsts_not_expected {cfg : Config} {fs : FS} {k : String}
    {p : Path} (h : p ∈ delDsts cfg fs k) : p ∉ expectedList cfg fs k := by
  have := (List.mem_filter.mp h).2
  simpa using this

theorem seg_dst_under {cfg : Config} {fs : FS} {k : String} {x : Path}
    (hx : x ∈ (pureCopies cfg fs k ++ pureDels cfg fs k).map Prod.snd) :
    underDir (cfg.dstRootOf k) x = true := by
  rw [List.map_append] at hx
  rcases List.mem_append.mp hx with h1 | h2
  · exact mem_expected_under (pureCopies_dsts_sublist.subset h1)
  · rw [pureDels_map_snd] at h2
    exact mem_delDsts_under h2

theorem seg_dsts_nodup {cfg : Config} {fs : FS} {k : String}
    (hkeys : (fs.map Prod.fst).Nodup)
    (hexp : (expectedList cfg fs k).Nodup) :
    ((pureCopies cfg fs k ++ pureDels cfg fs k).map Prod.snd).Nodup := by
  rw [List.map_append]
  rw [List.nodup_append]
  refine ⟨pureCopies_dsts_sublist.nodup hexp, ?_, ?_⟩
  · rw [pureDels_map_snd]
    exact List.Nodup.filter _ (rglobJson_nodup hkeys)
  · intro x hx hy
    rw [pureDels_map_snd] at hy
    exact mem_delDsts_not_expected hy (pureCopies_dsts_sublist.subset hx)

theorem pureScan_dsts_nodup {cfg : Config} {fs : FS} (h : ScanHyp cfg fs) :
    ((pureScan cfg fs).map Prod.snd).Nodup := by
  unfold pureScan
  rw [map_listFlat]
  have hexp := h.dstsNodup
  unfold allDsts at hexp
  have hkeys := h.keysNodup
  have hnd := h.enabledNodup
  revert hexp hnd
  induction cfg.enabledSlicers with
  | nil =>
    intro _ _
    exact List.nodup_nil
  | cons k rest ih =>
    intro hexp hnd
    rw [listFlat_cons] at hexp ⊢
    rw [List.nodup_append] at hexp ⊢
    rw [List.nodup_cons] at hnd
    refine ⟨seg_dsts_nodup hkeys hexp.1, ih hexp.2.1 hnd.2, ?_⟩
    intro x hx hy
    rcases mem_listFlat.mp hy with ⟨k2, hk2, hy2⟩
    have hne : k ≠ k2 := fun hc => hnd.1 (hc ▸ hk2)
    have h2 := seg_dst_under hy2
    have h3 := dstRoot_region_disjoint hne (underDir_isUnder (seg_dst_under hx))
    rw [underDir_isUnder h2] at h3
    exact absurd h3 (by simp)

/-- C8: destination uniqueness of one scan's change-set.  Under the
well-formedness bundle — in particular its requirement that no two
enumerated sources map to one repository destination — any two entries of
the returned change-set with equal destination are the same entry.  The
claim's unrestricted form, which explicitly includes profile sets with two
configured directories holding the same relative path, is refuted by the
collision counterexample. -/
theorem C8_dst_unique {cfg : Config} {fs : FS} (h : ScanHyp cfg fs) :
    ∀ e1 ∈ (export_from_slicers_to_repo cfg fs).2,
      ∀ e2 ∈ (export_from_slicers_to_repo cfg fs).2,
        e1.2 = e2.2 → e1 = e2 := by
  rw [export_entries_eq_pureScan h]
  intro e1 h1 e2 h2 he
  exact List.inj_on_of_nodup_map (pureScan_dsts_nodup h) h1 h2 he

/-- C8 counterexample: with two configured source directories holding the
same relative file name with different bytes, one scan returns two distinct
entries with the same destination path. -/
theorem C8_collision_counterexample :
    ∃ e1 ∈ (export_from_slicers_to_repo cfgC fsC).2,
      ∃ e2 ∈ (export_from_slicers_to_repo cfgC fsC).2,
        e1.2 = e2.2 ∧ e1 ≠ e2 := by
  refine ⟨(some ["d1", "a.json"], ["repo", "profiles", "orcaslicer",
    "a.json"]), by decide, (some ["d2", "a.json"], ["repo", "profiles",
    "orcaslicer", "a.json"]), by decide, rfl, by decide⟩

theorem C8_dst_unique_witness :
    ((some (["slicer", "filament", "PLA.json"] : Path), exDst) :
      ChangeEntry) = (some ["slicer", "filament", "PLA.json"], exDst) :=
  @C8_dst_unique exCfg exFS ⟨by decide, by decide, by decide, by decide⟩
    _ (by decide) _ (by decide) rfl

/-! ### Nonexistent source directories empty the expected set -/

theorem dirPairs_of_absent {dstRoot : Path} {fs : FS} {d : Path}
    (h : pathOnDisk fs d = false) : dirPairs dstRoot fs d = [] := by
  unfold dirPairs
  rw [h]
  rfl

theorem enumPairs_of_absent {cfg : Config} {fs : FS} {k : String}
    (h : ∀ d ∈ cfg.dirsOf k, pathOnDisk fs d = false) :
    enumPairs cfg fs k = [] := by
  unfold enumPairs enumPairsD
  rw [listFlat_congr (fun d hd => dirPairs_of_absent (h d hd))]
  exact listFlat_const_nil _

/-- C10: an enabled profile set whose configured directory list is empty or
whose configured directories are all absent from disk enumerates no
(source, destination) pairs, so its expected set is empty: one scan emits a
null-source deletion entry for every JSON file under its repository subtree
and removes each such file from the tree. -/
theorem C10_empty_sources_delete_subtree {cfg : Config} {fs : FS}
    (h : ScanHyp cfg fs) {k : String} (hk : k ∈ cfg.enabledSlicers)
    (hdirs : ∀ d ∈ cfg.dirsOf k, pathOnDisk fs d = false) :
    ∀ p ∈ rglobJson fs (cfg.dstRootOf k),
      ((none : Option Path), p) ∈ (export_from_slicers_to_repo cfg fs).2 ∧
      lookupFile (export_from_slicers_to_repo cfg fs).1 p = none := by
  intro p hp
  have hpairs : enumPairs cfg fs k = [] := enumPairs_of_absent hdirs
  have hexp : expectedList cfg fs k = [] := by
    unfold expectedList
    rw [hpairs]
    rfl
  have hdel : delDsts cfg fs k = rglobJson fs (cfg.dstRootOf k) := by
    unfold delDsts
    apply List.filter_eq_self.mpr
    intro q _
    rw [hexp]
    simp
  have hund := (mem_rglobJson.mp hp).2.1
  constructor
  · rw [export_entries_eq_pureScan h]
    apply mem_listFlat.mpr
    refine ⟨k, hk, List.mem_append_right _ ?_⟩
    unfold pureDels
    rw [hdel]
    exact List.mem_map_of_mem _ hp
  · have hreads := (export_spec h).reads p
    have hfind : findSrc (globPairs cfg fs cfg.enabledSlicers) p = none := by
      rw [findSrc_none_iff]
      intro hm
      rw [globPairs, map_listFlat] at hm
      rcases mem_listFlat.mp hm with ⟨k3, hk3, hp3⟩
      by_cases heq : k3 = k
      · subst heq
        rw [hpairs] at hp3
        exact absurd hp3 (by simp)
      · rcases List.mem_map.mp hp3 with ⟨sd, hsd, hsnd⟩
        have h3 := dstRoot_region_disjoint heq
          (underDir_isUnder (mem_enumPairsD_dst hsd).1)
        rw [hsnd, underDir_isUnder hund] at h3
        exact absurd h3 (by simp)
    rw [hfind] at hreads
    simp only at hreads
    exact hreads.1 ⟨k, hk, hdel ▸ hp⟩

def cfgT : Config :=
  { repoDir := ["repo"], enabledSlicers := ["orcaslicer"],
    slicerProfileDirs := [("orcaslicer", [["gone"]])] }

def fsT : FS :=
  [(["repo", "profiles", "orcaslicer", "a.json"], { content := 5, mtime := 0 })]

theorem C10_empty_sources_delete_subtree_witness :
    ((none : Option Path), (["repo", "profiles", "orcaslicer", "a.json"] :
      Path)) ∈ (export_from_slicers_to_repo cfgT fsT).2 ∧
    lookupFile (export_from_slicers_to_repo cfgT fsT).1
      ["repo", "profiles", "orcaslicer", "a.json"] = none :=
  @C10_empty_sources_delete_subtree cfgT fsT
    ⟨by decide, by decide, by decide, by decide⟩ "orcaslicer" (by decide)
    (by decide) _ (by decide)

/-! ### Deletion propagation from a synced single-directory state -/

theorem rglobJson_of_not_onDisk {fs : FS} {d : Path}
    (h : pathOnDisk fs d = false) : rglobJson fs d = [] := by
  rw [rglobJson, List.filter_eq_nil_iff]
  intro q hq hc
  rw [Bool.and_eq_true] at hc
  rcases List.mem_map.mp hq with ⟨e, he, rfl⟩
  have hu : isUnder d e.1 = true := underDir_isUnder hc.1
  have h2 : pathOnDisk fs d = true := by
    unfold pathOnDisk
    exact List.any_eq_true.mpr ⟨e, he, hu⟩
  rw [h2] at h
  exact absurd h (by simp)

theorem dirPairs_eq_map {dstRoot : Path} {fs : FS} {d : Path} :
    dirPairs dstRoot fs d =
      (rglobJson fs d).map (fun s => (s, dstOf dstRoot d s)) := by
  unfold dirPairs
  by_cases h : pathOnDisk fs d
  · rw [if_pos h]
  · rw [if_neg h, rglobJson_of_not_onDisk (by simpa using h)]
    rfl

theorem rglobJson_removeFile {fs : FS} {p d : Path} :
    rglobJson (removeFile fs p) d =
      (rglobJson fs d).filter (fun q => !decide (q = p)) := by
  unfold rglobJson
  rw [keys_removeFile, List.filter_filter, List.filter_filter]
  apply List.filter_congr
  intro q _
  rw [Bool.and_comm]

theorem filter_eq_singleton {α : Type} {l : List α} {q : α → Bool} {a : α}
    (hnd : l.Nodup) (ha : a ∈ l)
    (hiff : ∀ x ∈ l, q x = true ↔ x = a) : l.filter q = [a] := by
  induction l with
  | nil => exact absurd ha (List.not_mem_nil a)
  | cons b t ih =>
    rw [List.nodup_cons] at hnd
    rcases List.mem_cons.mp ha with rfl | hat
    · rw [List.filter_cons, if_pos ((hiff a (List.mem_cons_self a t)).mpr rfl)]
      have ht : t.filter q = [] := by
        rw [List.filter_eq_nil_iff]
        intro x hx hqx
        exact hnd.1 (((hiff x (List.mem_cons_of_mem a hx)).mp hqx) ▸ hx)
      rw [ht]
    · have hqb : q b = true ↔ b = a := hiff b (List.mem_cons_self b t)
      have hba : b ≠ a := fun hc => hnd.1 (hc ▸ hat)
      rw [List.filter_cons, if_neg (fun hc => hba (hqb.mp hc))]
      exact ih hnd.2 hat (fun x hx => hiff x (List.mem_cons_of_mem b hx))

/-- C3: deletion propagation.  In a synced state (a previous scan reported
no change) of a configuration with one enabled profile set and one
configured source directory, removing one JSON source file and re-running
the scan produces exactly one null-source entry carrying that file's
repository destination, and the resulting tree is the input tree with
exactly that repository file removed — no other file is touched. -/
theorem C3_deletion_propagation {cfg : Config} {fs : FS} {k : String}
    {d p : Path} (h : ScanHyp cfg fs)
    (hk : cfg.enabledSlicers = [k])
    (hd : cfg.dirsOf k = [d])
    (hsync : pureScan cfg fs = [])
    (hp : p ∈ rglobJson fs d) :
    (export_from_slicers_to_repo cfg (removeFile fs p)).2 =
      [((none : Option Path), dstOf (cfg.dstRootOf k) d p)] ∧
    (export_from_slicers_to_repo cfg (removeFile fs p)).1 =
      removeFile (removeFile fs p) (dstOf (cfg.dstRootOf k) d p) := by
  have hdisj : disjointPaths d cfg.repoDir = true :=
    h.srcDisjoint k (by rw [hk]; exact List.mem_cons_self k []) d
      (by rw [hd]; exact List.mem_cons_self d [])
  have hpu : underDir d p = true := (mem_rglobJson.mp hp).2.1
  have hpkeys : p ∈ fs.map Prod.fst := (mem_rglobJson.mp hp).1
  have hpnotrepo : isUnder cfg.repoDir p = false :=
    disjointPaths_not_left hdisj (underDir_isUnder hpu)
  have henum_fs : enumPairs cfg fs k =
      (rglobJson fs d).map (fun s => (s, dstOf (cfg.dstRootOf k) d s)) := by
    unfold enumPairs enumPairsD
    rw [hd, listFlat_cons, listFlat_nil, List.append_nil, dirPairs_eq_map]
  have hpq : (p, dstOf (cfg.dstRootOf k) d p) ∈ enumPairs cfg fs k := by
    rw [henum_fs]
    exact List.mem_map_of_mem _ hp
  have hqu : underDir (cfg.dstRootOf k) (dstOf (cfg.dstRootOf k) d p) =
      true := dstOf_underDir hpu
  have hqj : isJsonPath (dstOf (cfg.dstRootOf k) d p) = true :=
    (mem_enumPairsD_dst hpq).2
  have hqrepo : isUnder cfg.repoDir (dstOf (cfg.dstRootOf k) d p) = true :=
    isUnder_trans isUnder_repoDir_dstRoot (underDir_isUnder hqu)
  have hqnep : dstOf (cfg.dstRootOf k) d p ≠ p := by
    intro hc
    rw [hc, hpnotrepo] at hqrepo
    exact absurd hqrepo (by simp)
  have hps : pureCopies cfg fs k ++ pureDels cfg fs k = [] := by
    have hx := hsync
    unfold pureScan at hx
    rw [hk, listFlat_cons, listFlat_nil, List.append_nil] at hx
    exact hx
  have hcop : pureCopies cfg fs k = [] := (List.append_eq_nil.mp hps).1
  have hdels : pureDels cfg fs k = [] := (List.append_eq_nil.mp hps).2
  have hdelfs : delDsts cfg fs k = [] := by
    unfold pureDels at hdels
    exact List.map_eq_nil_iff.mp hdels
  have hregion_exp : ∀ x ∈ rglobJson fs (cfg.dstRootOf k),
      x ∈ expectedList cfg fs k := by
    intro x hx
    by_contra hnx
    have hin : x ∈ delDsts cfg fs k :=
      List.mem_filter.mpr ⟨hx, by simpa using hnx⟩
    rw [hdelfs] at hin
    exact absurd hin (List.not_mem_nil x)
  have hexp_fs : expectedList cfg fs k =
      (rglobJson fs d).map (fun s => dstOf (cfg.dstRootOf k) d s) := by
    unfold expectedList
    rw [henum_fs, List.map_map]
    rfl
  have hcop_none : ∀ sd ∈ enumPairs cfg fs k, copyEntryOf fs sd = none := by
    have hx := hcop
    unfold pureCopies at hx
    exact List.filterMap_eq_nil_iff.mp hx
  rcases Option.isSome_iff_exists.mp (lookupFile_isSome_iff.mpr hpkeys)
    with ⟨f0, hf0⟩
  have hql : ∃ g, lookupFile fs (dstOf (cfg.dstRootOf k) d p) = some g := by
    have hno := hcop_none _ hpq
    unfold copyEntryOf at hno
    cases hlq : lookupFile fs (dstOf (cfg.dstRootOf k) d p) with
    | none =>
      rw [hf0, hlq] at hno
      simp [contentOf, copyDecide] at hno
    | some g => exact ⟨g, rfl⟩
  rcases hql with ⟨g, hg⟩
  have henum_fs2 : enumPairs cfg (removeFile fs p) k =
      ((rglobJson fs d).filter (fun q => !decide (q = p))).map
        (fun s => (s, dstOf (cfg.dstRootOf k) d s)) := by
    unfold enumPairs enumPairsD
    rw [hd, listFlat_cons, listFlat_nil, List.append_nil, dirPairs_eq_map,
      rglobJson_removeFile]
  have hexp_fs2 : expectedList cfg (removeFile fs p) k =
      ((rglobJson fs d).filter (fun q => !decide (q = p))).map
        (fun s => dstOf (cfg.dstRootOf k) d s) := by
    unfold expectedList
    rw [henum_fs2, List.map_map]
    rfl
  have hall1 : allDsts cfg fs = expectedList cfg fs k := by
    unfold allDsts
    rw [hk, listFlat_cons, listFlat_nil, List.append_nil]
  have hall2 : allDsts cfg (removeFile fs p) =
      expectedList cfg (removeFile fs p) k := by
    unfold allDsts
    rw [hk, listFlat_cons, listFlat_nil, List.append_nil]
  have hexpnodup : (expectedList cfg fs k).Nodup := hall1 ▸ h.dstsNodup
  have hScan2 : ScanHyp cfg (removeFile fs p) := by
    refine ⟨keysNodup_removeFile h.keysNodup, h.enabledNodup,
      h.srcDisjoint, ?_⟩
    rw [hall2]
    have hsub2 : (expectedList cfg (removeFile fs p) k).Sublist
        (expectedList cfg fs k) := by
      rw [hexp_fs2, hexp_fs]
      exact (List.filter_sublist _).map _
    exact hsub2.nodup hexpnodup
  have hqnot2 : dstOf (cfg.dstRootOf k) d p ∉
      expectedList cfg (removeFile fs p) k := by
    rw [hexp_fs2]
    intro hc
    rcases List.mem_map.mp hc with ⟨s, hs, hds⟩
    have hsf := List.mem_filter.mp hs
    have hsne : s ≠ p := by simpa using hsf.2
    have hsu : underDir d s = true := (mem_rglobJson.mp hsf.1).2.1
    exact hsne (dstOf_inj_on hsu hpu hds)
  have hrg2 : rglobJson (removeFile fs p) (cfg.dstRootOf k) =
      rglobJson fs (cfg.dstRootOf k) := by
    rw [rglobJson_removeFile]
    apply List.filter_eq_self.mpr
    intro x hx
    have hxu := (mem_rglobJson.mp hx).2.1
    have hxrepo : isUnder cfg.repoDir x = true :=
      isUnder_trans isUnder_repoDir_dstRoot (underDir_isUnder hxu)
    simp only [Bool.not_eq_true', decide_eq_false_iff_not]
    intro hc
    rw [hc, hpnotrepo] at hxrepo
    exact absurd hxrepo (by simp)
  have hqmem_region : dstOf (cfg.dstRootOf k) d p ∈
      rglobJson fs (cfg.dstRootOf k) := by
    apply mem_rglobJson.mpr
    refine ⟨?_, hqu, hqj⟩
    exact lookupFile_isSome_iff.mp (by rw [hg]; rfl)
  have hdel2 : delDsts cfg (removeFile fs p) k =
      [dstOf (cfg.dstRootOf k) d p] := by
    unfold delDsts
    rw [hrg2]
    apply filter_eq_singleton (rglobJson_nodup h.keysNodup) hqmem_region
    intro x hx
    constructor
    · intro hqx
      have hnx : x ∉ expectedList cfg (removeFile fs p) k := by
        simpa using hqx
      have hxe := hregion_exp x hx
      rw [hexp_fs] at hxe
      rcases List.mem_map.mp hxe with ⟨s, hs, hds⟩
      by_cases hsp : s = p
      · rw [← hds, hsp]
      · exfalso
        apply hnx
        rw [hexp_fs2]
        exact List.mem_map.mpr ⟨s, List.mem_filter.mpr
          ⟨hs, by simpa using hsp⟩, hds⟩
    · intro hxq
      subst hxq
      exact decide_eq_true hqnot2
  have hcop2 : pureCopies cfg (removeFile fs p) k = [] := by
    unfold pureCopies
    rw [List.filterMap_eq_nil_iff]
    intro sd hsd
    rw [henum_fs2] at hsd
    rcases List.mem_map.mp hsd with ⟨s, hs, rfl⟩
    have hsf := List.mem_filter.mp hs
    have hsne : s ≠ p := by simpa using hsf.2
    have hsu : underDir d s = true := (mem_rglobJson.mp hsf.1).2.1
    have hdsu : underDir (cfg.dstRootOf k) (dstOf (cfg.dstRootOf k) d s) =
        true := dstOf_underDir hsu
    have hdsrepo : isUnder cfg.repoDir (dstOf (cfg.dstRootOf k) d s) =
        true := isUnder_trans isUnder_repoDir_dstRoot (underDir_isUnder hdsu)
    have hdsne : dstOf (cfg.dstRootOf k) d s ≠ p := by
      intro hc
      rw [hc, hpnotrepo] at hdsrepo
      exact absurd hdsrepo (by simp)
    have heq2 : copyEntryOf (removeFile fs p)
        (s, dstOf (cfg.dstRootOf k) d s) =
        copyEntryOf fs (s, dstOf (cfg.dstRootOf k) d s) := by
      simp only [copyEntryOf]
      rw [lookupFile_removeFile_ne hsne, lookupFile_removeFile_ne hdsne]
    rw [heq2]
    exact hcop_none (s, dstOf (cfg.dstRootOf k) d s)
      (by rw [henum_fs]; exact List.mem_map_of_mem _ hsf.1)
  have hentries : (export_from_slicers_to_repo cfg (removeFile fs p)).2 =
      [((none : Option Path), dstOf (cfg.dstRootOf k) d p)] := by
    rw [export_entries_eq_pureScan hScan2]
    unfold pureScan
    rw [hk, listFlat_cons, listFlat_nil, List.append_nil, hcop2,
      List.nil_append]
    unfold pureDels
    rw [hdel2]
    rfl
  refine ⟨hentries, ?_⟩
  have hrepl := export_replay cfg (removeFile fs p)
  unfold ReplayInv at hrepl
  rw [hentries, List.foldl_cons, List.foldl_nil] at hrepl
  rw [hrepl]
  simp [applyFS, applySel, lookupFile_removeFile_ne hqnep, hg]

theorem C3_deletion_propagation_witness :
    (export_from_slicers_to_repo exCfg
      (removeFile (export_from_slicers_to_repo exCfg exFS).1
        ["slicer", "filament", "PLA.json"])).2 =
      [((none : Option Path), dstOf (exCfg.dstRootOf "orcaslicer")
        ["slicer"] ["slicer", "filament", "PLA.json"])] ∧
    (export_from_slicers_to_repo exCfg
      (removeFile (export_from_slicers_to_repo exCfg exFS).1
        ["slicer", "filament", "PLA.json"])).1 =
      removeFile (removeFile (export_from_slicers_to_repo exCfg exFS).1
        ["slicer", "filament", "PLA.json"])
        (dstOf (exCfg.dstRootOf "orcaslicer") ["slicer"]
          ["slicer", "filament", "PLA.json"]) :=
  @C3_deletion_propagation exCfg (export_from_slicers_to_repo exCfg exFS).1
    "orcaslicer" ["slicer"] ["slicer", "filament", "PLA.json"]
    ⟨by decide, by decide, by decide, by decide⟩ (by decide) (by decide)
    (by decide) (by decide)

/-! ### The subset-apply path: pointwise effect of a selected list -/

/-- The source field of the first selected entry writing/deleting `x`. -/
def findEnt : List ChangeEntry → Path → Option (Option Path)
  | [], _ => none
  | e :: t, x => if e.2 = x then some e.1 else findEnt t x

theorem findEnt_cons {e : ChangeEntry} {t : List ChangeEntry} {x : Path} :
    findEnt (e :: t) x = if e.2 = x then some e.1 else findEnt t x := rfl

theorem findEnt_none_iff {l : List ChangeEntry} {x : Path} :
    findEnt l x = none ↔ ∀ e ∈ l, e.2 ≠ x := by
  induction l with
  | nil => simp [findEnt]
  | cons e t ih =>
    rw [findEnt_cons]
    by_cases h : e.2 = x
    · simp [h]
    · simp [h, ih]

theorem findEnt_some_mem {l : List ChangeEntry} {x : Path} {o : Option Path}
    (h : findEnt l x = some o) : (o, x) ∈ l := by
  induction l with
  | nil => exact absurd h (by simp [findEnt])
  | cons e t ih =>
    rw [findEnt_cons] at h
    by_cases he : e.2 = x
    · rw [if_pos he] at h
      refine List.mem_cons.mpr (Or.inl ?_)
      rw [← Option.some.inj h, ← he]
    · rw [if_neg he] at h
      exact List.mem_cons_of_mem e (ih h)

theorem applyFS_lookup_other {t : FS} {e : ChangeEntry} {x : Path}
    (h : e.2 ≠ x) : lookupFile (applyFS t e) x = lookupFile t x := by
  rcases e with ⟨os, dst⟩
  have hdx : dst ≠ x := h
  cases os with
  | none =>
    cases hld : lookupFile t dst with
    | none => simp [applyFS, applySel, hld]
    | some g =>
      simp only [applyFS, applySel, hld, Option.isSome_some, if_true]
      exact lookupFile_removeFile_ne (fun hc => hdx hc.symm)
  | some s =>
    cases hls : lookupFile t s with
    | none => simp [applyFS, applySel, hls]
    | some f =>
      cases hld : lookupFile t dst with
      | none =>
        simp only [applyFS, applySel, hls, hld]
        exact lookupFile_writeFile_ne (fun hc => hdx hc.symm)
      | some g =>
        by_cases hsha : sha256_file f = sha256_file g
        · simp [applyFS, applySel, hls, hld, hsha]
        · simp only [applyFS, applySel, hls, hld, if_neg hsha]
          exact lookupFile_writeFile_ne (fun hc => hdx hc.symm)

theorem applyFS_keysNodup {t : FS} {e : ChangeEntry}
    (h : (t.map Prod.fst).Nodup) : ((applyFS t e).map Prod.fst).Nodup := by
  rcases e with ⟨os, dst⟩
  cases os with
  | none =>
    cases hld : lookupFile t dst with
    | none => simpa [applyFS, applySel, hld] using h
    | some g =>
      simp only [applyFS, applySel, hld, Option.isSome_some, if_true]
      exact keysNodup_removeFile h
  | some s =>
    cases hls : lookupFile t s with
    | none => simpa [applyFS, applySel, hls] using h
    | some f =>
      cases hld : lookupFile t dst with
      | none =>
        simp only [applyFS, applySel, hls, hld]
        exact keysNodup_writeFile h
      | some g =>
        by_cases hsha : sha256_file f = sha256_file g
        · simpa [applyFS, applySel, hls, hld, hsha] using h
        · simp only [applyFS, applySel, hls, hld, if_neg hsha]
          exact keysNodup_writeFile h

theorem applyFS_filterOut {rgn : Path → Bool} {t : FS} {e : ChangeEntry}
    (h : rgn e.2 = true) :
    (applyFS t e).filter (fun x => !rgn x.1) =
      t.filter (fun x => !rgn x.1) := by
  rcases e with ⟨os, dst⟩
  have hdr : rgn dst = true := h
  cases os with
  | none =>
    cases hld : lookupFile t dst with
    | none => simp [applyFS, applySel, hld]
    | some g =>
      simp only [applyFS, applySel, hld, Option.isSome_some, if_true]
      exact filterOut_removeFile hdr
  | some s =>
    cases hls : lookupFile t s with
    | none => simp [applyFS, applySel, hls]
    | some f =>
      cases hld : lookupFile t dst with
      | none =>
        simp only [applyFS, applySel, hls, hld]
        exact filterOut_writeFile hdr
      | some g =>
        by_cases hsha : sha256_file f = sha256_file g
        · simp [applyFS, applySel, hls, hld, hsha]
        · simp only [applyFS, applySel, hls, hld, if_neg hsha]
          exact filterOut_writeFile hdr

theorem filter_writeFile_out {π : Path → Bool} {l : FS} {p : Path} {f : File}
    (h : π p = false) :
    (writeFile l p f).filter (fun e => π e.1) =
      l.filter (fun e => π e.1) := by
  induction l with
  | nil =>
    rw [writeFile_nil]
    simp [List.filter, h]
  | cons e t ih =>
    rw [writeFile_cons]
    by_cases he : e.1 = p
    · rw [if_pos he, List.filter_cons, List.filter_cons]
      have h1 : π (p, f).1 = false := h
      have h2 : π e.1 = false := by rw [he]; exact h
      rw [h1, h2]
      simp
    · rw [if_neg he, List.filter_cons, List.filter_cons]
      by_cases hr : π e.1 <;> simp [hr, ih]

theorem filter_removeFile_comm {π : Path → Bool} {l : FS} {p : Path} :
    (removeFile l p).filter (fun e => π e.1) =
      (l.filter (fun e => π e.1)).filter
        (fun e => !decide (e.1 = p)) := by
  unfold removeFile
  rw [List.filter_filter, List.filter_filter]
  apply List.filter_congr
  intro e _
  rw [Bool.and_comm]

theorem filterMap_eq_filter {α β : Type} {f g : α → Option β} {p : β → Bool} :
    ∀ l : List α,
      (∀ a ∈ l, g a = (f a).bind
        (fun b => if p b then some b else none)) →
      l.filterMap g = (l.filterMap f).filter p := by
  intro l
  induction l with
  | nil => intro _; rfl
  | cons a t ih =>
    intro hall
    have ha := hall a (List.mem_cons_self a t)
    have ht := ih (fun x hx => hall x (List.mem_cons_of_mem a hx))
    cases hf : f a with
    | none =>
      rw [hf, Option.none_bind] at ha
      rw [List.filterMap_cons_none ha, List.filterMap_cons_none hf, ht]
    | some b =>
      rw [hf, Option.some_bind] at ha
      by_cases hp : p b = true
      · rw [if_pos hp] at ha
        rw [List.filterMap_cons_some ha, List.filterMap_cons_some hf,
          List.filter_cons, if_pos hp, ht]
      · rw [if_neg hp] at ha
        rw [List.filterMap_cons_none ha, List.filterMap_cons_some hf,
          List.filter_cons, if_neg hp, ht]

theorem map_filter_comm {α β : Type} (f : α → β) (p : α → Bool)
    (p2 : β → Bool) (h : ∀ a, p2 (f a) = p a) :
    ∀ l : List α, (l.filter p).map f = (l.map f).filter p2 := by
  intro l
  induction l with
  | nil => rfl
  | cons a t ih =>
    rw [List.filter_cons, List.map_cons, List.filter_cons, h a]
    by_cases hp : p a = true
    · rw [if_pos hp, if_pos hp, List.map_cons, ih]
    · rw [if_neg hp, if_neg hp, ih]

theorem listFlat_filter {α β : Type} (f : α → List β) (p : β → Bool)
    (l : List α) :
    listFlat (fun a => (f a).filter p) l = (listFlat f l).filter p := by
  induction l with
  | nil => rfl
  | cons a t ih => rw [listFlat_cons, listFlat_cons, List.filter_append, ih]

/-- The pointwise specification of applying a selected entry list through
the selected-apply path: each destination reads its selected source's
content (or disappears, for a null source), everything else is unchanged,
walk keys stay unique, any region containing all destinations frames the
rest of the tree, and any key region containing no copy destination shrinks
by exactly the selected deletions. -/
structure SelSpec (fs t0 : FS) (sel : List ChangeEntry) (tout : FS) :
    Prop where
  reads : ∀ x, match findEnt sel x with
    | some (some s) => contentOf (lookupFile tout x) =
        contentOf (lookupFile fs s) ∧ (lookupFile tout x).isSome = true
    | some none => lookupFile tout x = none
    | none => lookupFile tout x = lookupFile t0 x
  keysNd : (tout.map Prod.fst).Nodup
  frameOut : ∀ rgn : Path → Bool, (∀ e ∈ sel, rgn e.2 = true) →
    tout.filter (fun x => !rgn x.1) = t0.filter (fun x => !rgn x.1)
  staleEq : ∀ q : Path → Bool, (∀ s x, (some s, x) ∈ sel → q x = false) →
    tout.filter (fun e => q e.1) =
      (t0.filter (fun e => q e.1)).filter
        (fun e => !decide (((none : Option Path), e.1) ∈ sel))

theorem selFold_spec (fs : FS) (RB : Path → Bool) :
    ∀ (sel : List ChangeEntry) (t0 : FS),
      (∀ e ∈ sel, RB e.2 = true) →
      (∀ s x, (some s, x) ∈ sel → RB s = false ∧
        lookupFile t0 s = lookupFile fs s ∧
        (lookupFile fs s).isSome = true) →
      (sel.map Prod.snd).Nodup →
      (t0.map Prod.fst).Nodup →
      SelSpec fs t0 sel (sel.foldl applyFS t0) := by
  intro sel
  induction sel with
  | nil =>
    intro t0 _ _ _ hkeys
    refine ⟨fun x => rfl, hkeys, fun rgn _ => rfl, fun q _ => ?_⟩
    refine (List.filter_eq_self.mpr ?_).symm
    intro e _
    simp
  | cons e rest ih =>
    rcases e with ⟨os, dst⟩
    intro t0 hdst hsrc hnd hkeys
    rw [List.foldl_cons]
    have hdst_e : RB dst = true := hdst (os, dst) (List.mem_cons_self _ _)
    have hdst_rest : ∀ e2 ∈ rest, RB e2.2 = true :=
      fun e2 hm => hdst e2 (List.mem_cons_of_mem (os, dst) hm)
    rw [List.map_cons, List.nodup_cons] at hnd
    have hnd1 : dst ∉ rest.map Prod.snd := hnd.1
    have hstep_keys : ((applyFS t0 (os, dst)).map Prod.fst).Nodup :=
      applyFS_keysNodup hkeys
    have hsrc_rest : ∀ s x, (some s, x) ∈ rest → RB s = false ∧
        lookupFile (applyFS t0 (os, dst)) s = lookupFile fs s ∧
        (lookupFile fs s).isSome = true := by
      intro s x hm
      rcases hsrc s x (List.mem_cons_of_mem (os, dst) hm) with ⟨h1, h2, h3⟩
      refine ⟨h1, ?_, h3⟩
      have hne : ((os, dst) : ChangeEntry).2 ≠ s := by
        intro hc
        have hc2 : dst = s := hc
        rw [hc2, h1] at hdst_e
        exact absurd hdst_e (by simp)
      rw [applyFS_lookup_other hne, h2]
    have IH := ih (applyFS t0 (os, dst)) hdst_rest hsrc_rest hnd.2 hstep_keys
    have hstep_self : match os with
        | some s => contentOf (lookupFile (applyFS t0 (os, dst)) dst) =
            contentOf (lookupFile fs s) ∧
            (lookupFile (applyFS t0 (os, dst)) dst).isSome = true
        | none => lookupFile (applyFS t0 (os, dst)) dst = none := by
      cases os with
      | none =>
        cases hld : lookupFile t0 dst with
        | none => simp [applyFS, applySel, hld]
        | some g =>
          simp only [applyFS, applySel, hld, Option.isSome_some, if_true]
          exact lookupFile_removeFile_self
      | some s =>
        rcases hsrc s dst (List.mem_cons_self _ _) with ⟨h1, h2, h3⟩
        rcases Option.isSome_iff_exists.mp h3 with ⟨f, hf⟩
        have hts : lookupFile t0 s = some f := by rw [h2, hf]
        cases hld : lookupFile t0 dst with
        | none =>
          simp only [applyFS, applySel, hts, hld]
          rw [lookupFile_writeFile_self, hf]
          exact ⟨rfl, rfl⟩
        | some g =>
          by_cases hsha : sha256_file f = sha256_file g
          · simp only [applyFS, applySel, hts, hld, if_pos hsha]
            rw [hf]
            have hcg : g.content = f.content := by
              have h5 := hsha
              unfold sha256_file at h5
              exact h5.symm
            constructor
            · show some g.content = some f.content
              rw [hcg]
            · rfl
          · simp only [applyFS, applySel, hts, hld, if_neg hsha]
            rw [lookupFile_writeFile_self, hf]
            exact ⟨rfl, rfl⟩
    refine ⟨?_, IH.keysNd, ?_, ?_⟩
    · intro x
      rw [findEnt_cons]
      by_cases hex : ((os, dst) : ChangeEntry).2 = x
      · rw [if_pos hex]
        have hex2 : dst = x := hex
        subst hex2
        have hrest_none : findEnt rest dst = none := by
          rw [findEnt_none_iff]
          intro e2 hm hc
          exact hnd1 (hc ▸ List.mem_map_of_mem Prod.snd hm)
        have hIHx := IH.reads dst
        rw [hrest_none] at hIHx
        simp only at hIHx
        cases os with
        | some s =>
          simp only at hstep_self ⊢
          rw [hIHx]
          exact hstep_self
        | none =>
          simp only at hstep_self ⊢
          rw [hIHx]
          exact hstep_self
      · rw [if_neg hex]
        have hIHx := IH.reads x
        cases hfe : findEnt rest x with
        | some o =>
          rw [hfe] at hIHx
          cases o with
          | some s => exact hIHx
          | none => exact hIHx
        | none =>
          rw [hfe] at hIHx
          simp only at hIHx ⊢
          rw [hIHx]
          exact applyFS_lookup_other hex
    · intro rgn hr
      have h1 : (applyFS t0 (os, dst)).filter (fun x => !rgn x.1) =
          t0.filter (fun x => !rgn x.1) :=
        applyFS_filterOut (hr (os, dst) (List.mem_cons_self _ _))
      rw [IH.frameOut rgn
        (fun e2 hm => hr e2 (List.mem_cons_of_mem (os, dst) hm)), h1]
    · intro q hq
      have hq_rest : ∀ s x, (some s, x) ∈ rest → q x = false :=
        fun s x hm => hq s x (List.mem_cons_of_mem (os, dst) hm)
      have hIHs := IH.staleEq q hq_rest
      cases os with
      | some s =>
        have hqdst : q dst = false := hq s dst (List.mem_cons_self _ _)
        have hstep_filter : (applyFS t0 (some s, dst)).filter
            (fun e2 => q e2.1) = t0.filter (fun e2 => q e2.1) := by
          cases hls : lookupFile t0 s with
          | none => simp [applyFS, applySel, hls]
          | some f =>
            cases hld : lookupFile t0 dst with
            | none =>
              simp only [applyFS, applySel, hls, hld]
              exact filter_writeFile_out hqdst
            | some g =>
              by_cases hsha : sha256_file f = sha256_file g
              · simp [applyFS, applySel, hls, hld, hsha]
              · simp only [applyFS, applySel, hls, hld, if_neg hsha]
                exact filter_writeFile_out hqdst
        rw [hIHs, hstep_filter]
        apply List.filter_congr
        intro e2 _
        simp [List.mem_cons]
      | none =>
        cases hld : lookupFile t0 dst with
        | some g =>
          have hstep_filter : (applyFS t0 ((none : Option Path), dst)).filter
              (fun e2 => q e2.1) =
              (t0.filter (fun e2 => q e2.1)).filter
                (fun e2 => !decide (e2.1 = dst)) := by
            simp only [applyFS, applySel, hld, Option.isSome_some, if_true]
            exact filter_removeFile_comm
          rw [hIHs, hstep_filter, List.filter_filter]
          apply List.filter_congr
          intro e2 _
          simp [List.mem_cons, Prod.mk.injEq, Bool.and_comm]
        | none =>
          have hstep_id : applyFS t0 ((none : Option Path), dst) = t0 := by
            simp [applyFS, applySel, hld]
          rw [hIHs, hstep_id]
          apply List.filter_congr
          intro e2 hm
          have hne : e2.1 ≠ dst := by
            intro hc
            have hk2 : (lookupFile t0 dst).isSome = true :=
              lookupFile_isSome_iff.mpr
                (hc ▸ List.mem_map_of_mem Prod.fst
                  (List.mem_of_mem_filter hm))
            rw [hld] at hk2
            exact absurd hk2 (by simp)
          simp [List.mem_cons, Prod.mk.injEq, hne]

/-! ### Structure of the scan change-set and of the reset tree -/

theorem copyEntryOf_some {fs : FS} {sd : Path × Path} {e : ChangeEntry}
    (h : copyEntryOf fs sd = some e) :
    e = (some sd.1, sd.2) ∧ (lookupFile fs sd.1).isSome = true := by
  unfold copyEntryOf at h
  cases hls : lookupFile fs sd.1 with
  | none =>
    rw [hls] at h
    simp [contentOf, copyDecide] at h
  | some f =>
    rw [hls] at h
    refine ⟨?_, rfl⟩
    cases hld : lookupFile fs sd.2 with
    | none =>
      rw [hld] at h
      simp only [contentOf, Option.map_some', Option.map_none',
        copyDecide] at h
      exact (Option.some.inj h).symm
    | some g =>
      rw [hld] at h
      simp only [contentOf, Option.map_some', copyDecide] at h
      by_cases hc : f.content = g.content
      · rw [if_pos hc] at h
        exact absurd h (by simp)
      · rw [if_neg hc] at h
        exact (Option.some.inj h).symm

theorem mem_pureScan_cases {cfg : Config} {fs : FS} {e : ChangeEntry}
    (h : e ∈ pureScan cfg fs) :
    ∃ k ∈ cfg.enabledSlicers,
      (∃ sd ∈ enumPairs cfg fs k, copyEntryOf fs sd = some e) ∨
      (e.1 = none ∧ e.2 ∈ delDsts cfg fs k) := by
  rcases mem_listFlat.mp h with ⟨k, hk, hm⟩
  rcases List.mem_append.mp hm with h1 | h2
  · rcases List.mem_filterMap.mp h1 with ⟨sd, hsd, hce⟩
    exact ⟨k, hk, Or.inl ⟨sd, hsd, hce⟩⟩
  · rcases List.mem_map.mp h2 with ⟨x, hx, hxe⟩
    exact ⟨k, hk, Or.inr ⟨by rw [← hxe], by rw [← hxe]; exact hx⟩⟩

theorem pureScan_dst_repo {cfg : Config} {fs : FS} {e : ChangeEntry}
    (h : e ∈ pureScan cfg fs) : isUnder cfg.repoDir e.2 = true := by
  rcases mem_listFlat.mp h with ⟨k, _, hm⟩
  exact isUnder_trans isUnder_repoDir_dstRoot
    (underDir_isUnder (seg_dst_under (List.mem_map_of_mem Prod.snd hm)))

theorem pureScan_copy_src {cfg : Config} {fs : FS} (h : ScanHyp cfg fs)
    {s x : Path} (hm : ((some s, x) : ChangeEntry) ∈ pureScan cfg fs) :
    isUnder cfg.repoDir s = false ∧ (lookupFile fs s).isSome = true := by
  rcases mem_pureScan_cases hm with ⟨k, hk, hcase⟩
  rcases hcase with ⟨sd, hsd, hce⟩ | ⟨hn, _⟩
  · rcases copyEntryOf_some hce with ⟨he, hsome⟩
    have hs : s = sd.1 := Option.some.inj (congrArg Prod.fst he)
    rw [hs]
    exact ⟨enumPairsD_src_notR (h.srcDisjoint k hk) hsd, hsome⟩
  · exact absurd hn (by simp)

theorem findEnt_of_nodup_mem {l : List ChangeEntry} {e : ChangeEntry}
    (hn : (l.map Prod.snd).Nodup) (hm : e ∈ l) :
    findEnt l e.2 = some e.1 := by
  induction l with
  | nil => exact absurd hm (List.not_mem_nil e)
  | cons b t ih =>
    rw [List.map_cons, List.nodup_cons] at hn
    rw [findEnt_cons]
    rcases List.mem_cons.mp hm with rfl | hm2
    · rw [if_pos rfl]
    · have hne : b.2 ≠ e.2 :=
        fun hc => hn.1 (hc ▸ List.mem_map_of_mem Prod.snd hm2)
      rw [if_neg hne]
      exact ih hn.2 hm2

theorem globPairs_dst_inj {cfg : Config} {fs : FS} (h : ScanHyp cfg fs)
    {sd sd2 : Path × Path}
    (h1 : sd ∈ globPairs cfg fs cfg.enabledSlicers)
    (h2 : sd2 ∈ globPairs cfg fs cfg.enabledSlicers)
    (he : sd.2 = sd2.2) : sd = sd2 :=
  List.inj_on_of_nodup_map
    (by rw [globPairs_map_snd]; exact h.dstsNodup) h1 h2 he

/-- Any entry of the change-set whose destination is an enumerated
destination of slicer `k` is the copy entry of that very pair. -/
theorem entry_at_expected {cfg : Config} {fs : FS} (h : ScanHyp cfg fs)
    {k : String} (hk : k ∈ cfg.enabledSlicers) {sd : Path × Path}
    (hsd : sd ∈ enumPairs cfg fs k) {e2 : ChangeEntry}
    (he2 : e2 ∈ pureScan cfg fs) (hdst : e2.2 = sd.2) :
    copyEntryOf fs sd = some e2 := by
  rcases mem_pureScan_cases he2 with ⟨k2, hk2, hcase⟩
  rcases hcase with ⟨sd2, hsd2, hce2⟩ | ⟨hn, hdel⟩
  · have hsd2e : sd2.2 = sd.2 := by
      rw [← copyEntryOf_snd hce2, hdst]
    have heq : sd2 = sd :=
      globPairs_dst_inj h (mem_listFlat.mpr ⟨k2, hk2, hsd2⟩)
        (mem_listFlat.mpr ⟨k, hk, hsd⟩) hsd2e
    rw [← heq]
    exact hce2
  · exfalso
    have hexp : sd.2 ∈ expectedList cfg fs k :=
      List.mem_map_of_mem Prod.snd hsd
    by_cases heq : k2 = k
    · subst heq
      exact mem_delDsts_not_expected (hdst ▸ hdel) hexp
    · have hu2 := mem_delDsts_under hdel
      have h3 := dstRoot_region_disjoint heq (underDir_isUnder hu2)
      rw [hdst, underDir_isUnder (mem_expected_under hexp)] at h3
      exact absurd h3 (by simp)

theorem delDsts_as_entry_filter {cfg : Config} {t : FS} {k : String} :
    delDsts cfg t k = (t.filter (fun e =>
      decide (e.1 ∉ expectedList cfg t k) &&
      (underDir (cfg.dstRootOf k) e.1 && isJsonPath e.1))).map Prod.fst := by
  unfold delDsts rglobJson
  rw [List.filter_filter,
    map_fst_filter_key (fun p => decide (p ∉ expectedList cfg t k) &&
      (underDir (cfg.dstRootOf k) p && isJsonPath p)) t]

theorem reset_lookup {cfg : Config} {fs : FS} (h : ScanHyp cfg fs)
    (x : Path) :
    lookupFile (replaceSubtree cfg.repoDir (subtreeOf cfg.repoDir fs)
      (export_from_slicers_to_repo cfg fs).1) x = lookupFile fs x := by
  unfold replaceSubtree subtreeOf
  rw [(export_spec h).frameOut]
  exact lookupFile_partition (fun p => isUnder cfg.repoDir p) fs x

theorem reset_keys {cfg : Config} {fs : FS} (h : ScanHyp cfg fs) :
    ((replaceSubtree cfg.repoDir (subtreeOf cfg.repoDir fs)
      (export_from_slicers_to_repo cfg fs).1).map Prod.fst).Nodup := by
  unfold replaceSubtree subtreeOf
  rw [(export_spec h).frameOut, List.map_append,
    map_fst_filter_key (fun p => !isUnder cfg.repoDir p) fs,
    map_fst_filter_key (fun p => isUnder cfg.repoDir p) fs]
  refine List.Nodup.append (h.keysNodup.filter _) (h.keysNodup.filter _) ?_
  intro a ha hb
  rw [List.mem_filter] at ha hb
  have h1 := ha.2
  rw [hb.2] at h1
  exact absurd h1 (by simp)

theorem reset_filterOut {cfg : Config} {fs : FS} (h : ScanHyp cfg fs) :
    (replaceSubtree cfg.repoDir (subtreeOf cfg.repoDir fs)
      (export_from_slicers_to_repo cfg fs).1).filter
        (fun e => !isUnder cfg.repoDir e.1) =
      fs.filter (fun e => !isUnder cfg.repoDir e.1) := by
  unfold replaceSubtree subtreeOf
  rw [List.filter_append, (export_spec h).frameOut,
    filter_absorb (fun a ha => ha) fs]
  have h2 : (fs.filter (fun e => isUnder cfg.repoDir e.1)).filter
      (fun e => !isUnder cfg.repoDir e.1) = [] := by
    rw [List.filter_eq_nil_iff]
    intro x hx hc
    rw [(List.mem_filter.mp hx).2] at hc
    exact absurd hc (by simp)
  rw [h2, List.append_nil]

theorem reset_filter_in {cfg : Config} {fs : FS} (h : ScanHyp cfg fs)
    (q : Path → Bool)
    (hq : ∀ pth, q pth = true → isUnder cfg.repoDir pth = true) :
    (replaceSubtree cfg.repoDir (subtreeOf cfg.repoDir fs)
      (export_from_slicers_to_repo cfg fs).1).filter (fun e => q e.1) =
      fs.filter (fun e => q e.1) := by
  unfold replaceSubtree subtreeOf
  rw [List.filter_append, (export_spec h).frameOut]
  have h1 : (fs.filter (fun e => !isUnder cfg.repoDir e.1)).filter
      (fun e => q e.1) = [] := by
    rw [List.filter_eq_nil_iff]
    intro x hx hc
    have h2 := (List.mem_filter.mp hx).2
    rw [hq x.1 hc] at h2
    exact absurd h2 (by simp)
  rw [h1, List.nil_append]
  exact filter_absorb (fun a ha => hq a.1 ha) fs

/-- Re-scanning after resetting the clone and applying only a selected
duplicate-free part of the change-set leaves exactly the unselected
entries. -/
theorem rescan_after_subset {cfg : Config} {fs t0 : FS} (h : ScanHyp cfg fs)
    {sel : List ChangeEntry} (hsel : ∀ e ∈ sel, e ∈ pureScan cfg fs)
    (hselnd : (sel.map Prod.snd).Nodup)
    (hl0 : ∀ x, lookupFile t0 x = lookupFile fs x)
    (hk0 : (t0.map Prod.fst).Nodup)
    (hout0 : t0.filter (fun e => !isUnder cfg.repoDir e.1) =
      fs.filter (fun e => !isUnder cfg.repoDir e.1))
    (hin0 : ∀ q : Path → Bool,
      (∀ pth, q pth = true → isUnder cfg.repoDir pth = true) →
      t0.filter (fun e => q e.1) = fs.filter (fun e => q e.1)) :
    (export_from_slicers_to_repo cfg (sel.foldl applyFS t0)).2 =
      (pureScan cfg fs).filter (fun e => !decide (e ∈ sel)) := by
  have hdst : ∀ e ∈ sel, isUnder cfg.repoDir e.2 = true :=
    fun e he => pureScan_dst_repo (hsel e he)
  have hsrc : ∀ s x, ((some s, x) : ChangeEntry) ∈ sel →
      isUnder cfg.repoDir s = false ∧
      lookupFile t0 s = lookupFile fs s ∧
      (lookupFile fs s).isSome = true := by
    intro s x hm
    rcases pureScan_copy_src h (hsel _ hm) with ⟨h1, h2⟩
    exact ⟨h1, hl0 s, h2⟩
  have S := selFold_spec fs (fun p => isUnder cfg.repoDir p) sel t0
    hdst hsrc hselnd hk0
  have hframe : (sel.foldl applyFS t0).filter
      (fun e => !isUnder cfg.repoDir e.1) =
      fs.filter (fun e => !isUnder cfg.repoDir e.1) := by
    rw [S.frameOut (fun p => isUnder cfg.repoDir p) hdst]
    exact hout0
  have hpairs_st : ∀ k ∈ cfg.enabledSlicers,
      enumPairs cfg (sel.foldl applyFS t0) k = enumPairs cfg fs k :=
    fun k hk => enumPairsD_restrict (h.srcDisjoint k hk) hframe
  have hexp_st : ∀ k ∈ cfg.enabledSlicers,
      expectedList cfg (sel.foldl applyFS t0) k = expectedList cfg fs k := by
    intro k hk
    unfold expectedList
    rw [hpairs_st k hk]
  have hSH : ScanHyp cfg (sel.foldl applyFS t0) := by
    refine ⟨S.keysNd, h.enabledNodup, h.srcDisjoint, ?_⟩
    unfold allDsts
    rw [listFlat_congr hexp_st]
    exact h.dstsNodup
  have hcopk : ∀ k ∈ cfg.enabledSlicers,
      pureCopies cfg (sel.foldl applyFS t0) k =
        (pureCopies cfg fs k).filter (fun e => !decide (e ∈ sel)) := by
    intro k hk
    unfold pureCopies
    rw [hpairs_st k hk]
    apply filterMap_eq_filter
    intro sd hsd
    have hsrcstable : lookupFile (sel.foldl applyFS t0) sd.1 =
        lookupFile fs sd.1 :=
      lookupFile_restrict (enumPairsD_src_notR (h.srcDisjoint k hk) hsd)
        hframe
    cases hce : copyEntryOf fs sd with
    | none =>
      rw [Option.none_bind]
      have hfnone : findEnt sel sd.2 = none := by
        rw [findEnt_none_iff]
        intro e2 he2 hc
        have hE := entry_at_expected h hk hsd (hsel e2 he2) hc
        rw [hce] at hE
        exact absurd hE (by simp)
      have hr := S.reads sd.2
      rw [hfnone] at hr
      simp only at hr
      unfold copyEntryOf
      rw [hsrcstable, hr, hl0]
      exact hce
    | some e0 =>
      rw [Option.some_bind]
      rcases copyEntryOf_some hce with ⟨he0, hsome⟩
      by_cases hin : e0 ∈ sel
      · have hfind : findEnt sel e0.2 = some e0.1 :=
          findEnt_of_nodup_mem hselnd hin
        have h21 : e0.1 = some sd.1 := congrArg Prod.fst he0
        have h22 : e0.2 = sd.2 := congrArg Prod.snd he0
        rw [h22, h21] at hfind
        have hr := S.reads sd.2
        rw [hfind] at hr
        simp only at hr
        rw [if_neg (show ¬(!decide (e0 ∈ sel)) = true by simp [hin])]
        rcases Option.isSome_iff_exists.mp hr.2 with ⟨g, hg⟩
        rw [hg] at hr
        unfold copyEntryOf
        rw [hsrcstable, hg, ← hr.1]
        simp [contentOf, copyDecide]
      · have hfnone : findEnt sel sd.2 = none := by
          rw [findEnt_none_iff]
          intro e2 he2 hc
          have hE := entry_at_expected h hk hsd (hsel e2 he2) hc
          rw [hce] at hE
          exact hin ((Option.some.inj hE).symm ▸ he2)
        have hr := S.reads sd.2
        rw [hfnone] at hr
        simp only at hr
        rw [if_pos (show (!decide (e0 ∈ sel)) = true by simp [hin])]
        unfold copyEntryOf
        rw [hsrcstable, hr, hl0]
        exact hce
  have hdelk : ∀ k ∈ cfg.enabledSlicers,
      pureDels cfg (sel.foldl applyFS t0) k =
        (pureDels cfg fs k).filter (fun e => !decide (e ∈ sel)) := by
    intro k hk
    have hq_repo : ∀ pth, (decide (pth ∉ expectedList cfg fs k) &&
        (underDir (cfg.dstRootOf k) pth && isJsonPath pth)) = true →
        isUnder cfg.repoDir pth = true := by
      intro pth hpth
      rw [Bool.and_eq_true, Bool.and_eq_true] at hpth
      exact isUnder_trans isUnder_repoDir_dstRoot
        (underDir_isUnder hpth.2.1)
    have hq_copy : ∀ s x, ((some s, x) : ChangeEntry) ∈ sel →
        (decide (x ∉ expectedList cfg fs k) &&
          (underDir (cfg.dstRootOf k) x && isJsonPath x)) = false := by
      intro s x hm
      rcases mem_pureScan_cases (hsel _ hm) with ⟨k2, hk2, hcase⟩
      rcases hcase with ⟨sd2, hsd2, hce2⟩ | ⟨hn, _⟩
      · have hx2 : x = sd2.2 := by
          rcases copyEntryOf_some hce2 with ⟨he2, _⟩
          exact congrArg Prod.snd he2
        by_cases heq : k2 = k
        · subst heq
          have hexp : x ∈ expectedList cfg fs k2 :=
            hx2 ▸ List.mem_map_of_mem Prod.snd hsd2
          simp [hexp]
        · have hu : underDir (cfg.dstRootOf k2) x = true :=
            hx2 ▸ mem_expected_under (List.mem_map_of_mem Prod.snd hsd2)
          have h3 := dstRoot_region_disjoint heq (underDir_isUnder hu)
          have h4 : underDir (cfg.dstRootOf k) x = false := by
            by_contra hc
            rw [Bool.not_eq_false] at hc
            rw [underDir_isUnder hc] at h3
            exact absurd h3 (by simp)
          simp [h4]
      · exact absurd hn (by simp)
    have hstale := S.staleEq (fun pth =>
      decide (pth ∉ expectedList cfg fs k) &&
      (underDir (cfg.dstRootOf k) pth && isJsonPath pth)) hq_copy
    have hfsfilter := hin0 (fun pth =>
      decide (pth ∉ expectedList cfg fs k) &&
      (underDir (cfg.dstRootOf k) pth && isJsonPath pth)) hq_repo
    unfold pureDels
    have hd1 : delDsts cfg (sel.foldl applyFS t0) k =
        ((sel.foldl applyFS t0).filter (fun e =>
          decide (e.1 ∉ expectedList cfg fs k) &&
          (underDir (cfg.dstRootOf k) e.1 && isJsonPath e.1))).map
            Prod.fst := by
      rw [delDsts_as_entry_filter]
      simp only [hexp_st k hk]
    rw [hd1, hstale, hfsfilter,
      map_fst_filter_key (fun p =>
        !decide (((none : Option Path), p) ∈ sel)) _,
      ← delDsts_as_entry_filter]
    exact map_filter_comm (fun p => ((none : Option Path), p))
      (fun p => !decide (((none : Option Path), p) ∈ sel))
      (fun e => !decide (e ∈ sel)) (fun a => rfl) (delDsts cfg fs k)
  rw [export_entries_eq_pureScan hSH]
  unfold pureScan
  have hseg : ∀ k ∈ cfg.enabledSlicers,
      pureCopies cfg (sel.foldl applyFS t0) k ++
        pureDels cfg (sel.foldl applyFS t0) k =
      (pureCopies cfg fs k ++ pureDels cfg fs k).filter
        (fun e => !decide (e ∈ sel)) := by
    intro k hk
    rw [hcopk k hk, hdelk k hk, ← List.filter_append]
  rw [listFlat_congr hseg, listFlat_filter]

/-- C1: partial apply correctness.  Under the well-formedness bundle,
applying any duplicate-free selected part of the scan's change-set through
the subset path (reset the clone's worktree to the pre-scan HEAD snapshot,
then re-apply only the selected entries) and re-scanning the untouched
sources returns exactly the unselected entries.  The claim's unrestricted
form is refuted by the destination collision counterexample. -/
theorem C1_partial_apply {cfg : Config} {fs : FS} (h : ScanHyp cfg fs)
    {sel : List ChangeEntry}
    (hsub : sel.Sublist (export_from_slicers_to_repo cfg fs).2) :
    (export_from_slicers_to_repo cfg
      (subset_push_apply cfg (subtreeOf cfg.repoDir fs) fs sel)).2 =
      (export_from_slicers_to_repo cfg fs).2.filter
        (fun e => !decide (e ∈ sel)) := by
  rw [export_entries_eq_pureScan h] at hsub
  rw [export_entries_eq_pureScan h]
  have hsel : ∀ e ∈ sel, e ∈ pureScan cfg fs := fun e he => hsub.subset he
  have hselnd : (sel.map Prod.snd).Nodup :=
    (hsub.map Prod.snd).nodup (pureScan_dsts_nodup h)
  have happl : subset_push_apply cfg (subtreeOf cfg.repoDir fs) fs sel =
      sel.foldl applyFS (replaceSubtree cfg.repoDir
        (subtreeOf cfg.repoDir fs)
        (export_from_slicers_to_repo cfg fs).1) := by
    show (export_selected_to_repo cfg (replaceSubtree cfg.repoDir
      (subtreeOf cfg.repoDir fs) (export_from_slicers_to_repo cfg fs).1)
      sel).1 = _
    rw [export_selected_fst]
  rw [happl]
  exact rescan_after_subset h hsel hselnd (reset_lookup h) (reset_keys h)
    (reset_filterOut h) (fun q hq => reset_filter_in h q hq)

/-- C1 counterexample: on the destination collision configuration,
selecting only the second of the two same-destination entries and
re-applying it through the subset path makes the re-scan report both
entries again instead of the single unselected one. -/
theorem C1_collision_counterexample :
    ([(((some ["d2", "a.json"] : Option Path), ["repo", "profiles",
      "orcaslicer", "a.json"]) : ChangeEntry)]).Sublist
      (export_from_slicers_to_repo cfgC fsC).2 ∧
    (export_from_slicers_to_repo cfgC
      (subset_push_apply cfgC (subtreeOf cfgC.repoDir fsC) fsC
        [(some ["d2", "a.json"], ["repo", "profiles", "orcaslicer",
          "a.json"])])).2 ≠
      (export_from_slicers_to_repo cfgC fsC).2.filter
        (fun e => !decide (e ∈ [(((some ["d2", "a.json"] : Option Path),
          ["repo", "profiles", "orcaslicer", "a.json"]) : ChangeEntry)])) := by
  constructor
  · decide
  · decide

theorem C1_partial_apply_witness :
    (export_from_slicers_to_repo exCfg
      (subset_push_apply exCfg (subtreeOf exCfg.repoDir exFS) exFS
        [(some ["slicer", "filament", "PLA.json"], exDst)])).2 =
      (export_from_slicers_to_repo exCfg exFS).2.filter
        (fun e => !decide (e ∈
          [(((some ["slicer", "filament", "PLA.json"] : Option Path),
            exDst) : ChangeEntry)])) :=
  @C1_partial_apply exCfg exFS
    ⟨by decide, by decide, by decide, by decide⟩
    [(some ["slicer", "filament", "PLA.json"], exDst)] (by decide)

/-! ### Content bisimulation: mtime never enters any decision -/

/-- Two trees with the same walk order and the same bytes everywhere (their
modification times may differ). -/
def fsSim (a b : FS) : Prop :=
  a.map Prod.fst = b.map Prod.fst ∧
  ∀ p, contentOf (lookupFile a p) = contentOf (lookupFile b p)

theorem touchFile_cons {e : Path × File} {l : FS} {p : Path} {t : Nat} :
    touchFile (e :: l) p t =
      (if e.1 = p then (e.1, { e.2 with mtime := t }) else e) ::
        touchFile l p t := rfl

theorem touchFile_keys {fs : FS} {p : Path} {t : Nat} :
    (touchFile fs p t).map Prod.fst = fs.map Prod.fst := by
  induction fs with
  | nil => rfl
  | cons e l ih =>
    rw [touchFile_cons, List.map_cons, List.map_cons, ih]
    by_cases h : e.1 = p
    · rw [if_pos h]
    · rw [if_neg h]

theorem contentOf_lookupFile_touchFile {fs : FS} {p q : Path} {t : Nat} :
    contentOf (lookupFile (touchFile fs p t) q) =
      contentOf (lookupFile fs q) := by
  induction fs with
  | nil => rfl
  | cons e l ih =>
    rw [touchFile_cons, lookupFile_cons, lookupFile_cons]
    by_cases h : e.1 = p
    · rw [if_pos h]
      by_cases h2 : e.1 = q
      · rw [if_pos h2, if_pos h2]
        rfl
      · rw [if_neg h2, if_neg h2]
        exact ih
    · rw [if_neg h]
      by_cases h2 : e.1 = q
      · rw [if_pos h2, if_pos h2]
      · rw [if_neg h2, if_neg h2]
        exact ih

theorem fsSim_touchFile {fs : FS} {p : Path} {t : Nat} :
    fsSim (touchFile fs p t) fs :=
  ⟨touchFile_keys, fun _ => contentOf_lookupFile_touchFile⟩

theorem fsSim_lookup_none {a b : FS} (h : fsSim a b) {q : Path}
    (ha : lookupFile a q = none) : lookupFile b q = none := by
  have hc := h.2 q
  rw [ha] at hc
  cases hb : lookupFile b q with
  | none => rfl
  | some g =>
    rw [hb] at hc
    exact absurd hc (by simp [contentOf])

theorem fsSim_lookup_some {a b : FS} (h : fsSim a b) {q : Path} {f : File}
    (ha : lookupFile a q = some f) :
    ∃ g, lookupFile b q = some g ∧ g.content = f.content := by
  have hc := h.2 q
  rw [ha] at hc
  cases hb : lookupFile b q with
  | none =>
    rw [hb] at hc
    exact absurd hc (by simp [contentOf])
  | some g =>
    rw [hb] at hc
    refine ⟨g, rfl, ?_⟩
    have h2 : some f.content = some g.content := hc
    exact (Option.some.inj h2).symm

theorem fsSim_writeFile {a b : FS} {q : Path} {f g : File}
    (h : fsSim a b) (hc : f.content = g.content) :
    fsSim (writeFile a q f) (writeFile b q g) := by
  constructor
  · by_cases hm : q ∈ a.map Prod.fst
    · rw [keys_writeFile_mem hm, keys_writeFile_mem (h.1 ▸ hm), h.1]
    · rw [keys_writeFile_not_mem hm,
        keys_writeFile_not_mem (fun hc2 => hm (h.1.symm ▸ hc2)), h.1]
  · intro x
    by_cases hx : x = q
    · subst hx
      rw [lookupFile_writeFile_self, lookupFile_writeFile_self]
      show some f.content = some g.content
      rw [hc]
    · rw [lookupFile_writeFile_ne hx, lookupFile_writeFile_ne hx]
      exact h.2 x

theorem fsSim_removeFile {a b : FS} {q : Path} (h : fsSim a b) :
    fsSim (removeFile a q) (removeFile b q) := by
  constructor
  · rw [keys_removeFile, keys_removeFile, h.1]
  · intro x
    by_cases hx : x = q
    · subst hx
      rw [lookupFile_removeFile_self, lookupFile_removeFile_self]
    · rw [lookupFile_removeFile_ne hx, lookupFile_removeFile_ne hx]
      exact h.2 x

theorem any_fst {l : FS} {f : Path → Bool} :
    l.any (fun e => f e.1) = (l.map Prod.fst).any f := by
  induction l with
  | nil => rfl
  | cons e t ih => simp [List.any_cons, ih]

theorem fsSim_pathOnDisk {a b : FS} (h : fsSim a b) (d : Path) :
    pathOnDisk a d = pathOnDisk b d := by
  unfold pathOnDisk
  rw [any_fst, any_fst, h.1]

theorem fsSim_rglobJson {a b : FS} (h : fsSim a b) (d : Path) :
    rglobJson a d = rglobJson b d := by
  unfold rglobJson
  rw [h.1]

/-- Relation carried through the scan state. -/
def stSim (s1 s2 : ScanSt) : Prop :=
  fsSim s1.fs s2.fs ∧ s1.expected = s2.expected ∧ s1.entries = s2.entries

theorem scanFile_sim {dstRoot d : Path} {s1 s2 : ScanSt} (h : stSim s1 s2)
    (src : Path) :
    stSim (scanFile dstRoot d s1 src) (scanFile dstRoot d s2 src) := by
  simp only [scanFile]
  cases h1 : lookupFile s1.fs src with
  | none =>
    rw [fsSim_lookup_none h.1 h1]
    exact ⟨h.1, by rw [h.2.1], h.2.2⟩
  | some f =>
    rcases fsSim_lookup_some h.1 h1 with ⟨f2, h2, hcf⟩
    rw [h2]
    cases h3 : lookupFile s1.fs (dstOf dstRoot d src) with
    | none =>
      rw [fsSim_lookup_none h.1 h3]
      exact ⟨fsSim_writeFile h.1 hcf.symm, by rw [h.2.1], by rw [h.2.2]⟩
    | some g =>
      rcases fsSim_lookup_some h.1 h3 with ⟨g2, h4, hcg⟩
      rw [h4]
      dsimp only
      have hsha : (sha256_file f = sha256_file g) =
          (sha256_file f2 = sha256_file g2) := by
        unfold sha256_file
        rw [hcf, hcg]
      by_cases h5 : sha256_file f = sha256_file g
      · rw [if_pos h5, if_pos (hsha ▸ h5)]
        exact ⟨h.1, by rw [h.2.1], h.2.2⟩
      · rw [if_neg h5, if_neg (hsha ▸ h5)]
        exact ⟨fsSim_writeFile h.1 hcf.symm, by rw [h.2.1], by rw [h.2.2]⟩

theorem foldl_scanFile_sim {dstRoot d : Path} :
    ∀ (l : List Path) {s1 s2 : ScanSt}, stSim s1 s2 →
      stSim (l.foldl (scanFile dstRoot d) s1)
        (l.foldl (scanFile dstRoot d) s2) := by
  intro l
  induction l with
  | nil => intro s1 s2 h; exact h
  | cons a t ih =>
    intro s1 s2 h
    rw [List.foldl_cons, List.foldl_cons]
    exact ih (scanFile_sim h a)

theorem scanDir_sim {dstRoot : Path} {s1 s2 : ScanSt} (h : stSim s1 s2)
    (d : Path) : stSim (scanDir dstRoot s1 d) (scanDir dstRoot s2 d) := by
  unfold scanDir
  rw [fsSim_pathOnDisk h.1 d]
  by_cases hp : pathOnDisk s2.fs d
  · rw [if_pos hp, if_pos hp, fsSim_rglobJson h.1 d]
    exact foldl_scanFile_sim _ h
  · rw [if_neg hp, if_neg hp]
    exact h

theorem foldl_scanDir_sim {dstRoot : Path} :
    ∀ (l : List Path) {s1 s2 : ScanSt}, stSim s1 s2 →
      stSim (l.foldl (scanDir dstRoot) s1) (l.foldl (scanDir dstRoot) s2) := by
  intro l
  induction l with
  | nil => intro s1 s2 h; exact h
  | cons a t ih =>
    intro s1 s2 h
    rw [List.foldl_cons, List.foldl_cons]
    exact ih (scanDir_sim h a)

/-- Relation carried through the tree/entries pairs. -/
def pSim (x y : FS × List ChangeEntry) : Prop :=
  fsSim x.1 y.1 ∧ x.2 = y.2

theorem deleteStale_sim {expected : List Path}
    {x y : FS × List ChangeEntry} (h : pSim x y) (p : Path) :
    pSim (deleteStale expected x p) (deleteStale expected y p) := by
  unfold deleteStale
  by_cases hm : p ∈ expected
  · rw [if_pos hm, if_pos hm]
    exact h
  · rw [if_neg hm, if_neg hm]
    exact ⟨fsSim_removeFile h.1, by rw [h.2]⟩

theorem foldl_deleteStale_sim {expected : List Path} :
    ∀ (l : List Path) {x y : FS × List ChangeEntry}, pSim x y →
      pSim (l.foldl (deleteStale expected) x)
        (l.foldl (deleteStale expected) y) := by
  intro l
  induction l with
  | nil => intro x y h; exact h
  | cons a t ih =>
    intro x y h
    rw [List.foldl_cons, List.foldl_cons]
    exact ih (deleteStale_sim h a)

theorem scanSlicer_sim {cfg : Config} {x y : FS × List ChangeEntry}
    (h : pSim x y) (k : String) :
    pSim (scanSlicer cfg x k) (scanSlicer cfg y k) := by
  simp only [scanSlicer]
  have h1 : stSim { fs := x.1, expected := [], entries := x.2 }
      { fs := y.1, expected := [], entries := y.2 } := ⟨h.1, rfl, h.2⟩
  have h2 := @foldl_scanDir_sim (cfg.dstRootOf k) (cfg.dirsOf k)
    { fs := x.1, expected := [], entries := x.2 }
    { fs := y.1, expected := [], entries := y.2 } h1
  rw [fsSim_rglobJson h2.1 (cfg.dstRootOf k), h2.2.1]
  exact foldl_deleteStale_sim _ ⟨h2.1, h2.2.2⟩

theorem foldl_scanSlicer_sim {cfg : Config} :
    ∀ (K : List String) {x y : FS × List ChangeEntry}, pSim x y →
      pSim (K.foldl (scanSlicer cfg) x) (K.foldl (scanSlicer cfg) y) := by
  intro K
  induction K with
  | nil => intro x y h; exact h
  | cons a t ih =>
    intro x y h
    rw [List.foldl_cons, List.foldl_cons]
    exact ih (scanSlicer_sim h a)

theorem export_sim {cfg : Config} {a b : FS} (h : fsSim a b) :
    (export_from_slicers_to_repo cfg a).2 =
      (export_from_slicers_to_repo cfg b).2 := by
  unfold export_from_slicers_to_repo
  have hp : pSim (a, ([] : List ChangeEntry)) (b, []) := ⟨h, rfl⟩
  exact (foldl_scanSlicer_sim cfg.enabledSlicers hp).2

theorem importFile_sim {srcRoot dstBase : Path}
    {x y : FS × List ChangeEntry} (h : pSim x y) (src : Path) :
    pSim (importFile srcRoot dstBase x src)
      (importFile srcRoot dstBase y src) := by
  simp only [importFile]
  cases h1 : lookupFile x.1 src with
  | none =>
    rw [fsSim_lookup_none h.1 h1]
    exact h
  | some f =>
    rcases fsSim_lookup_some h.1 h1 with ⟨f2, h2, hcf⟩
    rw [h2]
    cases h3 : lookupFile x.1 (dstBase ++ src.drop srcRoot.length) with
    | none =>
      rw [fsSim_lookup_none h.1 h3]
      exact ⟨fsSim_writeFile h.1 hcf.symm, by rw [h.2]⟩
    | some g =>
      rcases fsSim_lookup_some h.1 h3 with ⟨g2, h4, hcg⟩
      rw [h4]
      dsimp only
      have hsha : (sha256_file f = sha256_file g) =
          (sha256_file f2 = sha256_file g2) := by
        unfold sha256_file
        rw [hcf, hcg]
      by_cases h5 : sha256_file f = sha256_file g
      · rw [if_pos h5, if_pos (hsha ▸ h5)]
        exact h
      · rw [if_neg h5, if_neg (hsha ▸ h5)]
        exact ⟨fsSim_writeFile h.1 hcf.symm, by rw [h.2]⟩

theorem foldl_importFile_sim {srcRoot dstBase : Path} :
    ∀ (l : List Path) {x y : FS × List ChangeEntry}, pSim x y →
      pSim (l.foldl (importFile srcRoot dstBase) x)
        (l.foldl (importFile srcRoot dstBase) y) := by
  intro l
  induction l with
  | nil => intro x y h; exact h
  | cons a t ih =>
    intro x y h
    rw [List.foldl_cons, List.foldl_cons]
    exact ih (importFile_sim h a)

theorem importSlicer_sim {cfg : Config} {x y : FS × List ChangeEntry}
    (h : pSim x y) (k : String) :
    pSim (importSlicer cfg x k) (importSlicer cfg y k) := by
  simp only [importSlicer]
  rw [fsSim_pathOnDisk h.1 (cfg.dstRootOf k)]
  by_cases hp : pathOnDisk y.1 (cfg.dstRootOf k)
  · rw [if_pos hp, if_pos hp]
    cases hd : cfg.dirsOf k with
    | nil => exact h
    | cons dstBase rest =>
      rw [fsSim_rglobJson h.1 (cfg.dstRootOf k)]
      exact foldl_importFile_sim _ h
  · rw [if_neg hp, if_neg hp]
    exact h

theorem foldl_importSlicer_sim {cfg : Config} :
    ∀ (K : List String) {x y : FS × List ChangeEntry}, pSim x y →
      pSim (K.foldl (importSlicer cfg) x) (K.foldl (importSlicer cfg) y) := by
  intro K
  induction K with
  | nil => intro x y h; exact h
  | cons a t ih =>
    intro x y h
    rw [List.foldl_cons, List.foldl_cons]
    exact ih (importSlicer_sim h a)

theorem import_sim {cfg : Config} {a b : FS} (h : fsSim a b) :
    (import_from_repo_to_slicers cfg a).2 =
      (import_from_repo_to_slicers cfg b).2 := by
  unfold import_from_repo_to_slicers
  have hp : pSim (a, ([] : List ChangeEntry)) (b, []) := ⟨h, rfl⟩
  exact (foldl_importSlicer_sim cfg.enabledSlicers hp).2

theorem applySel_sim {x y : FS × List ChangeEntry} (h : pSim x y)
    (e : ChangeEntry) : pSim (applySel x e) (applySel y e) := by
  rcases e with ⟨os, dst⟩
  cases os with
  | none =>
    cases h1 : lookupFile x.1 dst with
    | none =>
      have h2 := fsSim_lookup_none h.1 h1
      simp only [applySel, h1, h2, Option.isSome_none]
      simp only [Bool.false_eq_true, if_false]
      exact h
    | some g =>
      rcases fsSim_lookup_some h.1 h1 with ⟨g2, h2, _⟩
      simp only [applySel, h1, h2, Option.isSome_some, if_true]
      exact ⟨fsSim_removeFile h.1, by rw [h.2]⟩
  | some s =>
    cases h1 : lookupFile x.1 s with
    | none =>
      rw [show applySel x (some s, dst) = x from by
        simp only [applySel, h1]]
      rw [show applySel y (some s, dst) = y from by
        simp only [applySel, fsSim_lookup_none h.1 h1]]
      exact h
    | some f =>
      rcases fsSim_lookup_some h.1 h1 with ⟨f2, h2, hcf⟩
      cases h3 : lookupFile x.1 dst with
      | none =>
        have h4 := fsSim_lookup_none h.1 h3
        simp only [applySel, h1, h2, h3, h4]
        exact ⟨fsSim_writeFile h.1 hcf.symm, by rw [h.2]⟩
      | some g =>
        rcases fsSim_lookup_some h.1 h3 with ⟨g2, h4, hcg⟩
        simp only [applySel, h1, h2, h3, h4]
        have hsha : (sha256_file f = sha256_file g) =
            (sha256_file f2 = sha256_file g2) := by
          unfold sha256_file
          rw [hcf, hcg]
        by_cases h5 : sha256_file f = sha256_file g
        · rw [if_pos h5, if_pos (hsha ▸ h5)]
          exact h
        · rw [if_neg h5, if_neg (hsha ▸ h5)]
          exact ⟨fsSim_writeFile h.1 hcf.symm, by rw [h.2]⟩

theorem exportSelected_sim {cfg : Config} {a b : FS} (h : fsSim a b)
    (sel : List ChangeEntry) :
    (export_selected_to_repo cfg a sel).2 =
      (export_selected_to_repo cfg b sel).2 := by
  unfold export_selected_to_repo
  have hp : pSim (a, ([] : List ChangeEntry)) (b, []) := ⟨h, rfl⟩
  suffices hs : ∀ (l : List ChangeEntry) {x y : FS × List ChangeEntry},
      pSim x y → pSim (l.foldl applySel x) (l.foldl applySel y) from
    (hs sel hp).2
  intro l
  induction l with
  | nil => intro x y h2; exact h2
  | cons a2 t ih =>
    intro x y h2
    rw [List.foldl_cons, List.foldl_cons]
    exact ih (applySel_sim h2 a2)

/-- C9: hash-based equality.  In all three directions (the local-to-repo
scan, the repo-to-local import, and the selected apply) changing only a
modification time anywhere changes nothing in the reported change-set, and
the copy/skip decision on two existing files is "skip" exactly when the
two content digests agree. -/
theorem C9_hash_equality (cfg : Config) (fs : FS) (p : Path) (t : Nat)
    (sel : List ChangeEntry) :
    ((export_from_slicers_to_repo cfg (touchFile fs p t)).2 =
      (export_from_slicers_to_repo cfg fs).2) ∧
    ((import_from_repo_to_slicers cfg (touchFile fs p t)).2 =
      (import_from_repo_to_slicers cfg fs).2) ∧
    ((export_selected_to_repo cfg (touchFile fs p t) sel).2 =
      (export_selected_to_repo cfg fs sel).2) ∧
    (∀ s d : Path, ∀ f g : File,
      copyDecide s d (contentOf (some f)) (contentOf (some g)) = none ↔
        sha256_file f = sha256_file g) := by
  refine ⟨export_sim fsSim_touchFile, import_sim fsSim_touchFile,
    exportSelected_sim fsSim_touchFile sel, ?_⟩
  intro s d f g
  show copyDecide s d (some f.content) (some g.content) = none ↔ _
  unfold copyDecide sha256_file
  by_cases hc : f.content = g.content
  · simp [hc]
  · simp [hc]

end Profilesync
